import Mathlib

/-!
Verification development for the streaming chat protocol core of the
TanStack AI SDK.  The definitions below are a shallow embedding of the
`StreamProcessor` state machine (`packages/typescript/ai/src/activities/chat/
stream/stream-processor.ts`, provided as `src/unnamed/part_004`) and of the
default session adapter (`src/packages/typescript/ai-client/src/
session-adapter.ts`).

Modelling conventions:
* JavaScript `Map` and insertion-ordered `Set` are modelled as association
  lists (`List (String × α)`) and ordered lists of keys; `set` replaces the
  value in place keeping the key's position, `get` takes the first match,
  exactly like the JS collections for the key-disciplined use in the source.
* Timestamps (`createdAt`, `timestamp`) carry no information used by any
  code path modelled here and are omitted.
* The partial JSON parser and the message updaters live in repository files
  that are not part of the provided sources; they are modelled from the
  specification text (see the `Modelled from the spec:` doc comments).
* Lifecycle callbacks (`onMessagesChange`, `onToolCallStateChange`, ...) are
  modelled as an emitted event list returned next to the new processor state.
* `output` values and parsed JSON values are opaque to every property proved
  here; they are carried as strings (`JSON.parse(x)`-or-`x` is modelled as
  the underlying string, and the partial parser as a free constructor).
-/

/-- Message roles of a `UIMessage` (`types.ts`). -/
inductive Role where
  | user
  | assistant
  | system
deriving DecidableEq, Repr

/-- Roles that may appear on a `TEXT_MESSAGE_START` chunk; the processor maps
`tool` to `assistant`. -/
inductive ChunkRole where
  | user
  | assistant
  | system
  | tool
deriving DecidableEq, Repr

/-- Tool call lifecycle states (`types.ts`). -/
inductive ToolCallState where
  | awaitingInput
  | inputStreaming
  | inputComplete
  | approvalRequested
  | approvalResponded
deriving DecidableEq, Repr

/-- Tool result lifecycle states (`types.ts`). -/
inductive ToolResultState where
  | streaming
  | complete
  | error
deriving DecidableEq, Repr

/-- Approval metadata attached to a `ToolCallPart` (`types.ts`). -/
structure Approval where
  id : String
  needsApproval : Bool
  approved : Option Bool
deriving DecidableEq, Repr

/-- Modelled from the spec: values produced by the partial JSON parser
(§4.2), whose implementation is not among the provided sources.  The spec
fixes only the contract (total, best effort), so a parse of an accumulated
argument string is modelled as the free constructor `fromArgs`, and a value
supplied directly on a `TOOL_CALL_END.input` field as `given`. -/
inductive PJson where
  | fromArgs (s : String)
  | given (v : String)
deriving DecidableEq, Repr

/-- Message parts (`types.ts`).  `contentPart` stands for the multimodal
`ContentPart` variants that are passed through opaquely. -/
inductive MessagePart where
  | text (content : String)
  | thinking (content : String)
  | toolCall (id : String) (name : String) (arguments : String)
      (state : ToolCallState) (approval : Option Approval)
      (output : Option String)
  | toolResult (toolCallId : String) (content : String)
      (state : ToolResultState) (error : Option String)
  | contentPart (tag : String) (value : String)
deriving DecidableEq, Repr

/-- A UI message (`types.ts`), without the optional timestamp. -/
structure UIMessage where
  id : String
  role : Role
  parts : List MessagePart
deriving DecidableEq, Repr

/-- Internal per-tool-call stream state (`InternalToolCallState`). -/
structure InternalToolCallState where
  id : String
  name : String
  arguments : String
  state : ToolCallState
  parsedArguments : Option PJson
  index : Nat
deriving DecidableEq, Repr

/-- Per-message stream state (`MessageStreamState`). -/
structure MessageStreamState where
  id : String
  role : Role
  totalTextContent : String
  currentSegmentText : String
  lastEmittedText : String
  thinkingContent : String
  toolCalls : List (String × InternalToolCallState)
  toolCallOrder : List String
  hasToolCallsSinceTextStart : Bool
  isComplete : Bool
deriving DecidableEq, Repr

/-- Payload of the reserved `CUSTOM` events (`tool-input-available`,
`approval-requested`).  The `data` field is untyped in the source; only the
fields the handler reads are modelled. -/
structure CustomData where
  toolCallId : String
  toolName : String
  input : String
  approval : Option Approval
deriving DecidableEq, Repr

/-- The AG-UI stream chunk union (§4.1).  `other` covers the event types the
dispatch switch intentionally ignores (RUN_STARTED, STEP_STARTED,
STATE_SNAPSHOT, STATE_DELTA, and any unknown tag). -/
inductive StreamChunk where
  | textMessageStart (messageId : String) (role : ChunkRole)
  | textMessageContent (messageId : String) (delta : Option String)
      (content : Option String)
  | textMessageEnd (messageId : String)
  | toolCallStart (toolCallId : String) (toolName : String)
      (parentMessageId : Option String) (index : Option Nat)
  | toolCallArgs (toolCallId : String) (delta : String)
  | toolCallEnd (toolCallId : String) (input : Option String)
      (result : Option String)
  | runFinished (finishReason : String)
  | runError (message : String)
  | stepFinished (delta : Option String) (content : Option String)
  | messagesSnapshot (messages : List UIMessage)
  | custom (name : String) (data : Option CustomData)
  | other (tag : String)
deriving DecidableEq, Repr

/-- Events emitted through the `StreamProcessorEvents` callbacks, recorded in
order.  `messagesChange` stands for `onMessagesChange` (its snapshot payload
is the processor's message list at that moment and carries no extra data). -/
inductive Emit where
  | messagesChange
  | streamStart
  | streamEnd (messageId : String)
  | errorEvent (message : String)
  | textUpdate (messageId : String) (content : String)
  | thinkingUpdate (messageId : String) (content : String)
  | toolCallStateChange (messageId : String) (toolCallId : String)
      (state : ToolCallState) (arguments : String)
  | toolCallRequested (toolCallId : String) (toolName : String) (input : String)
  | approvalRequested (toolCallId : String) (toolName : String)
      (input : String) (approvalId : String)
deriving DecidableEq, Repr

/-- Association-list lookup: first binding wins, like `Map.get`. -/
def alookup {α : Type} : List (String × α) → String → Option α
  | [], _ => none
  | (k, v) :: rest, key => if k = key then some v else alookup rest key

/-- Association-list update: replace the binding in place if the key is
present (keeping its position, like `Map.set`), append otherwise. -/
def aset {α : Type} (l : List (String × α)) (key : String) (v : α) :
    List (String × α) :=
  if (alookup l key).isSome then
    l.map (fun kv => if kv.1 = key then (key, v) else kv)
  else l ++ [(key, v)]

/-- Association-list removal, like `Map.delete`. -/
def adel {α : Type} (l : List (String × α)) (key : String) :
    List (String × α) :=
  l.filter (fun kv => kv.1 ≠ key)

/-- Ordered-set insertion, like `Set.add`: append if absent. -/
def addActive (l : List String) (x : String) : List String :=
  if x ∈ l then l else l ++ [x]

/-- JS `s.startsWith(p)` on the characters of the strings. -/
def strStartsWith (s p : String) : Bool := p.data.isPrefixOf s.data

/-- True for a `text` part. -/
def MessagePart.isText : MessagePart → Bool
  | .text _ => true
  | _ => false

/-- True for a `thinking` part. -/
def MessagePart.isThinking : MessagePart → Bool
  | .thinking _ => true
  | _ => false

/-- True for a `tool-call` part with the given id. -/
def MessagePart.isToolCallWithId (tcid : String) : MessagePart → Bool
  | .toolCall i _ _ _ _ _ => i = tcid
  | _ => false

/-- True for a `tool-result` part with the given `toolCallId`. -/
def MessagePart.isToolResultFor (tcid : String) : MessagePart → Bool
  | .toolResult t _ _ _ => t = tcid
  | _ => false

/-- Modelled from the spec: `updateTextPart` (§4.3, `message-updaters`, not
among the provided sources) on the parts of the target message: "if the
target message's last part is a TextPart, replace its content; otherwise
push a new TextPart".  The stream-processor source restates the same rule at
`emitTextUpdateForMessage`.  Written as structural recursion on the list. -/
def updateTextPartParts : List MessagePart → String → List MessagePart
  | [], c => [.text c]
  | [p], c =>
    match p with
    | .text _ => [.text c]
    | q => [q, .text c]
  | p :: q :: rest, c => p :: updateTextPartParts (q :: rest) c

/-- Modelled from the spec: `updateTextPart` lifted to the message list;
mutators "never mutate the original array", and target the message by id. -/
def updateTextPart (messages : List UIMessage) (messageId : String)
    (content : String) : List UIMessage :=
  messages.map (fun m =>
    if m.id = messageId then { m with parts := updateTextPartParts m.parts content }
    else m)

/-- Replace the `thinking` part closest to the end of the (reversed) list. -/
def replaceThinkingRev : List MessagePart → String → List MessagePart
  | [], _ => []
  | .thinking _ :: rest, c => .thinking c :: rest
  | p :: rest, c => p :: replaceThinkingRev rest c

/-- Modelled from the spec: `updateThinkingPart` (§4.3): "replace the latest
ThinkingPart in place; push if absent". -/
def updateThinkingParts (parts : List MessagePart) (content : String) :
    List MessagePart :=
  if parts.any MessagePart.isThinking then
    (replaceThinkingRev parts.reverse content).reverse
  else parts ++ [.thinking content]

/-- Modelled from the spec: `updateThinkingPart` lifted to the message list. -/
def updateThinkingPart (messages : List UIMessage) (messageId : String)
    (content : String) : List UIMessage :=
  messages.map (fun m =>
    if m.id = messageId then { m with parts := updateThinkingParts m.parts content }
    else m)

/-- The record passed by the processor to `updateToolCallPart`. -/
structure ToolCallUpdate where
  id : String
  name : String
  arguments : String
  state : ToolCallState
deriving DecidableEq, Repr

/-- Modelled from the spec: `updateToolCallPart` (§4.3): "upsert by id" on
the parts of the target message.  The update record carries id, name,
arguments and state; the `approval` and `output` fields of an existing part
are preserved (scenario S2 requires `output` to survive the force-complete
performed by RUN_FINISHED). -/
def upsertToolCallParts (parts : List MessagePart) (u : ToolCallUpdate) :
    List MessagePart :=
  if parts.any (MessagePart.isToolCallWithId u.id) then
    parts.map (fun part =>
      match part with
      | .toolCall i _ _ _ ap out =>
        if i = u.id then .toolCall u.id u.name u.arguments u.state ap out
        else part
      | _ => part)
  else parts ++ [.toolCall u.id u.name u.arguments u.state none none]

/-- Modelled from the spec: `updateToolCallPart` lifted to the message list. -/
def updateToolCallPart (messages : List UIMessage) (messageId : String)
    (u : ToolCallUpdate) : List UIMessage :=
  messages.map (fun m =>
    if m.id = messageId then { m with parts := upsertToolCallParts m.parts u }
    else m)

/-- Modelled from the spec: `updateToolCallWithOutput` (§4.3): "set `output`
on the matching ToolCallPart" (searched across all messages, the call is
identified by `toolCallId` only); an optional state override is applied when
provided (used by `addToolResult` on errors). -/
def updateToolCallWithOutput (messages : List UIMessage) (tcid : String)
    (output : String) (stateOverride : Option ToolCallState) :
    List UIMessage :=
  messages.map (fun m =>
    { m with parts := m.parts.map (fun part =>
        match part with
        | .toolCall i n a s ap _ =>
          if i = tcid then
            .toolCall i n a (stateOverride.getD s) ap (some output)
          else part
        | _ => part) })

/-- Modelled from the spec: `updateToolCallApproval` (§4.3): "attach approval
metadata, set state to `approval-requested`" on the tool call part of the
target message. -/
def updateToolCallApproval (messages : List UIMessage) (messageId : String)
    (tcid : String) (approvalId : String) : List UIMessage :=
  messages.map (fun m =>
    if m.id = messageId then
      { m with parts := m.parts.map (fun part =>
          match part with
          | .toolCall i n a _ _ out =>
            if i = tcid then
              .toolCall i n a .approvalRequested
                (some { id := approvalId, needsApproval := true, approved := none })
                out
            else part
          | _ => part) }
    else m)

/-- Modelled from the spec: `updateToolCallApprovalResponse` (§4.3): "set
approval decision, state → `approval-responded`" on the tool call part whose
approval id matches. -/
def updateToolCallApprovalResponse (messages : List UIMessage)
    (approvalId : String) (approved : Bool) : List UIMessage :=
  messages.map (fun m =>
    { m with parts := m.parts.map (fun part =>
        match part with
        | .toolCall i n a _ (some ap) out =>
          if ap.id = approvalId then
            .toolCall i n a .approvalResponded
              (some { ap with approved := some approved }) out
          else part
        | _ => part) })

/-- Insert a part right after the first `tool-call` part with the given id. -/
def insertAfterToolCall : List MessagePart → String → MessagePart →
    List MessagePart
  | [], _, _ => []
  | p :: rest, tcid, r =>
    if p.isToolCallWithId tcid then p :: r :: rest
    else p :: insertAfterToolCall rest tcid r

/-- Modelled from the spec: `updateToolResultPart` (§4.3): "upsert a
ToolResultPart on the owning message".  An existing result part for the same
`toolCallId` is replaced in place; otherwise the new result part is inserted
immediately after the matching ToolCallPart (scenario S2 shows the result
directly after its call, and invariant §3.2 requires the `toolCallId` to
reference a ToolCallPart of the same message, so nothing is inserted when no
matching call part exists). -/
def upsertToolResultParts (parts : List MessagePart) (tcid : String)
    (content : String) (state : ToolResultState) (error : Option String) :
    List MessagePart :=
  if parts.any (MessagePart.isToolResultFor tcid) then
    parts.map (fun part =>
      match part with
      | .toolResult t _ _ _ =>
        if t = tcid then .toolResult tcid content state error else part
      | _ => part)
  else if parts.any (MessagePart.isToolCallWithId tcid) then
    insertAfterToolCall parts tcid (.toolResult tcid content state error)
  else parts

/-- Modelled from the spec: `updateToolResultPart` lifted to the message
list, targeting the owning message by id. -/
def updateToolResultPart (messages : List UIMessage) (messageId : String)
    (tcid : String) (content : String) (state : ToolResultState)
    (error : Option String) : List UIMessage :=
  messages.map (fun m =>
    if m.id = messageId then
      { m with parts := upsertToolResultParts m.parts tcid content state error }
    else m)

/-- The `StreamProcessor` persistent state (§4.7).  `shouldEmit` is the
chunk-emission strategy (the default `ImmediateStrategy` always returns
`true`); strategies with internal state are outside this embedding, so
`reset()` is a no-op.  `nextId` drives `generateMessageId()`. -/
structure Processor where
  shouldEmit : String → String → Bool
  messages : List UIMessage
  messageStates : List (String × MessageStreamState)
  activeMessageIds : List String
  toolCallToMessage : List (String × String)
  pendingManualMessageId : Option String
  finishReason : Option String
  hasError : Bool
  isDone : Bool
  nextId : Nat

/-- Generated message ids (`generateMessageId()` produces fresh unique ids;
modelled as a counter in a reserved namespace). -/
def genId (n : Nat) : String := "#generated-" ++ toString n

/-- The processor's initial state with a given emission strategy and no
initial messages. -/
def initProcessor (strategy : String → String → Bool) : Processor where
  shouldEmit := strategy
  messages := []
  messageStates := []
  activeMessageIds := []
  toolCallToMessage := []
  pendingManualMessageId := none
  finishReason := none
  hasError := false
  isDone := false
  nextId := 0

/-- The default `ImmediateStrategy`: always emit. -/
def immediateStrategy : String → String → Bool := fun _ _ => true

/-- A fresh `MessageStreamState` (`createMessageState`), registered in the
state map. -/
def createMessageState (p : Processor) (messageId : String) (role : Role) :
    Processor :=
  let st : MessageStreamState :=
    { id := messageId
      role := role
      totalTextContent := ""
      currentSegmentText := ""
      lastEmittedText := ""
      thinkingContent := ""
      toolCalls := []
      toolCallOrder := []
      hasToolCallsSinceTextStart := false
      isComplete := false }
  { p with messageStates := aset p.messageStates messageId st }

/-- `getActiveAssistantMessageId`: most recent active id whose state has the
assistant role (the source scans the insertion-ordered set from the end). -/
def getActiveAssistantMessageId (p : Processor) : Option String :=
  p.activeMessageIds.reverse.find? (fun mid =>
    match alookup p.messageStates mid with
    | some st => st.role = .assistant
    | none => false)

/-- `ensureAssistantMessage`: resolve the preferred id if it has stream
state, else the active assistant, else auto-create an assistant message (the
backward-compat path that also sets `pendingManualMessageId`).  Returns the
new processor, the emitted events, and the resolved message id. -/
def ensureAssistantMessage (p : Processor) (preferred : Option String) :
    Processor × List Emit × String :=
  let byPref : Option String :=
    match preferred with
    | some pid => if (alookup p.messageStates pid).isSome then some pid else none
    | none => none
  match byPref with
  | some pid => (p, [], pid)
  | none =>
    match getActiveAssistantMessageId p with
    | some aid => (p, [], aid)
    | none =>
      let idAndNext : String × Nat :=
        match preferred with
        | some pid => (pid, p.nextId)
        | none => (genId p.nextId, p.nextId + 1)
      let mid := idAndNext.1
      let p := { p with
        messages := p.messages ++ [{ id := mid, role := .assistant, parts := [] }]
        nextId := idAndNext.2 }
      let p := createMessageState p mid .assistant
      let p := { p with
        activeMessageIds := addActive p.activeMessageIds mid
        pendingManualMessageId := some mid }
      (p, [.streamStart, .messagesChange], mid)

/-- `emitTextUpdateForMessage`: record the emitted text, update the message's
text part, fire `onMessagesChange` and `onTextUpdate`. -/
def emitTextUpdateForMessage (p : Processor) (mid : String) :
    Processor × List Emit :=
  match alookup p.messageStates mid with
  | none => (p, [])
  | some st =>
    let st := { st with lastEmittedText := st.currentSegmentText }
    let p := { p with messageStates := aset p.messageStates mid st }
    let p := { p with messages := updateTextPart p.messages mid st.currentSegmentText }
    (p, [.messagesChange, .textUpdate mid st.currentSegmentText])

/-- `completeToolCall`: force the tracked tool call into `input-complete`,
re-parse its arguments, update the UI part and emit the granular event. -/
def completeToolCall (p : Processor) (mid : String) (tcid : String) :
    Processor × List Emit :=
  match alookup p.messageStates mid with
  | none => (p, [])
  | some st =>
    match alookup st.toolCalls tcid with
    | none => (p, [])
    | some tc =>
      let tc' := { tc with
        state := .inputComplete
        parsedArguments := some (.fromArgs tc.arguments) }
      let st' := { st with toolCalls := aset st.toolCalls tcid tc' }
      let p := { p with messageStates := aset p.messageStates mid st' }
      let u : ToolCallUpdate :=
        { id := tc.id, name := tc.name, arguments := tc.arguments,
          state := .inputComplete }
      let p := { p with messages := updateToolCallPart p.messages mid u }
      (p, [.messagesChange, .toolCallStateChange mid tc.id .inputComplete tc.arguments])

/-- Loop body of `completeAllToolCallsForMessage`: walk the key snapshot and
complete every tracked tool call that is not yet `input-complete`. -/
def completeToolCallsGo (mid : String) : List String → Processor →
    Processor × List Emit
  | [], p => (p, [])
  | i :: rest, p =>
    let step : Processor × List Emit :=
      match alookup p.messageStates mid with
      | none => (p, [])
      | some st =>
        match alookup st.toolCalls i with
        | none => (p, [])
        | some tc =>
          if tc.state = .inputComplete then (p, [])
          else completeToolCall p mid i
    let rec1 := completeToolCallsGo mid rest step.1
    (rec1.1, step.2 ++ rec1.2)

/-- `completeAllToolCallsForMessage`. -/
def completeAllToolCallsForMessage (p : Processor) (mid : String) :
    Processor × List Emit :=
  match alookup p.messageStates mid with
  | none => (p, [])
  | some st => completeToolCallsGo mid (st.toolCalls.map (·.1)) p

/-- Loop body of `completeAllToolCalls` over the active message ids. -/
def completeAllToolCallsGo : List String → Processor → Processor × List Emit
  | [], p => (p, [])
  | mid :: rest, p =>
    let step := completeAllToolCallsForMessage p mid
    let rec1 := completeAllToolCallsGo rest step.1
    (rec1.1, step.2 ++ rec1.2)

/-- `completeAllToolCalls`: the safety net for stream termination. -/
def completeAllToolCalls (p : Processor) : Processor × List Emit :=
  completeAllToolCallsGo p.activeMessageIds p

/-- The test `content.trim() === ''` of the source: the string contains
nothing but whitespace characters. -/
def isBlankString (s : String) : Bool := s.data.all Char.isWhitespace

/-- `isWhitespaceOnlyMessage`: at least one part and every part a TextPart
whose trimmed content is empty. -/
def isWhitespaceOnlyMessage (m : UIMessage) : Bool :=
  if m.parts.length = 0 then false
  else m.parts.all (fun part =>
    match part with
    | .text c => isBlankString c
    | _ => false)

/-- Flush un-emitted pending text for a message, as done by the
finalization loop. -/
def finalizeFlushPending (p : Processor) (mid : String) :
    Processor × List Emit :=
  match alookup p.messageStates mid with
  | some st =>
    if st.currentSegmentText ≠ st.lastEmittedText then
      emitTextUpdateForMessage p mid
    else (p, [])
  | none => (p, [])

/-- Set `isComplete` on a message stream state (`state.isComplete = true`). -/
def markComplete (p : Processor) (mid : String) : Processor :=
  match alookup p.messageStates mid with
  | some st =>
    let st' := { st with isComplete := true }
    { p with messageStates := aset p.messageStates mid st' }
  | none => p

/-- Track the `lastAssistantMessage` local of the finalization loop. -/
def updateLastAssistant (p : Processor) (mid : String)
    (last : Option UIMessage) : Option UIMessage :=
  match p.messages.find? (fun m => m.id = mid) with
  | some m => if m.role = .assistant then some m else last
  | none => last

/-- Loop body of `finalizeStream` over the active message ids: complete tool
calls, flush pending text, mark complete, and remember the last assistant
message seen. -/
def finalizePassStep (acc : Processor × List Emit × Option UIMessage)
    (mid : String) : Processor × List Emit × Option UIMessage :=
  match alookup acc.1.messageStates mid with
  | none => acc
  | some _ =>
    let s1 := completeAllToolCallsForMessage acc.1 mid
    let s2 := finalizeFlushPending s1.1 mid
    let p3 := markComplete s2.1 mid
    (p3, acc.2.1 ++ s1.2 ++ s2.2, updateLastAssistant p3 mid acc.2.2)

/-- The loop of `finalizeStream` before the whitespace-pruning decision. -/
def finalizePass (p : Processor) : Processor × List Emit × Option UIMessage :=
  p.activeMessageIds.foldl finalizePassStep (p, [], none)

/-- `finalizeStream`: finalize all active messages, clear the active set,
then either prune a whitespace-only last assistant message (when no error
occurred) or fire `onStreamEnd`. -/
def finalizeStream (p : Processor) : Processor × List Emit :=
  let pass := finalizePass p
  let p1 := { pass.1 with activeMessageIds := [] }
  match pass.2.2 with
  | none => (p1, pass.2.1)
  | some la =>
    if !p1.hasError && isWhitespaceOnlyMessage la then
      ({ p1 with messages := p1.messages.filter (fun m => m.id ≠ la.id) },
        pass.2.1 ++ [.messagesChange])
    else (p1, pass.2.1 ++ [.streamEnd la.id])

/-- `resetStreamState` (messages are kept; the chunk strategy's `reset` is a
no-op in this embedding). -/
def resetStreamState (p : Processor) : Processor :=
  { p with
    messageStates := []
    activeMessageIds := []
    toolCallToMessage := []
    pendingManualMessageId := none
    finishReason := none
    hasError := false
    isDone := false }

/-- `isNewTextSegment`: a defined `content` that is shorter than the current
segment, or not in a mutual-extension relation with it, opens a new text
segment. -/
def isNewTextSegment (content : Option String) (previous : String) : Bool :=
  match content with
  | some c =>
    if c.length < previous.length then true
    else if !strStartsWith c previous && !strStartsWith previous c then true
    else false
  | none => false

/-- `handleTextMessageStartEvent`. -/
def handleTextMessageStartEvent (p : Processor) (messageId : String)
    (role : ChunkRole) : Processor × List Emit :=
  let uiRole : Role :=
    match role with
    | .tool => .assistant
    | .user => .user
    | .assistant => .assistant
    | .system => .system
  match p.pendingManualMessageId with
  | some pendingId =>
    -- Case 1: a manual message is pending; rebind its id if needed.
    let p := { p with pendingManualMessageId := none }
    let p :=
      if pendingId ≠ messageId then
        let p := { p with messages := p.messages.map (fun (m : UIMessage) =>
          if m.id = pendingId then { m with id := messageId } else m) }
        let p :=
          match alookup p.messageStates pendingId with
          | some existingState =>
            let moved := { existingState with id := messageId }
            let states' := aset (adel p.messageStates pendingId) messageId moved
            { p with messageStates := states' }
          | none => p
        let act := addActive (p.activeMessageIds.filter (· ≠ pendingId)) messageId
        { p with activeMessageIds := act }
      else p
    let p :=
      if (alookup p.messageStates messageId).isSome then p
      else
        let p := createMessageState p messageId uiRole
        { p with activeMessageIds := addActive p.activeMessageIds messageId }
    (p, [.messagesChange])
  | none =>
    match p.messages.find? (fun m => m.id = messageId) with
    | some _ =>
      -- Case 2: the message already exists (dedup).
      let p := { p with activeMessageIds := addActive p.activeMessageIds messageId }
      match alookup p.messageStates messageId with
      | none => (createMessageState p messageId uiRole, [])
      | some st =>
        if st.hasToolCallsSinceTextStart then
          let s1 : Processor × List Emit :=
            if st.currentSegmentText ≠ st.lastEmittedText then
              emitTextUpdateForMessage p messageId
            else (p, [])
          match alookup s1.1.messageStates messageId with
          | some st2 =>
            let st3 := { st2 with
              currentSegmentText := ""
              lastEmittedText := ""
              hasToolCallsSinceTextStart := false }
            ({ s1.1 with messageStates := aset s1.1.messageStates messageId st3 },
              s1.2)
          | none => s1
        else (p, [])
    | none =>
      -- Case 3: a new message from the stream.
      let p := { p with messages :=
        p.messages ++ [{ id := messageId, role := uiRole, parts := [] }] }
      let p := createMessageState p messageId uiRole
      let p := { p with activeMessageIds := addActive p.activeMessageIds messageId }
      (p, [.streamStart, .messagesChange])

/-- `handleTextMessageEndEvent`. -/
def handleTextMessageEndEvent (p : Processor) (messageId : String) :
    Processor × List Emit :=
  match alookup p.messageStates messageId with
  | none => (p, [])
  | some st =>
    if st.isComplete then (p, [])
    else
      let s1 : Processor × List Emit :=
        if st.currentSegmentText ≠ st.lastEmittedText then
          emitTextUpdateForMessage p messageId
        else (p, [])
      let s2 := completeAllToolCallsForMessage s1.1 messageId
      (s2.1, s1.2 ++ s2.2)

/-- `handleMessagesSnapshotEvent`: authoritative replacement of the
conversation. -/
def handleMessagesSnapshotEvent (p : Processor) (msgs : List UIMessage) :
    Processor × List Emit :=
  let p := resetStreamState p
  ({ p with messages := msgs }, [.messagesChange])

/-- `handleTextMessageContentEvent`: segment-boundary detection, then the
delta/content reconciliation, then the strategy-driven flush. -/
def handleTextMessageContentEvent (p : Processor) (messageId : String)
    (delta : Option String) (content : Option String) :
    Processor × List Emit :=
  let e := ensureAssistantMessage p (some messageId)
  let mid := e.2.2
  let s1 := completeAllToolCallsForMessage e.1 mid
  match alookup s1.1.messageStates mid with
  | none => (s1.1, e.2.1 ++ s1.2)
  | some st =>
    let previousSegment := st.currentSegmentText
    let isNew := st.hasToolCallsSinceTextStart
      && previousSegment.length > 0
      && isNewTextSegment content previousSegment
    let s2 : Processor × List Emit × MessageStreamState :=
      if isNew then
        let f : Processor × List Emit :=
          if previousSegment ≠ st.lastEmittedText then
            emitTextUpdateForMessage s1.1 mid
          else (s1.1, [])
        match alookup f.1.messageStates mid with
        | some st2 =>
          let st3 := { st2 with
            currentSegmentText := ""
            lastEmittedText := ""
            hasToolCallsSinceTextStart := false }
          ({ f.1 with messageStates := aset f.1.messageStates mid st3 }, f.2, st3)
        | none => (f.1, f.2, st)
      else (s1.1, [], st)
    let current := s2.2.2.currentSegmentText
    let d := (delta.getD "")
    let nextText :=
      if d ≠ "" then current ++ d
      else
        match content with
        | some c =>
          if c ≠ "" then
            if strStartsWith c current then c
            else if strStartsWith current c then current
            else current ++ c
          else current
        | none => current
    let textDelta := nextText.drop current.length
    let st4 := { s2.2.2 with
      currentSegmentText := nextText
      totalTextContent := s2.2.2.totalTextContent ++ textDelta }
    let p4 := { s2.1 with messageStates := aset s2.1.messageStates mid st4 }
    let chunkPortion :=
      match delta with
      | some dd => if dd ≠ "" then dd else content.getD ""
      | none => content.getD ""
    let s3 : Processor × List Emit :=
      if p4.shouldEmit chunkPortion st4.currentSegmentText
          && st4.currentSegmentText ≠ st4.lastEmittedText then
        emitTextUpdateForMessage p4 mid
      else (p4, [])
    (s3.1, e.2.1 ++ s1.2 ++ s2.2.1 ++ s3.2)

/-- `handleToolCallStartEvent`: route to the parent (or active assistant)
message, flag the segment boundary, and create the tracked tool call unless
the id is already known to that message. -/
def handleToolCallStartEvent (p : Processor) (toolCallId : String)
    (toolName : String) (parentMessageId : Option String)
    (index : Option Nat) : Processor × List Emit :=
  let target : Option String :=
    match parentMessageId with
    | some x => some x
    | none => getActiveAssistantMessageId p
  let e := ensureAssistantMessage p target
  let mid := e.2.2
  match alookup e.1.messageStates mid with
  | none => (e.1, e.2.1)
  | some st =>
    let st := { st with hasToolCallsSinceTextStart := true }
    let p := { e.1 with messageStates := aset e.1.messageStates mid st }
    match alookup st.toolCalls toolCallId with
    | some _ => (p, e.2.1)
    | none =>
      let newTc : InternalToolCallState :=
        { id := toolCallId
          name := toolName
          arguments := ""
          state := .awaitingInput
          parsedArguments := none
          index := index.getD st.toolCalls.length }
      let st := { st with
        toolCalls := aset st.toolCalls toolCallId newTc
        toolCallOrder := st.toolCallOrder ++ [toolCallId] }
      let p := { p with messageStates := aset p.messageStates mid st }
      let p := { p with toolCallToMessage := aset p.toolCallToMessage toolCallId mid }
      let u : ToolCallUpdate :=
        { id := toolCallId, name := toolName, arguments := "",
          state := .awaitingInput }
      let p := { p with messages := updateToolCallPart p.messages mid u }
      (p, e.2.1 ++ [.messagesChange,
        .toolCallStateChange mid toolCallId .awaitingInput ""])

/-- `handleToolCallArgsEvent`: append the delta, promote `awaiting-input` to
`input-streaming` on the first non-empty delta, re-parse, update the part.
Args for unknown ids are silently dropped. -/
def handleToolCallArgsEvent (p : Processor) (toolCallId : String)
    (delta : String) : Processor × List Emit :=
  match alookup p.toolCallToMessage toolCallId with
  | none => (p, [])
  | some mid =>
    match alookup p.messageStates mid with
    | none => (p, [])
    | some st =>
      match alookup st.toolCalls toolCallId with
      | none => (p, [])
      | some tc =>
        let wasAwaitingInput := tc.state = .awaitingInput
        let args := tc.arguments ++ delta
        let newState : ToolCallState :=
          if wasAwaitingInput ∧ delta ≠ "" then .inputStreaming else tc.state
        let tc' := { tc with
          arguments := args
          state := newState
          parsedArguments := some (.fromArgs args) }
        let st' := { st with toolCalls := aset st.toolCalls toolCallId tc' }
        let p := { p with
          messageStates := aset p.messageStates mid st'
          messages := updateToolCallPart p.messages mid
            { id := tc.id, name := tc.name, arguments := args, state := newState } }
        (p, [.messagesChange, .toolCallStateChange mid tc.id newState args])

/-- Set the parsed arguments of a tracked tool call (the `TOOL_CALL_END`
`input` override). -/
def setParsedArguments (p : Processor) (mid : String) (tcid : String)
    (v : PJson) : Processor :=
  match alookup p.messageStates mid with
  | none => p
  | some st =>
    match alookup st.toolCalls tcid with
    | none => p
    | some tc =>
      let tc' := { tc with parsedArguments := some v }
      let st' := { st with toolCalls := aset st.toolCalls tcid tc' }
      { p with messageStates := aset p.messageStates mid st' }

/-- `handleToolCallEndEvent`: complete the call (and apply the `input`
override) unless it already is `input-complete`; when a non-empty `result`
is present, set the call part's output and upsert a complete
ToolResultPart. -/
def handleToolCallEndEvent (p : Processor) (toolCallId : String)
    (input : Option String) (result : Option String) :
    Processor × List Emit :=
  match alookup p.toolCallToMessage toolCallId with
  | none => (p, [])
  | some mid =>
    match alookup p.messageStates mid with
    | none => (p, [])
    | some st =>
      let s1 : Processor × List Emit :=
        match alookup st.toolCalls toolCallId with
        | some tc =>
          if tc.state ≠ .inputComplete then
            let c := completeToolCall p mid toolCallId
            let p2 :=
              match input with
              | some v => setParsedArguments c.1 mid toolCallId (.given v)
              | none => c.1
            (p2, c.2)
          else (p, [])
        | none => (p, [])
      match result with
      | some r =>
        if r ≠ "" then
          let p3 := { s1.1 with messages :=
            updateToolCallWithOutput s1.1.messages toolCallId r none }
          let p4 := { p3 with messages :=
            updateToolResultPart p3.messages mid toolCallId r .complete none }
          (p4, s1.2 ++ [.messagesChange])
        else s1
      | none => s1

/-- `handleRunFinishedEvent`: record the reason, force-complete tool calls,
finalize. -/
def handleRunFinishedEvent (p : Processor) (finishReason : String) :
    Processor × List Emit :=
  let p := { p with finishReason := some finishReason, isDone := true }
  let s1 := completeAllToolCalls p
  let s2 := finalizeStream s1.1
  (s2.1, s1.2 ++ s2.2)

/-- `handleRunErrorEvent`. -/
def handleRunErrorEvent (p : Processor) (message : String) :
    Processor × List Emit :=
  let p := { p with hasError := true }
  let e := ensureAssistantMessage p none
  (e.1, e.2.1 ++ [.errorEvent (if message = "" then "An error occurred" else message)])

/-- `handleStepFinishedEvent`: thinking/reasoning content, replaced in
place. -/
def handleStepFinishedEvent (p : Processor) (delta : Option String)
    (content : Option String) : Processor × List Emit :=
  let e := ensureAssistantMessage p (getActiveAssistantMessageId p)
  let mid := e.2.2
  match alookup e.1.messageStates mid with
  | none => (e.1, e.2.1)
  | some st =>
    let previous := st.thinkingContent
    let nextThinking :=
      match delta with
      | some d =>
        if d ≠ "" then previous ++ d
        else
          match content with
          | some c =>
            if c ≠ "" then
              if strStartsWith c previous then c
              else if strStartsWith previous c then previous
              else previous ++ c
            else previous
          | none => previous
      | none =>
        match content with
        | some c =>
          if c ≠ "" then
            if strStartsWith c previous then c
            else if strStartsWith previous c then previous
            else previous ++ c
          else previous
        | none => previous
    let st := { st with thinkingContent := nextThinking }
    let p := { e.1 with
      messageStates := aset e.1.messageStates mid st
      messages := updateThinkingPart e.1.messages mid nextThinking }
    (p, e.2.1 ++ [.messagesChange, .thinkingUpdate mid nextThinking])

/-- `handleCustomEvent`: the two reserved names, in truncated-at-throw
semantics.  The source destructures `chunk.data` and dereferences
`approval.id` unchecked, so an `approval-requested` event whose data carries
no approval object throws a TypeError before any state change or emission of
the approval branch; this total function returns the state and emissions at
the throw point (`(p, [])` on that branch).  The faithful fallible handler
is `handleCustomEventE`; their agreement is proved in
`claim_C8_amended_protocol_violations_tolerated`. -/
def handleCustomEvent (p : Processor) (name : String)
    (data : Option CustomData) : Processor × List Emit :=
  let mid? := getActiveAssistantMessageId p
  let es1 : List Emit :=
    match data with
    | some d =>
      if name = "tool-input-available" then
        [.toolCallRequested d.toolCallId d.toolName d.input]
      else []
    | none => []
  if name = "approval-requested" then
    match data with
    | some d =>
      match d.approval with
      | some ap =>
        let s1 : Processor × List Emit :=
          match mid? with
          | some mid =>
            ({ p with messages :=
                updateToolCallApproval p.messages mid d.toolCallId ap.id },
              [.messagesChange])
          | none => (p, [])
        (s1.1, es1 ++ s1.2 ++ [.approvalRequested d.toolCallId d.toolName d.input ap.id])
      | none => (p, es1)
    | none => (p, es1)
  else (p, es1)

/-- `handleCustomEvent`, fallibly.  For an `approval-requested` event with
truthy `data` the source reads `approval.id` without checking `approval`:
as an argument of `updateToolCallApproval` when an active assistant message
exists, and in the `onApprovalRequest` payload otherwise (callbacks are
modelled as observed throughout this development).  When the data carries no
approval object that dereference raises a TypeError, before any state change
or emission of the approval branch. -/
def handleCustomEventE (p : Processor) (name : String)
    (data : Option CustomData) : Except String (Processor × List Emit) :=
  let mid? := getActiveAssistantMessageId p
  let es1 : List Emit :=
    match data with
    | some d =>
      if name = "tool-input-available" then
        [.toolCallRequested d.toolCallId d.toolName d.input]
      else []
    | none => []
  if name = "approval-requested" then
    match data with
    | some d =>
      match d.approval with
      | some ap =>
        let s1 : Processor × List Emit :=
          match mid? with
          | some mid =>
            ({ p with messages :=
                updateToolCallApproval p.messages mid d.toolCallId ap.id },
              [.messagesChange])
          | none => (p, [])
        .ok (s1.1,
          es1 ++ s1.2 ++ [.approvalRequested d.toolCallId d.toolName d.input ap.id])
      | none => .error "TypeError: cannot read id of undefined approval"
    | none => .ok (p, es1)
  else .ok (p, es1)

/-- `processChunk`: the central dispatch (events outside the switch are
intentionally ignored). -/
def processChunk (p : Processor) : StreamChunk → Processor × List Emit
  | .textMessageStart messageId role => handleTextMessageStartEvent p messageId role
  | .textMessageContent messageId delta content =>
    handleTextMessageContentEvent p messageId delta content
  | .textMessageEnd messageId => handleTextMessageEndEvent p messageId
  | .toolCallStart toolCallId toolName parent index =>
    handleToolCallStartEvent p toolCallId toolName parent index
  | .toolCallArgs toolCallId delta => handleToolCallArgsEvent p toolCallId delta
  | .toolCallEnd toolCallId input result =>
    handleToolCallEndEvent p toolCallId input result
  | .runFinished finishReason => handleRunFinishedEvent p finishReason
  | .runError message => handleRunErrorEvent p message
  | .stepFinished delta content => handleStepFinishedEvent p delta content
  | .messagesSnapshot msgs => handleMessagesSnapshotEvent p msgs
  | .custom name data => handleCustomEvent p name data
  | .other _ => (p, [])

/-- `processChunk`, fallibly: every handler except the CUSTOM one is total
(no throw path), and the CUSTOM handler is dispatched to its faithful
fallible form. -/
def processChunkE (p : Processor) : StreamChunk →
    Except String (Processor × List Emit)
  | .custom name data => handleCustomEventE p name data
  | c => .ok (processChunk p c)

/-- `addToolResult`: no-op (apart from a console warning) when no message
contains a tool call part with the given id; otherwise set the call part's
output and upsert a tool result part on the owning message. -/
def addToolResult (p : Processor) (toolCallId : String) (output : String)
    (error : Option String) : Processor × List Emit :=
  match p.messages.find? (fun m =>
    m.parts.any (MessagePart.isToolCallWithId toolCallId)) with
  | none => (p, [])
  | some m =>
    let msgs := updateToolCallWithOutput p.messages toolCallId output
      (if error.isSome then some .inputComplete else none)
    let msgs := updateToolResultPart msgs m.id toolCallId output
      (if error.isSome then .error else .complete) error
    ({ p with messages := msgs }, [.messagesChange])

/-- `addToolApprovalResponse`. -/
def addToolApprovalResponse (p : Processor) (approvalId : String)
    (approved : Bool) : Processor × List Emit :=
  ({ p with messages :=
      updateToolCallApprovalResponse p.messages approvalId approved },
    [.messagesChange])

/-- Run a list of chunks through the processor, accumulating emissions. -/
def runChunks : Processor → List StreamChunk → Processor × List Emit
  | p, [] => (p, [])
  | p, c :: rest =>
    let s := processChunk p c
    let r := runChunks s.1 rest
    (r.1, s.2 ++ r.2)

/-- External operations considered by the tool-call monotonicity claim: a
stream chunk given to `processChunk`, or a host call to
`addToolApprovalResponse`. -/
inductive Op where
  | chunk (c : StreamChunk)
  | approvalResponse (approvalId : String) (approved : Bool)
deriving DecidableEq, Repr

/-- Apply one operation. -/
def applyOp (p : Processor) : Op → Processor × List Emit
  | .chunk c => processChunk p c
  | .approvalResponse approvalId approved =>
    addToolApprovalResponse p approvalId approved

/-- Run a list of operations, accumulating emissions. -/
def runOps : Processor → List Op → Processor × List Emit
  | p, [] => (p, [])
  | p, op :: rest =>
    let s := applyOp p op
    let r := runOps s.1 rest
    (r.1, s.2 ++ r.2)

/-- The event stream produced by one `connection.connect()` call as consumed
by the default session adapter's `send()`: the chunks the iterable yields,
and, when the iteration ends by throwing, the error.  (`session-adapter.ts`.) -/
structure ConnectionRun where
  chunks : List StreamChunk
  thrown : Option String
deriving DecidableEq, Repr

/-- `createDefaultSession(...).send`: push every chunk of the connection
stream to the subscription queue; if the iteration throws, push a
synthesized RUN_ERROR and re-throw.  The function returns the sequence of
chunks pushed through `push(chunk)` (delivery to a waiter vs. buffering does
not change that sequence) and whether `send` re-threw. -/
def sendPushes (run : ConnectionRun) : List StreamChunk × Bool :=
  match run.thrown with
  | none => (run.chunks, false)
  | some e =>
    (run.chunks ++
      [.runError (if e = "" then "Unknown error in send()" else e)], true)

/-- Whether a chunk is a RUN_FINISHED event. -/
def StreamChunk.isRunFinished : StreamChunk → Bool
  | .runFinished _ => true
  | _ => false

/-- Whether a chunk is a RUN_ERROR event. -/
def StreamChunk.isRunError : StreamChunk → Bool
  | .runError _ => true
  | _ => false

/-- Whether a chunk is a MESSAGES_SNAPSHOT event. -/
def StreamChunk.isSnapshot : StreamChunk → Bool
  | .messagesSnapshot _ => true
  | _ => false

/-- The claim-level part-ordering regular expression
`(Text | Thinking | (ToolCall ToolResult?))*`. -/
def matchesPartRegex : List MessagePart → Bool
  | [] => true
  | .text _ :: rest => matchesPartRegex rest
  | .thinking _ :: rest => matchesPartRegex rest
  | .toolCall _ _ _ _ _ _ :: .toolResult _ _ _ _ :: rest => matchesPartRegex rest
  | .toolCall _ _ _ _ _ _ :: rest => matchesPartRegex rest
  | .toolResult _ _ _ _ :: _ => false
  | .contentPart _ _ :: _ => false

/-- No two adjacent TextParts. -/
def noAdjacentTexts : List MessagePart → Bool
  | .text _ :: .text _ :: _ => false
  | _ :: rest => noAdjacentTexts rest
  | [] => true

/-- Adjacency discipline of processor-produced part lists: a tool result may
only directly follow the tool call it answers, and no two texts are
adjacent; `contentPart`s never occur. -/
def okPair : MessagePart → MessagePart → Bool
  | a, .toolResult tid _ _ _ =>
    match a with
    | .toolCall cid _ _ _ _ _ => cid = tid
    | _ => false
  | .text _, .text _ => false
  | _, .contentPart _ _ => false
  | _, _ => true

/-- Pairwise chain of `okPair` along a parts list. -/
def okChain : MessagePart → List MessagePart → Bool
  | _, [] => true
  | a, b :: rest => okPair a b && okChain b rest

/-- The strengthened part-ordering invariant maintained by the processor. -/
def wellFormedParts : List MessagePart → Bool
  | [] => true
  | x :: xs =>
    (match x with
     | .toolResult _ _ _ _ => false
     | .contentPart _ _ => false
     | _ => true) && okChain x xs

/-- All messages of a processor have well-formed part lists. -/
def allWellFormed (p : Processor) : Prop :=
  ∀ m ∈ p.messages, wellFormedParts m.parts = true

/-- The states a given tool call id is reported in by
`onToolCallStateChange`, in emission order. -/
def tEmits (es : List Emit) (t : String) : List ToolCallState :=
  es.filterMap (fun e =>
    match e with
    | .toolCallStateChange _ tc s _ => if tc = t then some s else none
    | _ => none)

/-- Rank of the input-lifecycle chain
`awaiting-input < input-streaming < input-complete`. -/
def rank3 : ToolCallState → Nat
  | .awaitingInput => 0
  | .inputStreaming => 1
  | .inputComplete => 2
  | .approvalRequested => 0
  | .approvalResponded => 0

/-- Membership in the input-lifecycle chain. -/
def inChain3 : ToolCallState → Bool
  | .awaitingInput => true
  | .inputStreaming => true
  | .inputComplete => true
  | _ => false

/-- A step from `a` to `b` is a regression exactly when `b` lies strictly
below `a` in the ordering `awaiting-input < input-streaming <
input-complete`, `approval-requested < approval-responded` (states of
different chains are incomparable). -/
def noRegression : ToolCallState → ToolCallState → Bool
  | .inputStreaming, .awaitingInput => false
  | .inputComplete, .awaitingInput => false
  | .inputComplete, .inputStreaming => false
  | .approvalResponded, .approvalRequested => false
  | _, _ => true

/-- The state stored on the (last) ToolCallPart with the given id, scanning
the conversation. -/
def getToolCallPartState (messages : List UIMessage) (tcid : String) :
    Option ToolCallState :=
  messages.foldr (fun m acc =>
    m.parts.foldr (fun part acc2 =>
      match part with
      | .toolCall i _ _ s _ _ => if i = tcid then some s else acc2
      | _ => acc2) acc) none

/-- The `toolCallId`s of the TOOL_CALL_START events in an operation list. -/
def startIds : List Op → List String
  | [] => []
  | .chunk (.toolCallStart t _ _ _) :: rest => t :: startIds rest
  | _ :: rest => startIds rest

theorem alookup_eq_none {α : Type} {l : List (String × α)} {k : String} :
    alookup l k = none ↔ ∀ e ∈ l, e.1 ≠ k := by
  induction l with
  | nil => simp [alookup]
  | cons e rest ih =>
    obtain ⟨k', v⟩ := e
    by_cases h : k' = k <;> simp [alookup, h, ih]

theorem alookup_isSome_of_mem {α : Type} {l : List (String × α)} {k : String}
    {v : α} (h : (k, v) ∈ l) : (alookup l k).isSome := by
  induction l with
  | nil => simp at h
  | cons e rest ih =>
    obtain ⟨k', v'⟩ := e
    rcases List.mem_cons.mp h with h1 | h1
    · have : k' = k := by
        have := congrArg Prod.fst h1.symm
        simpa using this
      simp [alookup, this]
    · by_cases hk : k' = k <;> simp [alookup, hk, ih h1]

theorem mem_aset {α : Type} {l : List (String × α)} {k : String} {v : α}
    {e : String × α} (h : e ∈ aset l k v) :
    (e ∈ l ∧ e.1 ≠ k) ∨ e = (k, v) := by
  unfold aset at h
  by_cases hs : (alookup l k).isSome
  · simp only [hs, if_true] at h
    obtain ⟨e', he', heq⟩ := List.mem_map.mp h
    by_cases hk : e'.1 = k
    · right
      rw [if_pos hk] at heq
      exact heq.symm
    · left
      rw [if_neg hk] at heq
      exact ⟨heq ▸ he', heq ▸ hk⟩
  · simp only [hs, if_false] at h
    rcases List.mem_append.mp h with h1 | h1
    · left
      refine ⟨h1, ?_⟩
      exact alookup_eq_none.mp (Option.not_isSome_iff_eq_none.mp hs) e h1
    · right; simpa using h1

theorem alookup_append_of_none {α : Type} {l1 : List (String × α)}
    (l2 : List (String × α)) {k : String} (h : alookup l1 k = none) :
    alookup (l1 ++ l2) k = alookup l2 k := by
  induction l1 with
  | nil => simp
  | cons e rest ih =>
    obtain ⟨k', v'⟩ := e
    by_cases hk : k' = k
    · simp [alookup, hk] at h
    · simp only [alookup, hk, if_false] at h
      simpa [alookup, hk] using ih h

theorem alookup_map_setter {α : Type} (l : List (String × α)) (k : String)
    (v : α) :
    alookup (l.map (fun kv => if kv.1 = k then (k, v) else kv)) k =
      if (alookup l k).isSome then some v else none := by
  induction l with
  | nil => simp [alookup]
  | cons e rest ih =>
    obtain ⟨k', v'⟩ := e
    simp only [List.map_cons]
    by_cases hk : k' = k
    · subst hk
      rw [if_pos rfl]
      simp [alookup]
    · rw [if_neg (by simpa using hk)]
      simp only [alookup, hk, if_false]
      rw [ih]

theorem alookup_map_setter_ne {α : Type} (l : List (String × α))
    {k k' : String} (v : α) (h : k' ≠ k) :
    alookup (l.map (fun kv => if kv.1 = k then (k, v) else kv)) k' =
      alookup l k' := by
  induction l with
  | nil => simp
  | cons e rest ih =>
    obtain ⟨k0, v0⟩ := e
    simp only [List.map_cons]
    by_cases hk : k0 = k
    · subst hk
      rw [if_pos rfl]
      simp only [alookup, Ne.symm h, if_false]
      exact ih
    · rw [if_neg (by simpa using hk)]
      by_cases hk' : k0 = k'
      · simp [alookup, hk']
      · simp only [alookup, hk', if_false]
        exact ih

theorem alookup_aset_self {α : Type} (l : List (String × α)) (k : String)
    (v : α) : alookup (aset l k v) k = some v := by
  unfold aset
  by_cases hs : (alookup l k).isSome
  · simp [hs, alookup_map_setter]
  · rw [if_neg hs]
    rw [alookup_append_of_none _ (Option.not_isSome_iff_eq_none.mp hs)]
    simp [alookup]

theorem alookup_aset_ne {α : Type} (l : List (String × α)) {k k' : String}
    (v : α) (h : k' ≠ k) : alookup (aset l k v) k' = alookup l k' := by
  unfold aset
  by_cases hs : (alookup l k).isSome
  · simp [hs, alookup_map_setter_ne _ _ h]
  · rw [if_neg hs]
    clear hs
    induction l with
    | nil => simp [alookup, Ne.symm h]
    | cons e rest ih =>
      obtain ⟨k0, v0⟩ := e
      by_cases hk : k0 = k'
      · simp [alookup, hk]
      · simp only [List.cons_append, alookup, hk, if_false]
        exact ih

/-- A processor whose message states, messages and active set (only) may
differ from `p`: the common shape of the stream-termination helpers, used to
read off which fields they preserve. -/
def bigUpdate (p : Processor) (s : List (String × MessageStreamState))
    (m : List UIMessage) (a : List String) : Processor :=
  { p with messageStates := s, messages := m, activeMessageIds := a }

theorem bigUpdate_bigUpdate (p : Processor) (s m a s' m' a') :
    bigUpdate (bigUpdate p s m a) s' m' a' = bigUpdate p s' m' a' := rfl

theorem completeToolCall_shape (p : Processor) (mid tcid : String) :
    ∃ s m, (completeToolCall p mid tcid).1 =
      bigUpdate p s m p.activeMessageIds := by
  unfold completeToolCall
  cases alookup p.messageStates mid with
  | none => exact ⟨p.messageStates, p.messages, rfl⟩
  | some st =>
    dsimp only
    cases alookup st.toolCalls tcid with
    | none => exact ⟨p.messageStates, p.messages, rfl⟩
    | some tc =>
      dsimp only
      exact ⟨_, _, rfl⟩

theorem completeToolCallsGo_shape (mid : String) (ids : List String) :
    ∀ p : Processor, ∃ s m, (completeToolCallsGo mid ids p).1 =
      bigUpdate p s m p.activeMessageIds := by
  induction ids with
  | nil => intro p; exact ⟨p.messageStates, p.messages, rfl⟩
  | cons i rest ih =>
    intro p
    show ∃ s m, (completeToolCallsGo mid (i :: rest) p).1 = _
    unfold completeToolCallsGo
    dsimp only
    set step : Processor × List Emit :=
      (match alookup p.messageStates mid with
      | none => (p, [])
      | some st =>
        match alookup st.toolCalls i with
        | none => (p, [])
        | some tc =>
          if tc.state = .inputComplete then (p, [])
          else completeToolCall p mid i) with hstep
    have hshape : ∃ s m, step.1 = bigUpdate p s m p.activeMessageIds := by
      rw [hstep]
      cases alookup p.messageStates mid with
      | none => exact ⟨p.messageStates, p.messages, rfl⟩
      | some st =>
        dsimp only
        cases alookup st.toolCalls i with
        | none => exact ⟨p.messageStates, p.messages, rfl⟩
        | some tc =>
          dsimp only
          by_cases hc : tc.state = .inputComplete
          · rw [if_pos hc]; exact ⟨p.messageStates, p.messages, rfl⟩
          · rw [if_neg hc]; exact completeToolCall_shape p mid i
    obtain ⟨s1, m1, h1⟩ := hshape
    obtain ⟨s2, m2, h2⟩ := ih step.1
    refine ⟨s2, m2, ?_⟩
    dsimp only
    rw [h2, h1]
    rfl

theorem completeAllToolCallsForMessage_shape (p : Processor) (mid : String) :
    ∃ s m, (completeAllToolCallsForMessage p mid).1 =
      bigUpdate p s m p.activeMessageIds := by
  unfold completeAllToolCallsForMessage
  cases alookup p.messageStates mid with
  | none => exact ⟨p.messageStates, p.messages, rfl⟩
  | some st =>
    dsimp only
    exact completeToolCallsGo_shape mid _ p

theorem completeAllToolCallsGo_shape (ids : List String) :
    ∀ p : Processor, ∃ s m, (completeAllToolCallsGo ids p).1 =
      bigUpdate p s m p.activeMessageIds := by
  induction ids with
  | nil => intro p; exact ⟨p.messageStates, p.messages, rfl⟩
  | cons mid rest ih =>
    intro p
    unfold completeAllToolCallsGo
    dsimp only
    obtain ⟨s1, m1, h1⟩ := completeAllToolCallsForMessage_shape p mid
    obtain ⟨s2, m2, h2⟩ := ih (completeAllToolCallsForMessage p mid).1
    refine ⟨s2, m2, ?_⟩
    rw [h2, h1]
    rfl

theorem emitTextUpdateForMessage_shape (p : Processor) (mid : String) :
    ∃ s m, (emitTextUpdateForMessage p mid).1 =
      bigUpdate p s m p.activeMessageIds := by
  unfold emitTextUpdateForMessage
  cases alookup p.messageStates mid with
  | none => exact ⟨p.messageStates, p.messages, rfl⟩
  | some st =>
    dsimp only
    exact ⟨_, _, rfl⟩

theorem finalizeFlushPending_shape (p : Processor) (mid : String) :
    ∃ s m, (finalizeFlushPending p mid).1 =
      bigUpdate p s m p.activeMessageIds := by
  unfold finalizeFlushPending
  cases alookup p.messageStates mid with
  | none => exact ⟨p.messageStates, p.messages, rfl⟩
  | some st =>
    dsimp only
    by_cases hne : st.currentSegmentText ≠ st.lastEmittedText
    · rw [if_pos hne]
      exact emitTextUpdateForMessage_shape p mid
    · rw [if_neg hne]
      exact ⟨p.messageStates, p.messages, rfl⟩

theorem markComplete_shape (p : Processor) (mid : String) :
    ∃ s, markComplete p mid = bigUpdate p s p.messages p.activeMessageIds := by
  unfold markComplete
  cases alookup p.messageStates mid with
  | none => exact ⟨p.messageStates, rfl⟩
  | some st =>
    dsimp only
    exact ⟨_, rfl⟩

theorem finalizePassStep_shape (mid : String)
    (acc : Processor × List Emit × Option UIMessage) :
    ∃ s m, (finalizePassStep acc mid).1 =
      bigUpdate acc.1 s m acc.1.activeMessageIds := by
  unfold finalizePassStep
  cases alookup acc.1.messageStates mid with
  | none => exact ⟨acc.1.messageStates, acc.1.messages, rfl⟩
  | some st0 =>
    dsimp only
    obtain ⟨s1, m1, h1⟩ := completeAllToolCallsForMessage_shape acc.1 mid
    obtain ⟨s2, m2, h2⟩ :=
      finalizeFlushPending_shape (completeAllToolCallsForMessage acc.1 mid).1 mid
    obtain ⟨s3, h3⟩ :=
      markComplete_shape
        (finalizeFlushPending (completeAllToolCallsForMessage acc.1 mid).1 mid).1
        mid
    refine ⟨s3, m2, ?_⟩
    rw [h3, h2, h1]
    rfl

theorem foldl_finalizePassStep_shape (ids : List String) :
    ∀ (acc : Processor × List Emit × Option UIMessage) (p : Processor)
      (s0 : List (String × MessageStreamState)) (m0 : List UIMessage),
      acc.1 = bigUpdate p s0 m0 p.activeMessageIds →
      ∃ s m, (ids.foldl finalizePassStep acc).1 =
        bigUpdate p s m p.activeMessageIds := by
  induction ids with
  | nil =>
    intro acc p s0 m0 hacc
    exact ⟨s0, m0, hacc⟩
  | cons i rest ih =>
    intro acc p s0 m0 hacc
    simp only [List.foldl_cons]
    obtain ⟨s1, m1, h1⟩ := finalizePassStep_shape i acc
    refine ih (finalizePassStep acc i) p s1 m1 ?_
    rw [h1, hacc]
    rfl

theorem finalizePass_shape (p : Processor) :
    ∃ s m, (finalizePass p).1 = bigUpdate p s m p.activeMessageIds := by
  exact foldl_finalizePassStep_shape p.activeMessageIds (p, [], none) p
    p.messageStates p.messages rfl

theorem finalizeStream_shape (p : Processor) :
    ∃ s m a, (finalizeStream p).1 = bigUpdate p s m a := by
  obtain ⟨s1, m1, h1⟩ := finalizePass_shape p
  unfold finalizeStream
  dsimp only
  cases (finalizePass p).2.2 with
  | none =>
    refine ⟨s1, m1, [], ?_⟩
    rw [h1]
    rfl
  | some la =>
    dsimp only
    by_cases hc : (!({ (finalizePass p).1 with
        activeMessageIds := ([] : List String) } : Processor).hasError &&
        isWhitespaceOnlyMessage la) = true
    · rw [if_pos hc]
      refine ⟨s1, m1.filter (fun m => m.id ≠ la.id), [], ?_⟩
      rw [h1]
      rfl
    · rw [if_neg hc]
      refine ⟨s1, m1, [], ?_⟩
      rw [h1]
      rfl

theorem alookup_some_mem {α : Type} {l : List (String × α)} {k : String}
    {v : α} (h : alookup l k = some v) : (k, v) ∈ l := by
  induction l with
  | nil => simp [alookup] at h
  | cons e rest ih =>
    obtain ⟨k', v'⟩ := e
    by_cases hk : k' = k
    · subst hk
      simp [alookup] at h
      simp [h]
    · simp only [alookup, hk, if_false] at h
      exact List.mem_cons_of_mem _ (ih h)

/-- Tool-call map evolution during stream termination: every visible entry
is either unchanged or forced into `input-complete`. -/
def toolCallsMono (l l' : List (String × InternalToolCallState)) : Prop :=
  ∀ k tc', alookup l' k = some tc' →
    alookup l k = some tc' ∨ tc'.state = .inputComplete

/-- Message-state map evolution during stream termination. -/
def statesMono (p q : Processor) : Prop :=
  ∀ mid st', alookup q.messageStates mid = some st' →
    ∃ st, alookup p.messageStates mid = some st ∧
      toolCallsMono st.toolCalls st'.toolCalls

theorem toolCallsMono_refl (l : List (String × InternalToolCallState)) :
    toolCallsMono l l := fun _ _ h => Or.inl h

theorem statesMono_refl (p : Processor) : statesMono p p :=
  fun _ st' h => ⟨st', h, toolCallsMono_refl _⟩

theorem statesMono_trans {p q r : Processor} (h1 : statesMono p q)
    (h2 : statesMono q r) : statesMono p r := by
  intro mid st'' hst''
  obtain ⟨st', hst', hm2⟩ := h2 mid st'' hst''
  obtain ⟨st, hst, hm1⟩ := h1 mid st' hst'
  refine ⟨st, hst, ?_⟩
  intro k tc' htc'
  rcases hm2 k tc' htc' with h | h
  · exact hm1 k tc' h
  · exact Or.inr h

theorem statesMono_of_eq {p q : Processor}
    (h : q.messageStates = p.messageStates) : statesMono p q := by
  intro mid st' hst'
  rw [h] at hst'
  exact ⟨st', hst', toolCallsMono_refl _⟩

theorem statesMono_completeToolCall (p : Processor) (mid tcid : String) :
    statesMono p (completeToolCall p mid tcid).1 := by
  unfold completeToolCall
  cases h1 : alookup p.messageStates mid with
  | none => exact statesMono_refl p
  | some st =>
    dsimp only
    cases h2 : alookup st.toolCalls tcid with
    | none => exact statesMono_refl p
    | some tc =>
      dsimp only
      intro mid' st' hst'
      by_cases hm : mid' = mid
      · subst hm
        rw [alookup_aset_self] at hst'
        refine ⟨st, h1, ?_⟩
        cases hst'
        intro k tc' htc'
        by_cases hk : k = tcid
        · subst hk
          rw [alookup_aset_self] at htc'
          cases htc'
          exact Or.inr rfl
        · rw [alookup_aset_ne _ _ hk] at htc'
          exact Or.inl htc'
      · rw [alookup_aset_ne _ _ hm] at hst'
        exact ⟨st', hst', toolCallsMono_refl _⟩

theorem statesMono_completeToolCallsGo (mid : String) (ids : List String) :
    ∀ p : Processor, statesMono p (completeToolCallsGo mid ids p).1 := by
  induction ids with
  | nil => intro p; exact statesMono_refl p
  | cons i rest ih =>
    intro p
    unfold completeToolCallsGo
    dsimp only
    have hstep : statesMono p ((match alookup p.messageStates mid with
      | none => ((p, []) : Processor × List Emit)
      | some st =>
        match alookup st.toolCalls i with
        | none => (p, [])
        | some tc =>
          if tc.state = ToolCallState.inputComplete then (p, [])
          else completeToolCall p mid i)).1 := by
      cases alookup p.messageStates mid with
      | none => exact statesMono_refl p
      | some st =>
        dsimp only
        cases alookup st.toolCalls i with
        | none => exact statesMono_refl p
        | some tc =>
          dsimp only
          by_cases hc : tc.state = .inputComplete
          · rw [if_pos hc]; exact statesMono_refl p
          · rw [if_neg hc]; exact statesMono_completeToolCall p mid i
    exact statesMono_trans hstep (ih _)

theorem statesMono_completeAllToolCallsForMessage (p : Processor)
    (mid : String) : statesMono p (completeAllToolCallsForMessage p mid).1 := by
  unfold completeAllToolCallsForMessage
  cases alookup p.messageStates mid with
  | none => exact statesMono_refl p
  | some st => exact statesMono_completeToolCallsGo mid _ p

theorem statesMono_completeAllToolCallsGo (ids : List String) :
    ∀ p : Processor, statesMono p (completeAllToolCallsGo ids p).1 := by
  induction ids with
  | nil => intro p; exact statesMono_refl p
  | cons mid rest ih =>
    intro p
    unfold completeAllToolCallsGo
    dsimp only
    exact statesMono_trans (statesMono_completeAllToolCallsForMessage p mid)
      (ih _)

theorem statesMono_emitTextUpdateForMessage (p : Processor) (mid : String) :
    statesMono p (emitTextUpdateForMessage p mid).1 := by
  unfold emitTextUpdateForMessage
  cases h1 : alookup p.messageStates mid with
  | none => exact statesMono_refl p
  | some st =>
    dsimp only
    intro mid' st' hst'
    by_cases hm : mid' = mid
    · subst hm
      rw [alookup_aset_self] at hst'
      cases hst'
      exact ⟨st, h1, toolCallsMono_refl _⟩
    · rw [alookup_aset_ne _ _ hm] at hst'
      exact ⟨st', hst', toolCallsMono_refl _⟩

theorem statesMono_finalizeFlushPending (p : Processor) (mid : String) :
    statesMono p (finalizeFlushPending p mid).1 := by
  unfold finalizeFlushPending
  cases alookup p.messageStates mid with
  | none => exact statesMono_refl p
  | some st =>
    dsimp only
    by_cases hne : st.currentSegmentText ≠ st.lastEmittedText
    · rw [if_pos hne]; exact statesMono_emitTextUpdateForMessage p mid
    · rw [if_neg hne]; exact statesMono_refl p

theorem statesMono_markComplete (p : Processor) (mid : String) :
    statesMono p (markComplete p mid) := by
  unfold markComplete
  cases h1 : alookup p.messageStates mid with
  | none => exact statesMono_refl p
  | some st =>
    dsimp only
    intro mid' st' hst'
    by_cases hm : mid' = mid
    · subst hm
      rw [alookup_aset_self] at hst'
      cases hst'
      exact ⟨st, h1, toolCallsMono_refl _⟩
    · rw [alookup_aset_ne _ _ hm] at hst'
      exact ⟨st', hst', toolCallsMono_refl _⟩

theorem statesMono_finalizePassStep (mid : String)
    (acc : Processor × List Emit × Option UIMessage) :
    statesMono acc.1 (finalizePassStep acc mid).1 := by
  unfold finalizePassStep
  cases alookup acc.1.messageStates mid with
  | none => exact statesMono_refl acc.1
  | some st =>
    dsimp only
    refine statesMono_trans (statesMono_completeAllToolCallsForMessage acc.1 mid)
      (statesMono_trans (statesMono_finalizeFlushPending _ mid)
        (statesMono_markComplete _ mid))

theorem statesMono_finalizePass (p : Processor) :
    statesMono p (finalizePass p).1 := by
  unfold finalizePass
  generalize p.activeMessageIds = ids
  suffices h : ∀ (acc : Processor × List Emit × Option UIMessage),
      statesMono p acc.1 → statesMono p (ids.foldl finalizePassStep acc).1 by
    exact h (p, [], none) (statesMono_refl p)
  induction ids with
  | nil => intro acc hacc; exact hacc
  | cons i rest ih =>
    intro acc hacc
    simp only [List.foldl_cons]
    exact ih _ (statesMono_trans hacc (statesMono_finalizePassStep i acc))

theorem statesMono_finalizeStream (p : Processor) :
    statesMono p (finalizeStream p).1 := by
  have hpass := statesMono_finalizePass p
  unfold finalizeStream
  dsimp only
  cases (finalizePass p).2.2 with
  | none => exact statesMono_trans hpass (statesMono_of_eq rfl)
  | some la =>
    dsimp only
    by_cases hc : (!({ (finalizePass p).1 with
        activeMessageIds := ([] : List String) } : Processor).hasError &&
        isWhitespaceOnlyMessage la) = true
    · rw [if_pos hc]
      exact statesMono_trans hpass (statesMono_of_eq rfl)
    · rw [if_neg hc]
      exact statesMono_trans hpass (statesMono_of_eq rfl)

/-- Every tracked tool call of message `mid` is `input-complete`. -/
def allComplete (p : Processor) (mid : String) : Prop :=
  ∀ st, alookup p.messageStates mid = some st →
    ∀ k tc, alookup st.toolCalls k = some tc → tc.state = .inputComplete

theorem allComplete_of_statesMono {p q : Processor} {mid : String}
    (h : statesMono p q) (hc : allComplete p mid) : allComplete q mid := by
  intro st' hst' k tc' htc'
  obtain ⟨st, hst, hm⟩ := h mid st' hst'
  rcases hm k tc' htc' with h1 | h1
  · exact hc st hst k tc' h1
  · exact h1

/-- The tracked tool call after `completeToolCall` has run on it. -/
def completedToolCall (tc : InternalToolCallState) : InternalToolCallState :=
  { tc with state := .inputComplete,
            parsedArguments := some (.fromArgs tc.arguments) }

theorem completeToolCall_eq (p : Processor) (mid tcid : String)
    (st : MessageStreamState) (tc : InternalToolCallState)
    (h1 : alookup p.messageStates mid = some st)
    (h2 : alookup st.toolCalls tcid = some tc) :
    alookup (completeToolCall p mid tcid).1.messageStates mid =
      some { st with toolCalls := aset st.toolCalls tcid (completedToolCall tc) } ∧
    ∀ mid' : String, mid' ≠ mid →
      alookup (completeToolCall p mid tcid).1.messageStates mid' =
        alookup p.messageStates mid' := by
  unfold completeToolCall
  rw [h1]
  dsimp only
  rw [h2]
  dsimp only
  constructor
  · exact alookup_aset_self _ _ _
  · intro mid' hne
    exact alookup_aset_ne _ _ hne

theorem completeToolCallsGo_completes (mid : String) (ids : List String) :
    ∀ p : Processor,
      (∀ st, alookup p.messageStates mid = some st →
        ∀ k tc, alookup st.toolCalls k = some tc →
          k ∈ ids ∨ tc.state = .inputComplete) →
      allComplete (completeToolCallsGo mid ids p).1 mid := by
  induction ids with
  | nil =>
    intro p h
    intro st hst k tc htc
    rcases h st hst k tc htc with h1 | h1
    · simp at h1
    · exact h1
  | cons i rest ih =>
    intro p h
    unfold completeToolCallsGo
    dsimp only
    cases h1 : alookup p.messageStates mid with
    | none =>
      dsimp only
      refine ih p ?_
      intro st hst
      rw [h1] at hst
      cases hst
    | some st =>
      dsimp only
      cases h2 : alookup st.toolCalls i with
      | none =>
        dsimp only
        refine ih p ?_
        intro st0 hst0 k tc htc
        rw [h1] at hst0
        cases hst0
        by_cases hk : k = i
        · subst hk
          rw [h2] at htc
          cases htc
        · rcases h st h1 k tc htc with h3 | h3
          · rcases List.mem_cons.mp h3 with h4 | h4
            · exact absurd h4 hk
            · exact Or.inl h4
          · exact Or.inr h3
      | some tc =>
        dsimp only
        by_cases hc : tc.state = .inputComplete
        · rw [if_pos hc]
          refine ih p ?_
          intro st0 hst0 k tc0 htc0
          rw [h1] at hst0
          cases hst0
          by_cases hk : k = i
          · subst hk
            rw [h2] at htc0
            cases htc0
            exact Or.inr hc
          · rcases h st h1 k tc0 htc0 with h3 | h3
            · rcases List.mem_cons.mp h3 with h4 | h4
              · exact absurd h4 hk
              · exact Or.inl h4
            · exact Or.inr h3
        · rw [if_neg hc]
          refine ih (completeToolCall p mid i).1 ?_
          intro st0 hst0 k tc0 htc0
          obtain ⟨heq, _⟩ := completeToolCall_eq p mid i st tc h1 h2
          rw [heq] at hst0
          cases hst0
          by_cases hk : k = i
          · subst hk
            rw [alookup_aset_self] at htc0
            cases htc0
            exact Or.inr rfl
          · rw [alookup_aset_ne _ _ hk] at htc0
            rcases h st h1 k tc0 htc0 with h3 | h3
            · rcases List.mem_cons.mp h3 with h4 | h4
              · exact absurd h4 hk
              · exact Or.inl h4
            · exact Or.inr h3

theorem completeAllToolCallsForMessage_completes (p : Processor)
    (mid : String) : allComplete (completeAllToolCallsForMessage p mid).1 mid := by
  unfold completeAllToolCallsForMessage
  cases h1 : alookup p.messageStates mid with
  | none =>
    intro st hst
    rw [h1] at hst
    cases hst
  | some st =>
    dsimp only
    refine completeToolCallsGo_completes mid _ p ?_
    intro st0 hst0 k tc htc
    rw [h1] at hst0
    cases hst0
    exact Or.inl (List.mem_map.mpr ⟨(k, tc), alookup_some_mem htc, rfl⟩)

theorem completeAllToolCallsGo_completes (ids : List String) :
    ∀ p : Processor, ∀ mid ∈ ids,
      allComplete (completeAllToolCallsGo ids p).1 mid := by
  induction ids with
  | nil => intro p mid hmid; simp at hmid
  | cons m rest ih =>
    intro p mid hmid
    unfold completeAllToolCallsGo
    dsimp only
    rcases List.mem_cons.mp hmid with h | h
    · subst h
      exact allComplete_of_statesMono (statesMono_completeAllToolCallsGo rest _)
        (completeAllToolCallsForMessage_completes p mid)
    · exact ih _ mid h

/-- C6: Processing a RUN_FINISHED event records the event's finishReason in
the processor state (and sets the done flag), and afterwards every tool call
of every message that was active is in state `input-complete`: any tool call
not yet in `input-complete` is force-transitioned to it by
`completeAllToolCalls`, and the finalization that follows never regresses a
tool call. -/
theorem claim_C6_runFinished_completes_toolCalls (p : Processor)
    (fr mid : String) (hmid : mid ∈ p.activeMessageIds) :
    (processChunk p (.runFinished fr)).1.finishReason = some fr ∧
    (processChunk p (.runFinished fr)).1.isDone = true ∧
    allComplete (processChunk p (.runFinished fr)).1 mid := by
  have hred : processChunk p (.runFinished fr) = handleRunFinishedEvent p fr := rfl
  rw [hred]
  unfold handleRunFinishedEvent
  dsimp only
  obtain ⟨sg, mg, hg⟩ := completeAllToolCallsGo_shape
    ({ p with finishReason := some fr, isDone := true } : Processor).activeMessageIds
    { p with finishReason := some fr, isDone := true }
  have hs1 : completeAllToolCalls { p with finishReason := some fr, isDone := true } =
      completeAllToolCallsGo p.activeMessageIds
        { p with finishReason := some fr, isDone := true } := rfl
  obtain ⟨sf, mf, af, hf⟩ := finalizeStream_shape
    (completeAllToolCalls { p with finishReason := some fr, isDone := true }).1
  refine ⟨?_, ?_, ?_⟩
  · rw [hf, hs1]
    show (completeAllToolCallsGo p.activeMessageIds
      { p with finishReason := some fr, isDone := true }).1.finishReason = some fr
    rw [hg]
    rfl
  · rw [hf, hs1]
    show (completeAllToolCallsGo p.activeMessageIds
      { p with finishReason := some fr, isDone := true }).1.isDone = true
    rw [hg]
    rfl
  · refine allComplete_of_statesMono (statesMono_finalizeStream _) ?_
    rw [hs1]
    exact completeAllToolCallsGo_completes p.activeMessageIds
      { p with finishReason := some fr, isDone := true } mid hmid

/-- A tool call still awaiting input, for concrete test processors. -/
def witnessToolCall : InternalToolCallState :=
  { id := "t1", name := "f", arguments := "", state := .awaitingInput,
    parsedArguments := none, index := 0 }

/-- A mid-stream message state owning `witnessToolCall`. -/
def witnessState : MessageStreamState :=
  { id := "m1", role := .assistant, totalTextContent := "",
    currentSegmentText := "", lastEmittedText := "", thinkingContent := "",
    toolCalls := [("t1", witnessToolCall)], toolCallOrder := ["t1"],
    hasToolCallsSinceTextStart := true, isComplete := false }

/-- A concrete processor mid-stream: one active assistant message with one
tool call still awaiting input. -/
def witnessProcC6 : Processor :=
  { shouldEmit := immediateStrategy
    messages := [{ id := "m1", role := .assistant,
                   parts := [.toolCall "t1" "f" "" .awaitingInput none none] }]
    messageStates := [("m1", witnessState)]
    activeMessageIds := ["m1"]
    toolCallToMessage := [("t1", "m1")]
    pendingManualMessageId := none
    finishReason := none
    hasError := false
    isDone := false
    nextId := 0 }

theorem claim_C6_witness :
    "m1" ∈ witnessProcC6.activeMessageIds ∧
    ((processChunk witnessProcC6 (.runFinished "stop")).1.finishReason =
        some "stop" ∧
      (processChunk witnessProcC6 (.runFinished "stop")).1.isDone = true ∧
      allComplete (processChunk witnessProcC6 (.runFinished "stop")).1 "m1") :=
  ⟨by decide,
    claim_C6_runFinished_completes_toolCalls witnessProcC6 "stop" "m1" (by decide)⟩

/-- C9: An assistant message whose parts list is empty is never removed by
the pruning step of finalizeStream: the whitespace-only predicate returns
`false` for a message with zero parts, so it holds exactly of messages with
at least one part, all of them TextParts trimming to empty, and any change
the pruning step makes to the message list is the removal of such a
message. -/
theorem isWhitespaceOnlyMessage_iff (m : UIMessage) :
    isWhitespaceOnlyMessage m = true ↔
      (m.parts ≠ [] ∧
        ∀ part ∈ m.parts, ∃ c, part = .text c ∧ isBlankString c = true) := by
  unfold isWhitespaceOnlyMessage
  by_cases hlen : m.parts.length = 0
  · rw [if_pos hlen]
    simp [List.length_eq_zero.mp hlen]
  · rw [if_neg hlen]
    rw [List.all_eq_true]
    constructor
    · intro hall
      refine ⟨fun hnil => hlen (by simp [hnil]), ?_⟩
      intro part hp
      have := hall part hp
      cases part with
      | text c =>
        refine ⟨c, rfl, ?_⟩
        simpa using this
      | thinking c => simp at this
      | toolCall a b c d e f => simp at this
      | toolResult a b c d => simp at this
      | contentPart a b => simp at this
    · rintro ⟨-, hall⟩ part hp
      obtain ⟨c, hpart, htrim⟩ := hall part hp
      subst hpart
      simpa using htrim

theorem claim_C9_empty_message_not_pruned :
    (∀ (i : String) (r : Role),
      isWhitespaceOnlyMessage { id := i, role := r, parts := [] } = false) ∧
    (∀ m : UIMessage, isWhitespaceOnlyMessage m = true ↔
      (m.parts ≠ [] ∧ ∀ part ∈ m.parts, ∃ c, part = .text c ∧ isBlankString c = true)) ∧
    (∀ p : Processor,
      (finalizeStream p).1.messages ≠ (finalizePass p).1.messages →
      ∃ la, (finalizePass p).2.2 = some la ∧ la.parts ≠ [] ∧
        ∀ part ∈ la.parts, ∃ c, part = .text c ∧ isBlankString c = true) := by
  have hchar := isWhitespaceOnlyMessage_iff
  refine ⟨?_, hchar, ?_⟩
  · intro i r
    unfold isWhitespaceOnlyMessage
    simp
  · intro p hne
    unfold finalizeStream at hne
    revert hne
    dsimp only
    cases hla : (finalizePass p).2.2 with
    | none =>
      intro hne
      exact absurd rfl hne
    | some la =>
      dsimp only
      by_cases hc : (!({ (finalizePass p).1 with
          activeMessageIds := ([] : List String) } : Processor).hasError &&
          isWhitespaceOnlyMessage la) = true
      · rw [if_pos hc]
        intro _
        have hws : isWhitespaceOnlyMessage la = true :=
          (Bool.and_eq_true _ _).mp hc |>.2
        obtain ⟨h1, h2⟩ := (hchar la).mp hws
        exact ⟨la, rfl, h1, h2⟩
      · rw [if_neg hc]
        intro hne
        exact absurd rfl hne

/-- A processor about to finalize a whitespace-only assistant message. -/
def witnessProcC9 : Processor :=
  { shouldEmit := immediateStrategy
    messages := [{ id := "m1", role := .assistant, parts := [.text "\n"] }]
    messageStates := [("m1",
      { id := "m1", role := .assistant, totalTextContent := "\n",
        currentSegmentText := "\n", lastEmittedText := "\n",
        thinkingContent := "", toolCalls := [], toolCallOrder := [],
        hasToolCallsSinceTextStart := false, isComplete := false })]
    activeMessageIds := ["m1"]
    toolCallToMessage := []
    pendingManualMessageId := none
    finishReason := none
    hasError := false
    isDone := false
    nextId := 0 }

theorem claim_C9_witness :
    (finalizeStream witnessProcC9).1.messages ≠
      (finalizePass witnessProcC9).1.messages ∧
    ∃ la, (finalizePass witnessProcC9).2.2 = some la ∧ la.parts ≠ [] ∧
      ∀ part ∈ la.parts, ∃ c, part = .text c ∧ isBlankString c = true :=
  ⟨by decide, claim_C9_empty_message_not_pruned.2.2 witnessProcC9 (by decide)⟩

/-- C10: `addToolResult` for a toolCallId owned by no message leaves the
message list unchanged and emits nothing (a no-op apart from the console
warning). -/
theorem claim_C10_addToolResult_unknown_id_noop (p : Processor)
    (tcid out : String) (err : Option String)
    (h : ∀ m ∈ p.messages,
      m.parts.any (MessagePart.isToolCallWithId tcid) = false) :
    addToolResult p tcid out err = (p, []) := by
  unfold addToolResult
  have hf : p.messages.find?
      (fun m => m.parts.any (MessagePart.isToolCallWithId tcid)) = none := by
    apply List.find?_eq_none.mpr
    intro m hm
    simp [h m hm]
  rw [hf]

/-- A processor whose only message has a text part and a foreign tool call. -/
def witnessProcC10 : Processor :=
  { shouldEmit := immediateStrategy
    messages := [{ id := "m1", role := .assistant,
                   parts := [.text "hi",
                             .toolCall "t1" "f" "" .inputComplete none none] }]
    messageStates := []
    activeMessageIds := []
    toolCallToMessage := []
    pendingManualMessageId := none
    finishReason := none
    hasError := false
    isDone := false
    nextId := 0 }

theorem claim_C10_witness :
    (∀ m ∈ witnessProcC10.messages,
      m.parts.any (MessagePart.isToolCallWithId "missing") = false) ∧
    addToolResult witnessProcC10 "missing" "out" none = (witnessProcC10, []) :=
  ⟨by decide,
    claim_C10_addToolResult_unknown_id_noop witnessProcC10 "missing" "out" none
      (by decide)⟩

/-- A connection stream that ends without any terminal event. -/
def witnessRunNoTerminal : ConnectionRun :=
  { chunks := [.textMessageContent "m1" (some "Hi") none], thrown := none }

/-- A connection stream whose iteration throws. -/
def witnessRunThrown : ConnectionRun :=
  { chunks := [.textMessageContent "m1" (some "A") none],
    thrown := some "boom" }

/-- C7 as stated is false: `send()` never synthesizes a RUN_FINISHED event;
when the connection stream ends without a terminal event the pushed sequence
is exactly the stream's chunks (the repository's own session-adapter tests
assert this). -/
theorem claim_C7_counterexample :
    sendPushes witnessRunNoTerminal =
      ([.textMessageContent "m1" (some "Hi") none], false) ∧
    ∀ c ∈ (sendPushes witnessRunNoTerminal).1, c.isRunFinished = false := by
  constructor
  · rfl
  · decide

/-- C7 (amended): `send()` pushes exactly the connection's chunks; it never
synthesizes a RUN_FINISHED (every RUN_FINISHED pushed came from the
connection stream itself); only when the connection iteration throws is a
single synthesized RUN_ERROR appended, and the exception is re-thrown. -/
theorem claim_C7_amended_no_synthesized_runFinished (run : ConnectionRun) :
    (∀ c ∈ (sendPushes run).1, c.isRunFinished = true → c ∈ run.chunks) ∧
    (run.thrown = none →
      (sendPushes run).1 = run.chunks ∧ (sendPushes run).2 = false) ∧
    (∀ e, run.thrown = some e →
      ∃ msg, (sendPushes run).1 = run.chunks ++ [.runError msg] ∧
        (sendPushes run).2 = true) := by
  obtain ⟨chunks, thrown⟩ := run
  cases thrown with
  | none =>
    refine ⟨?_, fun _ => ⟨rfl, rfl⟩, ?_⟩
    · intro c hc _
      simpa [sendPushes] using hc
    · intro e he
      simp at he
  | some e =>
    refine ⟨?_, ?_, ?_⟩
    · intro c hc hrf
      unfold sendPushes at hc
      dsimp only at hc
      rcases List.mem_append.mp hc with h | h
      · exact h
      · simp only [List.mem_singleton] at h
        subst h
        simp [StreamChunk.isRunFinished] at hrf
    · intro hnone
      simp at hnone
    · intro e2 he2
      have h3 : e2 = e := by
        injection he2 with h4
        exact h4.symm
      subst h3
      exact ⟨if e2 = "" then "Unknown error in send()" else e2, rfl, rfl⟩

theorem claim_C7_witness :
    witnessRunThrown.thrown = some "boom" ∧
    ∃ msg, (sendPushes witnessRunThrown).1 =
        witnessRunThrown.chunks ++ [.runError msg] ∧
      (sendPushes witnessRunThrown).2 = true :=
  ⟨rfl, (claim_C7_amended_no_synthesized_runFinished _).2.2 "boom" rfl⟩

/-- C4 as stated is false at the empty-parts edge: a TEXT_MESSAGE_START with
no content leaves an assistant message with an empty parts list; every part
of it is (vacuously) a TextPart with blank content and no error occurred,
yet finalization (run by RUN_FINISHED) keeps the message. -/
theorem claim_C4_counterexample :
    (runChunks (initProcessor immediateStrategy)
      [.textMessageStart "m1" .assistant, .runFinished "stop"]).1.messages =
      [{ id := "m1", role := .assistant, parts := [] }] ∧
    (runChunks (initProcessor immediateStrategy)
      [.textMessageStart "m1" .assistant, .runFinished "stop"]).1.hasError =
      false := by
  constructor
  · decide
  · decide

/-- C4 (amended): at finalization, if the last streamed assistant message
has a nonempty parts list whose parts are all TextParts with blank content
and no RUN_ERROR occurred during the stream, the message is removed from the
messages list; if an error occurred, the pass's messages are all kept. -/
theorem claim_C4_amended_whitespace_pruning (p : Processor) (la : UIMessage)
    (hla : (finalizePass p).2.2 = some la) :
    (p.hasError = false → la.parts ≠ [] →
      (∀ part ∈ la.parts, ∃ c, part = .text c ∧ isBlankString c = true) →
      ∀ m ∈ (finalizeStream p).1.messages, m.id ≠ la.id) ∧
    (p.hasError = true →
      ∀ m ∈ (finalizePass p).1.messages, m ∈ (finalizeStream p).1.messages) := by
  have hErr : (finalizePass p).1.hasError = p.hasError := by
    obtain ⟨s, m, h⟩ := finalizePass_shape p
    rw [h]
    rfl
  constructor
  · intro hne hparts hall
    have hws : isWhitespaceOnlyMessage la = true :=
      (isWhitespaceOnlyMessage_iff la).mpr ⟨hparts, hall⟩
    intro m hm
    unfold finalizeStream at hm
    dsimp only at hm
    rw [hla] at hm
    dsimp only at hm
    rw [if_pos (by
      apply (Bool.and_eq_true _ _).mpr
      refine ⟨?_, hws⟩
      have : ({ (finalizePass p).1 with
          activeMessageIds := ([] : List String) } : Processor).hasError =
          p.hasError := by
        rw [← hErr]
      rw [this, hne]
      rfl)] at hm
    dsimp only at hm
    have := List.mem_filter.mp hm
    simpa using this.2
  · intro herr m hm
    unfold finalizeStream
    dsimp only
    rw [hla]
    dsimp only
    rw [if_neg (by
      intro hcontra
      have h1 := ((Bool.and_eq_true _ _).mp hcontra).1
      have : ({ (finalizePass p).1 with
          activeMessageIds := ([] : List String) } : Processor).hasError =
          p.hasError := by
        rw [← hErr]
      rw [this, herr] at h1
      simp at h1)]
    exact hm

/-- `witnessProcC9` with the error flag raised. -/
def witnessProcC4err : Processor := { witnessProcC9 with hasError := true }

theorem claim_C4_witness :
    ((finalizePass witnessProcC9).2.2 =
        some { id := "m1", role := .assistant, parts := [.text "\n"] } ∧
      witnessProcC9.hasError = false ∧
      ∀ m ∈ (finalizeStream witnessProcC9).1.messages, m.id ≠ "m1") ∧
    ((finalizePass witnessProcC4err).2.2 =
        some { id := "m1", role := .assistant, parts := [.text "\n"] } ∧
      witnessProcC4err.hasError = true ∧
      ∀ m ∈ (finalizePass witnessProcC4err).1.messages,
        m ∈ (finalizeStream witnessProcC4err).1.messages) := by
  constructor
  · refine ⟨by decide, rfl, ?_⟩
    exact (claim_C4_amended_whitespace_pruning witnessProcC9
      { id := "m1", role := .assistant, parts := [.text "\n"] }
      (by decide)).1 rfl (by decide) (by
        intro part hp
        simp only [List.mem_singleton] at hp
        subst hp
        exact ⟨"\n", rfl, by decide⟩)
  · refine ⟨by decide, rfl, ?_⟩
    exact (claim_C4_amended_whitespace_pruning witnessProcC4err
      { id := "m1", role := .assistant, parts := [.text "\n"] }
      (by decide)).2 rfl

theorem ensureAssistantMessage_known (p : Processor) (pid : String)
    (h : (alookup p.messageStates pid).isSome) :
    ensureAssistantMessage p (some pid) = (p, [], pid) := by
  unfold ensureAssistantMessage
  dsimp only
  rw [if_pos h]

/-- The only state change a duplicate TOOL_CALL_START performs: flag the
owning message as having seen tool calls since the last text start. -/
def setToolCallFlag (p : Processor) (mid : String) : Processor :=
  match alookup p.messageStates mid with
  | some st =>
    let st' := { st with hasToolCallsSinceTextStart := true }
    { p with messageStates := aset p.messageStates mid st' }
  | none => p

/-- A processor in which `t1` is known to message `m1` but the
has-tool-calls flag has been reset by a later TEXT_MESSAGE_START. -/
def dupStartPre : Processor :=
  (runChunks (initProcessor immediateStrategy)
    [.textMessageStart "m1" .assistant,
     .toolCallStart "t1" "f" (some "m1") none,
     .textMessageStart "m1" .assistant]).1

/-- Data of an approval-requested CUSTOM event that carries no approval
object. -/
def noApprovalData : CustomData :=
  { toolCallId := "t1", toolName := "f", input := "", approval := none }

/-- C8 as stated is false in two clauses.  Duplicate-START: a second
TOOL_CALL_START for an already-known toolCallId changes no message and
emits nothing, but it is not a no-op — it sets the owning message's
has-tool-calls-since-text-start flag, which is observable in later
segmentation decisions.  Never-throws: an approval-requested CUSTOM event
whose data carries no approval object makes `processChunk` throw a
TypeError (the source dereferences `approval.id` unchecked), here with an
active assistant message present. -/
theorem claim_C8_counterexample :
    ((alookup dupStartPre.messageStates "m1").map
      (fun st => st.hasToolCallsSinceTextStart) = some false) ∧
    (((alookup dupStartPre.messageStates "m1").map
      (fun st => (alookup st.toolCalls "t1").isSome)) = some true) ∧
    (processChunk dupStartPre
      (.toolCallStart "t1" "f" (some "m1") none)).1.messages =
      dupStartPre.messages ∧
    (processChunk dupStartPre (.toolCallStart "t1" "f" (some "m1") none)).2 =
      [] ∧
    ((alookup (processChunk dupStartPre
        (.toolCallStart "t1" "f" (some "m1") none)).1.messageStates "m1").map
      (fun st => st.hasToolCallsSinceTextStart) = some true) ∧
    getActiveAssistantMessageId dupStartPre = some "m1" ∧
    processChunkE dupStartPre
        (.custom "approval-requested" (some noApprovalData)) =
      .error "TypeError: cannot read id of undefined approval" := by
  refine ⟨by decide, by decide, by decide, by decide, by decide, by decide, rfl⟩

/-- C8 (amended): events with an unknown type are ignored entirely; a
TOOL_CALL_ARGS whose toolCallId has no routing entry (no preceding
TOOL_CALL_START) leaves the processor unchanged; a second TOOL_CALL_START
for a toolCallId already known to the resolved parent message appends no
part and emits no event — its only effect is setting that message's
has-tool-calls-since-text-start flag; and `processChunk` throws for exactly
one event shape: an approval-requested CUSTOM event whose data carries no
approval object raises a TypeError with the processor unchanged, while on
every other event the fallible semantics succeeds and agrees with the total
embedding. -/
theorem claim_C8_amended_protocol_violations_tolerated :
    (∀ (p : Processor) (tag : String), processChunk p (.other tag) = (p, [])) ∧
    (∀ (p : Processor) (t d : String),
      alookup p.toolCallToMessage t = none →
      processChunk p (.toolCallArgs t d) = (p, [])) ∧
    (∀ (p : Processor) (t nm : String) (idx : Option Nat) (mid : String)
      (st : MessageStreamState) (tc : InternalToolCallState),
      alookup p.messageStates mid = some st →
      alookup st.toolCalls t = some tc →
      (processChunk p (.toolCallStart t nm (some mid) idx)).1.messages =
        p.messages ∧
      (processChunk p (.toolCallStart t nm (some mid) idx)).2 = [] ∧
      (processChunk p (.toolCallStart t nm (some mid) idx)).1 =
        setToolCallFlag p mid) ∧
    (∀ (p : Processor) (c : StreamChunk),
      (∀ d, c = StreamChunk.custom "approval-requested" (some d) →
        d.approval ≠ none) →
      processChunkE p c = .ok (processChunk p c)) ∧
    (∀ (p : Processor) (d : CustomData), d.approval = none →
      processChunkE p (.custom "approval-requested" (some d)) =
        .error "TypeError: cannot read id of undefined approval" ∧
      processChunk p (.custom "approval-requested" (some d)) = (p, [])) := by
  refine ⟨?_, ?_, ?_, ?_, ?_⟩
  · intro p tag
    rfl
  · intro p t d h
    have hred : processChunk p (.toolCallArgs t d) =
      handleToolCallArgsEvent p t d := rfl
    rw [hred]
    unfold handleToolCallArgsEvent
    rw [h]
  · intro p t nm idx mid st tc h1 h2
    have hred : processChunk p (.toolCallStart t nm (some mid) idx) =
      handleToolCallStartEvent p t nm (some mid) idx := rfl
    rw [hred]
    unfold handleToolCallStartEvent
    dsimp only
    rw [ensureAssistantMessage_known p mid (by rw [h1]; rfl)]
    dsimp only
    rw [h1]
    dsimp only
    rw [h2]
    dsimp only
    refine ⟨?_, rfl, ?_⟩
    · rfl
    · unfold setToolCallFlag
      rw [h1]
  · intro p c hc
    cases c with
    | textMessageStart a b => rfl
    | textMessageContent a b c => rfl
    | textMessageEnd a => rfl
    | toolCallStart a b c d => rfl
    | toolCallArgs a b => rfl
    | toolCallEnd a b c => rfl
    | runFinished a => rfl
    | runError a => rfl
    | stepFinished a b => rfl
    | messagesSnapshot a => rfl
    | other a => rfl
    | custom name data =>
      show handleCustomEventE p name data = .ok (handleCustomEvent p name data)
      unfold handleCustomEventE handleCustomEvent
      dsimp only
      by_cases hn : name = "approval-requested"
      · subst hn
        rw [if_pos rfl, if_pos rfl]
        cases data with
        | none => rfl
        | some d =>
          dsimp only
          cases hap : d.approval with
          | some ap => rfl
          | none => exact absurd hap (hc d rfl)
      · rw [if_neg hn, if_neg hn]
  · intro p d hap
    constructor
    · show handleCustomEventE p "approval-requested" (some d) = _
      unfold handleCustomEventE
      dsimp only
      rw [if_pos rfl, hap]
    · show handleCustomEvent p "approval-requested" (some d) = _
      unfold handleCustomEvent
      dsimp only
      rw [if_pos rfl, hap]
      rw [if_neg (by decide)]

theorem claim_C8_witness :
    (alookup witnessProcC10.toolCallToMessage "zz" = none ∧
      processChunk witnessProcC10 (.toolCallArgs "zz" "x") =
        (witnessProcC10, [])) ∧
    (alookup witnessProcC6.messageStates "m1" = some witnessState ∧
      alookup witnessState.toolCalls "t1" = some witnessToolCall ∧
      (processChunk witnessProcC6
        (.toolCallStart "t1" "f" (some "m1") none)).1 =
        setToolCallFlag witnessProcC6 "m1") ∧
    processChunkE witnessProcC10 (.toolCallArgs "zz" "x") =
      .ok (processChunk witnessProcC10 (.toolCallArgs "zz" "x")) ∧
    (noApprovalData.approval = none ∧
      processChunkE witnessProcC10
          (.custom "approval-requested" (some noApprovalData)) =
        .error "TypeError: cannot read id of undefined approval" ∧
      processChunk witnessProcC10
          (.custom "approval-requested" (some noApprovalData)) =
        (witnessProcC10, [])) :=
  ⟨⟨by decide,
    claim_C8_amended_protocol_violations_tolerated.2.1 witnessProcC10 "zz" "x"
      (by decide)⟩,
   ⟨by decide, by decide,
    (claim_C8_amended_protocol_violations_tolerated.2.2.1 witnessProcC6 "t1" "f"
      none "m1" witnessState witnessToolCall (by decide) (by decide)).2.2⟩,
   claim_C8_amended_protocol_violations_tolerated.2.2.2.1 witnessProcC10
     (.toolCallArgs "zz" "x") (fun d hd => StreamChunk.noConfusion hd),
   rfl,
   claim_C8_amended_protocol_violations_tolerated.2.2.2.2 witnessProcC10
     noApprovalData rfl⟩

theorem completeToolCall_fields (p : Processor) (mid tcid : String) :
    ∀ mid' st, alookup p.messageStates mid' = some st →
      ∃ tcs, alookup (completeToolCall p mid tcid).1.messageStates mid' =
        some { st with toolCalls := tcs } := by
  intro mid' st h
  unfold completeToolCall
  cases h1 : alookup p.messageStates mid with
  | none => exact ⟨st.toolCalls, h⟩
  | some st0 =>
    dsimp only
    cases h2 : alookup st0.toolCalls tcid with
    | none => exact ⟨st.toolCalls, h⟩
    | some tc =>
      dsimp only
      by_cases hm : mid' = mid
      · subst hm
        rw [h] at h1
        injection h1 with h1e
        subst h1e
        exact ⟨aset st.toolCalls tcid (completedToolCall tc),
          alookup_aset_self _ _ _⟩
      · refine ⟨st.toolCalls, ?_⟩
        rw [alookup_aset_ne _ _ hm]
        exact h

theorem completeToolCallsGo_fields (mid : String) (ids : List String) :
    ∀ (p : Processor) (mid' : String) (st : MessageStreamState),
      alookup p.messageStates mid' = some st →
      ∃ tcs, alookup (completeToolCallsGo mid ids p).1.messageStates mid' =
        some { st with toolCalls := tcs } := by
  induction ids with
  | nil =>
    intro p mid' st h
    exact ⟨st.toolCalls, h⟩
  | cons i rest ih =>
    intro p mid' st h
    unfold completeToolCallsGo
    dsimp only
    cases h1 : alookup p.messageStates mid with
    | none => exact ih p mid' st h
    | some st0 =>
      dsimp only
      cases h2 : alookup st0.toolCalls i with
      | none => exact ih p mid' st h
      | some tc =>
        dsimp only
        by_cases hc : tc.state = .inputComplete
        · rw [if_pos hc]
          exact ih p mid' st h
        · rw [if_neg hc]
          obtain ⟨tcs1, hmid1⟩ := completeToolCall_fields p mid i mid' st h
          obtain ⟨tcs2, hmid2⟩ :=
            ih (completeToolCall p mid i).1 mid' _ hmid1
          exact ⟨tcs2, hmid2⟩

theorem completeAllToolCallsForMessage_fields (p : Processor) (mid : String) :
    ∀ mid' st, alookup p.messageStates mid' = some st →
      ∃ tcs,
        alookup (completeAllToolCallsForMessage p mid).1.messageStates mid' =
          some { st with toolCalls := tcs } := by
  intro mid' st h
  unfold completeAllToolCallsForMessage
  cases h1 : alookup p.messageStates mid with
  | none => exact ⟨st.toolCalls, h⟩
  | some st0 =>
    dsimp only
    exact completeToolCallsGo_fields mid _ p mid' st h

theorem strStartsWith_antisymm {a b : String}
    (h1 : strStartsWith a b = true) (h2 : strStartsWith b a = true) :
    a = b := by
  unfold strStartsWith at h1 h2
  have p1 : b.data <+: a.data := by
    exact List.isPrefixOf_iff_prefix.mp h1
  have p2 : a.data <+: b.data := by
    exact List.isPrefixOf_iff_prefix.mp h2
  have hlen : a.data.length = b.data.length :=
    Nat.le_antisymm p2.length_le p1.length_le
  have hd : a.data = b.data := p2.eq_of_length hlen
  cases a
  cases b
  exact congrArg String.mk hd

/-- The current segment text tracked for a message, when it has stream
state. -/
def currentSegmentTextOf (p : Processor) (mid : String) : Option String :=
  (alookup p.messageStates mid).map (fun st => st.currentSegmentText)

theorem flush_preserves_current (cond : Bool) (q : Processor) (mid : String)
    (stq : MessageStreamState) (h : alookup q.messageStates mid = some stq) :
    currentSegmentTextOf
      (if cond then emitTextUpdateForMessage q mid else (q, [])).1 mid =
      some stq.currentSegmentText := by
  cases cond
  · rw [if_neg (by simp)]
    unfold currentSegmentTextOf
    rw [h]
    rfl
  · rw [if_pos rfl]
    unfold emitTextUpdateForMessage
    rw [h]
    dsimp only
    unfold currentSegmentTextOf
    rw [alookup_aset_self]
    rfl

/-- C3 as stated is false when the content event opens a new text segment:
after a tool call, a TEXT_MESSAGE_CONTENT whose `content` is shorter than
the current segment text resets the segment before the delta is applied, so
the new segment text is not the old text plus the delta. -/
theorem claim_C3_counterexample :
    currentSegmentTextOf (runChunks (initProcessor immediateStrategy)
      [.textMessageStart "m1" .assistant,
       .textMessageContent "m1" (some "AB") none,
       .toolCallStart "t1" "f" (some "m1") none,
       .textMessageContent "m1" (some "C") (some "C")]).1 "m1" = some "C" ∧
    ("C" : String) ≠ "AB" ++ "C" := by
  refine ⟨by decide, by decide⟩

theorem flush_preserves_currentSegment (cond : Bool) (q : Processor)
    (mid : String) :
    currentSegmentTextOf
      (if cond then emitTextUpdateForMessage q mid else (q, [])).1 mid =
      currentSegmentTextOf q mid := by
  cases cond
  · rw [if_neg (by simp)]
  · rw [if_pos rfl]
    unfold emitTextUpdateForMessage
    cases h : alookup q.messageStates mid with
    | none => rfl
    | some st =>
      dsimp only
      unfold currentSegmentTextOf
      rw [alookup_aset_self, h]
      rfl

/-- C3 (amended): when a TEXT_MESSAGE_CONTENT event does not open a new text
segment (no tool call since the last text start, or the current segment is
empty, or the content extends it), the delta/content reconciliation behaves
as claimed: a non-empty delta is appended; otherwise a content that is a
strict prefix of the current text is ignored, a content extending the
current text replaces it, and an unrelated content is appended. -/
theorem claim_C3_amended_text_reconciliation (p : Processor) (mid : String)
    (st : MessageStreamState) (delta content : Option String)
    (h1 : alookup p.messageStates mid = some st)
    (hguard : ¬(st.hasToolCallsSinceTextStart = true ∧
      st.currentSegmentText.length > 0 ∧
      isNewTextSegment content st.currentSegmentText = true)) :
    (∀ d, delta = some d → d ≠ "" →
      currentSegmentTextOf
          (processChunk p (.textMessageContent mid delta content)).1 mid =
        some (st.currentSegmentText ++ d)) ∧
    ((delta = none ∨ delta = some "") → ∀ c, content = some c → c ≠ "" →
      strStartsWith st.currentSegmentText c = true →
      c ≠ st.currentSegmentText →
      currentSegmentTextOf
          (processChunk p (.textMessageContent mid delta content)).1 mid =
        some st.currentSegmentText) ∧
    ((delta = none ∨ delta = some "") → ∀ c, content = some c → c ≠ "" →
      strStartsWith c st.currentSegmentText = true →
      currentSegmentTextOf
          (processChunk p (.textMessageContent mid delta content)).1 mid =
        some c) ∧
    ((delta = none ∨ delta = some "") → ∀ c, content = some c → c ≠ "" →
      strStartsWith c st.currentSegmentText = false →
      strStartsWith st.currentSegmentText c = false →
      currentSegmentTextOf
          (processChunk p (.textMessageContent mid delta content)).1 mid =
        some (st.currentSegmentText ++ c)) := by
  have hred : processChunk p (.textMessageContent mid delta content) =
    handleTextMessageContentEvent p mid delta content := rfl
  rw [hred]
  unfold handleTextMessageContentEvent
  rw [ensureAssistantMessage_known p mid (by rw [h1]; rfl)]
  dsimp only
  obtain ⟨tcs, hst2⟩ := completeAllToolCallsForMessage_fields p mid mid st h1
  rw [hst2]
  dsimp only
  have hNew : ¬((st.hasToolCallsSinceTextStart &&
      decide (st.currentSegmentText.length > 0) &&
      isNewTextSegment content st.currentSegmentText) = true) := by
    intro hcontra
    simp only [Bool.and_eq_true] at hcontra
    exact hguard ⟨hcontra.1.1, of_decide_eq_true hcontra.1.2, hcontra.2⟩
  rw [if_neg hNew]
  dsimp only
  refine ⟨?_, ?_, ?_, ?_⟩
  · intro d hd hdne
    subst hd
    rw [flush_preserves_currentSegment]
    unfold currentSegmentTextOf
    dsimp only [Option.getD]
    rw [alookup_aset_self]
    dsimp only [Option.map]
    rw [if_pos hdne]
  · intro hdelta c hc hcne hpre hne
    have hrev : strStartsWith c st.currentSegmentText = false := by
      cases hrv : strStartsWith c st.currentSegmentText
      · rfl
      · exact absurd (strStartsWith_antisymm hrv hpre) hne
    have hdeq : delta.getD "" = "" := by
      rcases hdelta with h | h <;> subst h <;> rfl
    subst hc
    rw [flush_preserves_currentSegment]
    unfold currentSegmentTextOf
    dsimp only
    rw [alookup_aset_self]
    dsimp only [Option.map]
    rw [hdeq]
    rw [if_neg (by simp)]
    rw [if_pos hcne]
    rw [hrev]
    rw [if_neg (by simp)]
    rw [hpre, if_pos rfl]
  · intro hdelta c hc hcne hpre
    have hdeq : delta.getD "" = "" := by
      rcases hdelta with h | h <;> subst h <;> rfl
    subst hc
    rw [flush_preserves_currentSegment]
    unfold currentSegmentTextOf
    dsimp only
    rw [alookup_aset_self]
    dsimp only [Option.map]
    rw [hdeq]
    rw [if_neg (by simp)]
    rw [if_pos hcne]
    rw [hpre, if_pos rfl]
  · intro hdelta c hc hcne h1f h2f
    have hdeq : delta.getD "" = "" := by
      rcases hdelta with h | h <;> subst h <;> rfl
    subst hc
    rw [flush_preserves_currentSegment]
    unfold currentSegmentTextOf
    dsimp only
    rw [alookup_aset_self]
    dsimp only [Option.map]
    rw [hdeq]
    rw [if_neg (by simp)]
    rw [if_pos hcne]
    rw [h1f]
    rw [if_neg (by simp)]
    rw [h2f]
    rw [if_neg (by simp)]

def witnessStC3 : MessageStreamState :=
  { id := "m", role := .assistant, totalTextContent := "a",
    currentSegmentText := "a", lastEmittedText := "a",
    thinkingContent := "", toolCalls := [], toolCallOrder := [],
    hasToolCallsSinceTextStart := false, isComplete := false }

def witnessProcC3 : Processor :=
  { shouldEmit := immediateStrategy
    messages := [{ id := "m", role := .assistant, parts := [.text "a"] }]
    messageStates := [("m", witnessStC3)]
    activeMessageIds := ["m"]
    toolCallToMessage := []
    pendingManualMessageId := none
    finishReason := none
    hasError := false
    isDone := false
    nextId := 0 }

theorem claim_C3_witness :
    currentSegmentTextOf
      (processChunk witnessProcC3 (.textMessageContent "m" (some "b") none)).1
      "m" = some ("a" ++ "b") ∧
    currentSegmentTextOf
      (processChunk witnessProcC3 (.textMessageContent "m" none (some "ax"))).1
      "m" = some "ax" := by
  refine ⟨?_, ?_⟩
  · exact (claim_C3_amended_text_reconciliation witnessProcC3 "m" witnessStC3
      (some "b") none rfl (by decide)).1 "b" rfl (by decide)
  · exact (claim_C3_amended_text_reconciliation witnessProcC3 "m" witnessStC3
      none (some "ax") rfl (by decide)).2.2.1 (Or.inl rfl) "ax" rfl
      (by decide) (by decide)

/-- C5 as stated fails twice: a TOOL_CALL_END for a call that is already
`input-complete` skips the whole completion branch, so a second END's
`input` field does not override the parsed arguments; and an END whose
`result` is the empty string (falsy in the source's `if (chunk.result)`)
upserts no ToolResultPart at all. -/
theorem claim_C5_counterexample :
    ((alookup (runChunks (initProcessor immediateStrategy)
        [.textMessageStart "m1" .assistant,
         .toolCallStart "t1" "f" (some "m1") none,
         .toolCallEnd "t1" none none,
         .toolCallEnd "t1" (some "7") none]).1.messageStates "m1").bind
      (fun st => alookup st.toolCalls "t1")).map (fun tc => tc.parsedArguments) =
        some (some (.fromArgs "")) ∧
    some (PJson.fromArgs "") ≠ some (PJson.given "7") ∧
    (∀ m ∈ (runChunks (initProcessor immediateStrategy)
        [.textMessageStart "m1" .assistant,
         .toolCallStart "t1" "f" (some "m1") none,
         .toolCallEnd "t1" none (some "")]).1.messages,
      ∀ part ∈ m.parts, MessagePart.isToolResultFor "t1" part = false) := by
  refine ⟨by decide, by decide, by decide⟩

theorem mem_insertAfterToolCall_self {parts : List MessagePart} {tcid : String}
    {r : MessagePart} (h : parts.any (MessagePart.isToolCallWithId tcid) = true) :
    r ∈ insertAfterToolCall parts tcid r := by
  induction parts with
  | nil => simp at h
  | cons q rest ih =>
    by_cases hq : q.isToolCallWithId tcid = true
    · simp [insertAfterToolCall, hq]
    · simp only [insertAfterToolCall, if_neg hq]
      simp only [List.any_cons, Bool.or_eq_true] at h
      rcases h with h | h
      · exact absurd h hq
      · exact List.mem_cons_of_mem _ (ih h)

theorem mem_insertAfterToolCall_of_mem {parts : List MessagePart} {tcid : String}
    {r x : MessagePart} (hx : x ∈ parts) : x ∈ insertAfterToolCall parts tcid r := by
  induction parts with
  | nil => cases hx
  | cons q rest ih =>
    by_cases hq : q.isToolCallWithId tcid = true
    · simp only [insertAfterToolCall, if_pos hq]
      rcases List.mem_cons.mp hx with h | h
      · exact h ▸ List.mem_cons_self _ _
      · exact List.mem_cons_of_mem _ (List.mem_cons_of_mem _ h)
    · simp only [insertAfterToolCall, if_neg hq]
      rcases List.mem_cons.mp hx with h | h
      · exact h ▸ List.mem_cons_self _ _
      · exact List.mem_cons_of_mem _ (ih h)

theorem upsertToolCallParts_any (parts : List MessagePart) (u : ToolCallUpdate) :
    (upsertToolCallParts parts u).any (MessagePart.isToolCallWithId u.id) = true := by
  unfold upsertToolCallParts
  by_cases h : parts.any (MessagePart.isToolCallWithId u.id) = true
  · rw [if_pos h]
    obtain ⟨part, hmem, hpart⟩ := List.any_eq_true.mp h
    refine List.any_eq_true.mpr ?_
    cases part with
    | text c => simp [MessagePart.isToolCallWithId] at hpart
    | thinking c => simp [MessagePart.isToolCallWithId] at hpart
    | contentPart tg v => simp [MessagePart.isToolCallWithId] at hpart
    | toolResult tr c s e => simp [MessagePart.isToolCallWithId] at hpart
    | toolCall i n a s ap o =>
      have hi : i = u.id := by
        simpa [MessagePart.isToolCallWithId] using hpart
      subst hi
      refine ⟨MessagePart.toolCall u.id u.name u.arguments u.state ap o, ?_, ?_⟩
      · refine List.mem_map.mpr ⟨MessagePart.toolCall u.id n a s ap o, hmem, ?_⟩
        simp
      · simp [MessagePart.isToolCallWithId]
  · rw [if_neg h]
    refine List.any_eq_true.mpr
      ⟨MessagePart.toolCall u.id u.name u.arguments u.state none none, ?_, ?_⟩
    · exact List.mem_append_right _ (List.mem_singleton.mpr rfl)
    · simp [MessagePart.isToolCallWithId]

theorem upsertToolResultParts_mem_result {parts : List MessagePart}
    {tcid c : String} {s : ToolResultState} {e : Option String}
    (hcall : parts.any (MessagePart.isToolCallWithId tcid) = true) :
    MessagePart.toolResult tcid c s e ∈ upsertToolResultParts parts tcid c s e := by
  unfold upsertToolResultParts
  by_cases h1 : parts.any (MessagePart.isToolResultFor tcid) = true
  · rw [if_pos h1]
    obtain ⟨part, hmem, hpart⟩ := List.any_eq_true.mp h1
    cases part with
    | text c2 => simp [MessagePart.isToolResultFor] at hpart
    | thinking c2 => simp [MessagePart.isToolResultFor] at hpart
    | contentPart tg v => simp [MessagePart.isToolResultFor] at hpart
    | toolCall i n a sc ap o => simp [MessagePart.isToolResultFor] at hpart
    | toolResult tr c2 s2 e2 =>
      have ht : tr = tcid := by
        simpa [MessagePart.isToolResultFor] using hpart
      subst ht
      refine List.mem_map.mpr ⟨MessagePart.toolResult tr c2 s2 e2, hmem, ?_⟩
      simp
  · rw [if_neg h1, if_pos hcall]
    exact mem_insertAfterToolCall_self hcall

theorem upsertToolResultParts_mem_call {parts : List MessagePart}
    {tcid c : String} {s : ToolResultState} {e : Option String}
    {i n a : String} {sc : ToolCallState} {ap : Option Approval} {o : Option String}
    (hx : MessagePart.toolCall i n a sc ap o ∈ parts) :
    MessagePart.toolCall i n a sc ap o ∈ upsertToolResultParts parts tcid c s e := by
  unfold upsertToolResultParts
  by_cases h1 : parts.any (MessagePart.isToolResultFor tcid) = true
  · rw [if_pos h1]
    exact List.mem_map.mpr ⟨_, hx, rfl⟩
  · rw [if_neg h1]
    by_cases h2 : parts.any (MessagePart.isToolCallWithId tcid) = true
    · rw [if_pos h2]
      exact mem_insertAfterToolCall_of_mem hx
    · rw [if_neg h2]
      exact hx

theorem updateToolCallWithOutput_mem {messages : List UIMessage}
    {tcid out : String} {m : UIMessage} (hm : m ∈ messages)
    (hany : m.parts.any (MessagePart.isToolCallWithId tcid) = true) :
    ∃ m', m' ∈ updateToolCallWithOutput messages tcid out none ∧ m'.id = m.id ∧
      m'.parts.any (MessagePart.isToolCallWithId tcid) = true ∧
      ∃ n a sc ap, MessagePart.toolCall tcid n a sc ap (some out) ∈ m'.parts := by
  obtain ⟨part, hmem, hpart⟩ := List.any_eq_true.mp hany
  cases part with
  | text c => simp [MessagePart.isToolCallWithId] at hpart
  | thinking c => simp [MessagePart.isToolCallWithId] at hpart
  | contentPart tg v => simp [MessagePart.isToolCallWithId] at hpart
  | toolResult tr c s e => simp [MessagePart.isToolCallWithId] at hpart
  | toolCall i n a sc ap o =>
    have hi : i = tcid := by
      simpa [MessagePart.isToolCallWithId] using hpart
    subst hi
    unfold updateToolCallWithOutput
    refine ⟨_, List.mem_map.mpr ⟨m, hm, rfl⟩, rfl, ?_, n, a, sc, ap, ?_⟩
    · dsimp only
      refine List.any_eq_true.mpr
        ⟨MessagePart.toolCall i n a sc ap (some out), ?_, ?_⟩
      · refine List.mem_map.mpr ⟨MessagePart.toolCall i n a sc ap o, hmem, ?_⟩
        simp [Option.getD]
      · simp [MessagePart.isToolCallWithId]
    · dsimp only
      refine List.mem_map.mpr ⟨MessagePart.toolCall i n a sc ap o, hmem, ?_⟩
      simp [Option.getD]

theorem updateToolCallPart_mem {messages : List UIMessage} {mid : String}
    {m : UIMessage} (u : ToolCallUpdate) (hm : m ∈ messages) (hmid : m.id = mid) :
    ∃ m', m' ∈ updateToolCallPart messages mid u ∧ m'.id = mid ∧
      m'.parts.any (MessagePart.isToolCallWithId u.id) = true := by
  unfold updateToolCallPart
  refine ⟨{ m with parts := upsertToolCallParts m.parts u }, ?_, hmid, ?_⟩
  · refine List.mem_map.mpr ⟨m, hm, ?_⟩
    rw [if_pos hmid]
  · exact upsertToolCallParts_any m.parts u

theorem updateToolResultPart_mem {messages : List UIMessage} {mid tcid c : String}
    {m : UIMessage} (hm : m ∈ messages) (hmid : m.id = mid)
    (hany : m.parts.any (MessagePart.isToolCallWithId tcid) = true)
    {n a : String} {sc : ToolCallState} {ap : Option Approval} {o : Option String}
    (hcallmem : MessagePart.toolCall tcid n a sc ap o ∈ m.parts) :
    ∃ m', m' ∈ updateToolResultPart messages mid tcid c .complete none ∧
      m'.id = mid ∧
      MessagePart.toolResult tcid c .complete none ∈ m'.parts ∧
      MessagePart.toolCall tcid n a sc ap o ∈ m'.parts := by
  unfold updateToolResultPart
  refine ⟨{ m with parts := upsertToolResultParts m.parts tcid c .complete none },
    ?_, hmid, ?_, ?_⟩
  · refine List.mem_map.mpr ⟨m, hm, ?_⟩
    rw [if_pos hmid]
  · exact upsertToolResultParts_mem_result hany
  · exact upsertToolResultParts_mem_call hcallmem

theorem resultPhase_mem {messages : List UIMessage} {mid tcid r : String}
    {m : UIMessage} (hm : m ∈ messages) (hmid : m.id = mid)
    (hany : m.parts.any (MessagePart.isToolCallWithId tcid) = true) :
    ∃ m', m' ∈ updateToolResultPart (updateToolCallWithOutput messages tcid r none)
        mid tcid r .complete none ∧
      m'.id = mid ∧ MessagePart.toolResult tcid r .complete none ∈ m'.parts ∧
      ∃ n a sc ap, MessagePart.toolCall tcid n a sc ap (some r) ∈ m'.parts := by
  obtain ⟨m2, hm2, hid2, hany2, n, a, sc, ap, hcall2⟩ :=
    updateToolCallWithOutput_mem hm hany
  obtain ⟨m3, hm3, hid3, hres3, hcall3⟩ :=
    updateToolResultPart_mem hm2 (hid2.trans hmid) hany2 hcall2
  exact ⟨m3, hm3, hid3, hres3, n, a, sc, ap, hcall3⟩

theorem setParsedArguments_messages (p : Processor) (mid tcid : String)
    (v : PJson) : (setParsedArguments p mid tcid v).messages = p.messages := by
  unfold setParsedArguments
  cases h : alookup p.messageStates mid with
  | none => rfl
  | some st =>
    dsimp only
    cases h2 : alookup st.toolCalls tcid with
    | none => rfl
    | some tc => rfl

theorem setParsedArguments_lookup {p : Processor} {mid tcid : String}
    {st : MessageStreamState} {tc : InternalToolCallState} (v : PJson)
    (h1 : alookup p.messageStates mid = some st)
    (h2 : alookup st.toolCalls tcid = some tc) :
    alookup (setParsedArguments p mid tcid v).messageStates mid =
      some { st with toolCalls := aset st.toolCalls tcid { tc with parsedArguments := some v } } := by
  unfold setParsedArguments
  rw [h1]
  dsimp only
  rw [h2]
  dsimp only
  exact alookup_aset_self _ _ _

/-- The `updateToolCallPart` update record written by `completeToolCall`. -/
def completionUpdate (tc : InternalToolCallState) : ToolCallUpdate :=
  { id := tc.id, name := tc.name, arguments := tc.arguments,
    state := .inputComplete }

theorem completeToolCall_messages {p : Processor} {mid tcid : String}
    {st : MessageStreamState} {tc : InternalToolCallState}
    (h1 : alookup p.messageStates mid = some st)
    (h2 : alookup st.toolCalls tcid = some tc) :
    (completeToolCall p mid tcid).1.messages =
      updateToolCallPart p.messages mid (completionUpdate tc) := by
  unfold completeToolCall completionUpdate
  rw [h1]
  dsimp only
  rw [h2]

/-- C5 (amended): a TOOL_CALL_END for a known toolCallId leaves the tracked
call `input-complete`; when the call was not already `input-complete`, an
`input` field overrides the parsed arguments, while an END for an already
complete call skips both the completion and the override entirely; and when
the event carries a non-empty `result`, a complete ToolResultPart with that
result is upserted on the owning message and a ToolCallPart with the result
as `output` is present (an empty-string `result` is falsy in the source and
adds nothing). -/
theorem claim_C5_amended_tool_call_end (p : Processor) (t mid : String)
    (st : MessageStreamState) (tc : InternalToolCallState)
    (input result : Option String) (m : UIMessage)
    (h1 : alookup p.toolCallToMessage t = some mid)
    (h2 : alookup p.messageStates mid = some st)
    (h3 : alookup st.toolCalls t = some tc)
    (htc : tc.id = t)
    (hm : m ∈ p.messages) (hmid : m.id = mid)
    (hcall : m.parts.any (MessagePart.isToolCallWithId t) = true) :
    (∃ st' tc',
      alookup (processChunk p (.toolCallEnd t input result)).1.messageStates mid =
          some st' ∧
      alookup st'.toolCalls t = some tc' ∧
      tc'.state = .inputComplete ∧
      (tc.state ≠ .inputComplete → ∀ v, input = some v →
        tc'.parsedArguments = some (.given v)) ∧
      (tc.state = .inputComplete → tc' = tc)) ∧
    (∀ r, result = some r → r ≠ "" →
      ∃ m', m' ∈ (processChunk p (.toolCallEnd t input result)).1.messages ∧
        m'.id = mid ∧
        MessagePart.toolResult t r .complete none ∈ m'.parts ∧
        ∃ n a sc ap, MessagePart.toolCall t n a sc ap (some r) ∈ m'.parts) := by
  have hred : processChunk p (.toolCallEnd t input result) =
      handleToolCallEndEvent p t input result := rfl
  rw [hred]
  unfold handleToolCallEndEvent
  rw [h1]
  dsimp only
  rw [h2]
  dsimp only
  rw [h3]
  dsimp only
  by_cases hstate : tc.state = .inputComplete
  · rw [if_neg (not_not_intro hstate)]
    dsimp only
    cases result with
    | none =>
      dsimp only
      refine ⟨⟨st, tc, h2, h3, hstate, fun hne _ _ => absurd hstate hne,
        fun _ => rfl⟩, ?_⟩
      intro r hr
      exact Option.noConfusion hr
    | some r =>
      dsimp only
      by_cases hr0 : r = ""
      · rw [if_neg (not_not_intro hr0)]
        refine ⟨⟨st, tc, h2, h3, hstate, fun hne _ _ => absurd hstate hne,
          fun _ => rfl⟩, ?_⟩
        intro r' hr' hrne
        injection hr' with hrr
        subst hrr
        exact absurd hr0 hrne
      · rw [if_pos hr0]
        dsimp only
        refine ⟨⟨st, tc, h2, h3, hstate, fun hne _ _ => absurd hstate hne,
          fun _ => rfl⟩, ?_⟩
        intro r' hr' hrne
        injection hr' with hrr
        subst hrr
        exact resultPhase_mem hm hmid hcall
  · rw [if_pos hstate]
    dsimp only
    obtain ⟨hlook, _⟩ := completeToolCall_eq p mid t st tc h2 h3
    have hmsg := completeToolCall_messages h2 h3
    obtain ⟨m1, hm1, hid1, hany1⟩ :=
      updateToolCallPart_mem (completionUpdate tc) hm hmid
    rw [← hmsg] at hm1
    have hany1' : m1.parts.any (MessagePart.isToolCallWithId t) = true := by
      rw [← htc]
      exact hany1
    cases input with
    | none =>
      dsimp only
      cases result with
      | none =>
        dsimp only
        refine ⟨⟨_, _, hlook, alookup_aset_self _ _ _, rfl,
          fun _ v hv => Option.noConfusion hv, fun hc => absurd hc hstate⟩, ?_⟩
        intro r hr
        exact Option.noConfusion hr
      | some r =>
        dsimp only
        by_cases hr0 : r = ""
        · rw [if_neg (not_not_intro hr0)]
          refine ⟨⟨_, _, hlook, alookup_aset_self _ _ _, rfl,
            fun _ v hv => Option.noConfusion hv, fun hc => absurd hc hstate⟩, ?_⟩
          intro r' hr' hrne
          injection hr' with hrr
          subst hrr
          exact absurd hr0 hrne
        · rw [if_pos hr0]
          dsimp only
          refine ⟨⟨_, _, hlook, alookup_aset_self _ _ _, rfl,
            fun _ v hv => Option.noConfusion hv, fun hc => absurd hc hstate⟩, ?_⟩
          intro r' hr' hrne
          injection hr' with hrr
          subst hrr
          exact resultPhase_mem hm1 hid1 hany1'
    | some v =>
      dsimp only
      have hlook2 := setParsedArguments_lookup (.given v) hlook
        (alookup_aset_self st.toolCalls t (completedToolCall tc))
      cases result with
      | none =>
        dsimp only
        refine ⟨⟨_, _, hlook2, alookup_aset_self _ _ _, rfl, ?_,
          fun hc => absurd hc hstate⟩, ?_⟩
        · intro _ v' hv'
          injection hv' with hvv
          subst hvv
          rfl
        · intro r hr
          exact Option.noConfusion hr
      | some r =>
        dsimp only
        by_cases hr0 : r = ""
        · rw [if_neg (not_not_intro hr0)]
          refine ⟨⟨_, _, hlook2, alookup_aset_self _ _ _, rfl, ?_,
            fun hc => absurd hc hstate⟩, ?_⟩
          · intro _ v' hv'
            injection hv' with hvv
            subst hvv
            rfl
          · intro r' hr' hrne
            injection hr' with hrr
            subst hrr
            exact absurd hr0 hrne
        · rw [if_pos hr0]
          dsimp only
          refine ⟨⟨_, _, hlook2, alookup_aset_self _ _ _, rfl, ?_,
            fun hc => absurd hc hstate⟩, ?_⟩
          · intro _ v' hv'
            injection hv' with hvv
            subst hvv
            rfl
          · intro r' hr' hrne
            injection hr' with hrr
            subst hrr
            rw [setParsedArguments_messages]
            exact resultPhase_mem hm1 hid1 hany1'

def witnessTcC5 : InternalToolCallState :=
  { id := "t1", name := "f", arguments := "", state := .inputStreaming,
    parsedArguments := none, index := 0 }

def witnessStC5 : MessageStreamState :=
  { id := "m", role := .assistant, totalTextContent := "",
    currentSegmentText := "", lastEmittedText := "", thinkingContent := "",
    toolCalls := [("t1", witnessTcC5)], toolCallOrder := ["t1"],
    hasToolCallsSinceTextStart := true, isComplete := false }

def witnessMsgC5 : UIMessage :=
  { id := "m", role := .assistant,
    parts := [.toolCall "t1" "f" "" .inputStreaming none none] }

def witnessProcC5 : Processor :=
  { shouldEmit := immediateStrategy
    messages := [witnessMsgC5]
    messageStates := [("m", witnessStC5)]
    activeMessageIds := ["m"]
    toolCallToMessage := [("t1", "m")]
    pendingManualMessageId := none
    finishReason := none
    hasError := false
    isDone := false
    nextId := 0 }

theorem claim_C5_witness :
    (∃ st' tc',
      alookup (processChunk witnessProcC5
          (.toolCallEnd "t1" (some "7") (some "ok"))).1.messageStates "m" =
          some st' ∧
      alookup st'.toolCalls "t1" = some tc' ∧
      tc'.state = .inputComplete ∧
      (witnessTcC5.state ≠ .inputComplete → ∀ v, (some "7" : Option String) = some v →
        tc'.parsedArguments = some (.given v)) ∧
      (witnessTcC5.state = .inputComplete → tc' = witnessTcC5)) ∧
    (∀ r, (some "ok" : Option String) = some r → r ≠ "" →
      ∃ m', m' ∈ (processChunk witnessProcC5
          (.toolCallEnd "t1" (some "7") (some "ok"))).1.messages ∧
        m'.id = "m" ∧
        MessagePart.toolResult "t1" r .complete none ∈ m'.parts ∧
        ∃ n a sc ap, MessagePart.toolCall "t1" n a sc ap (some r) ∈ m'.parts) :=
  claim_C5_amended_tool_call_end witnessProcC5 "t1" "m" witnessStC5 witnessTcC5
    (some "7") (some "ok") witnessMsgC5 rfl rfl rfl rfl
    (List.mem_singleton.mpr rfl) rfl rfl

/-- A message injected by a MESSAGES_SNAPSHOT in the C1 counterexample. -/
def snapMsgC1 : UIMessage :=
  { id := "m1", role := .assistant, parts := [.text "x", .text "y"] }

/-- C1 as stated is false: a MESSAGES_SNAPSHOT replaces the conversation
verbatim, so a snapshot carrying an assistant message with two adjacent
TextParts survives to the end of the stream (RUN_FINISHED runs
`finalizeStream`), violating the no-adjacent-texts clause. -/
theorem claim_C1_counterexample :
    ∃ m ∈ (runChunks (initProcessor immediateStrategy)
      [.messagesSnapshot [snapMsgC1], .runFinished "stop"]).1.messages,
      m.role = .assistant ∧ noAdjacentTexts m.parts = false := by
  decide

/-- The head of a processor-produced parts list is never a tool result or a
content part. -/
def headOkPart : MessagePart → Bool
  | .toolResult _ _ _ _ => false
  | .contentPart _ _ => false
  | _ => true

theorem wellFormedParts_cons (x : MessagePart) (xs : List MessagePart) :
    wellFormedParts (x :: xs) = (headOkPart x && okChain x xs) := by
  cases x <;> rfl

/-- Same constructor, and the same id for tool call and tool result parts:
the data `okPair` inspects. -/
def sameShape : MessagePart → MessagePart → Bool
  | .text _, .text _ => true
  | .thinking _, .thinking _ => true
  | .toolCall i _ _ _ _ _, .toolCall j _ _ _ _ _ => i = j
  | .toolResult i _ _ _, .toolResult j _ _ _ => i = j
  | .contentPart _ _, .contentPart _ _ => true
  | _, _ => false

theorem sameShape_refl (x : MessagePart) : sameShape x x = true := by
  cases x <;> simp [sameShape]

theorem okPair_of_sameShape {a a' b b' : MessagePart}
    (hab : okPair a b = true) (ha : sameShape a a' = true)
    (hb : sameShape b b' = true) : okPair a' b' = true := by
  cases a <;> cases a' <;> cases b <;> cases b' <;>
    simp_all [sameShape, okPair]

theorem headOk_of_sameShape {a a' : MessagePart}
    (h : sameShape a a' = true) (ha : headOkPart a = true) :
    headOkPart a' = true := by
  cases a <;> cases a' <;> simp_all [sameShape, headOkPart]

theorem okChain_of_shape {xs ys : List MessagePart}
    (h : List.Forall₂ (fun x y => sameShape x y = true) xs ys) :
    ∀ {a a' : MessagePart}, sameShape a a' = true → okChain a xs = true →
      okChain a' ys = true := by
  induction h with
  | nil => intro a a' _ _; rfl
  | cons hxy htail ih =>
    intro a a' hsa hchain
    simp only [okChain, Bool.and_eq_true] at hchain ⊢
    exact ⟨okPair_of_sameShape hchain.1 hsa hxy, ih hxy hchain.2⟩

theorem wellFormed_of_shape {xs ys : List MessagePart}
    (h : List.Forall₂ (fun x y => sameShape x y = true) xs ys)
    (hwf : wellFormedParts xs = true) : wellFormedParts ys = true := by
  cases h with
  | nil => rfl
  | cons hxy htail =>
    rw [wellFormedParts_cons] at hwf ⊢
    simp only [Bool.and_eq_true] at hwf ⊢
    exact ⟨headOk_of_sameShape hxy hwf.1, okChain_of_shape htail hxy hwf.2⟩

theorem forall₂_map_self {f : MessagePart → MessagePart}
    (hf : ∀ x, sameShape x (f x) = true) (parts : List MessagePart) :
    List.Forall₂ (fun x y => sameShape x y = true) parts (parts.map f) := by
  induction parts with
  | nil => exact .nil
  | cons p r ih => exact .cons (hf p) ih

theorem okChain_append_any {a : MessagePart} {xs : List MessagePart}
    (y : MessagePart) (hy : ∀ b, okPair b y = true)
    (h : okChain a xs = true) : okChain a (xs ++ [y]) = true := by
  induction xs generalizing a with
  | nil => simp [okChain, hy a]
  | cons x r ih =>
    simp only [List.cons_append, okChain, Bool.and_eq_true] at h ⊢
    exact ⟨h.1, ih h.2⟩

theorem wellFormed_append_any {xs : List MessagePart} (y : MessagePart)
    (hy : ∀ b, okPair b y = true) (hhead : headOkPart y = true)
    (h : wellFormedParts xs = true) : wellFormedParts (xs ++ [y]) = true := by
  cases xs with
  | nil =>
    simp only [List.nil_append, wellFormedParts_cons, Bool.and_eq_true]
    exact ⟨hhead, rfl⟩
  | cons x r =>
    rw [List.cons_append, wellFormedParts_cons] at *
    simp only [Bool.and_eq_true] at h ⊢
    exact ⟨h.1, okChain_append_any y hy h.2⟩

theorem okPair_any_toolCall (i n ar : String) (s : ToolCallState)
    (ap : Option Approval) (o : Option String) :
    ∀ b, okPair b (.toolCall i n ar s ap o) = true := by
  intro b; cases b <;> simp [okPair]

theorem okPair_any_thinking (c : String) :
    ∀ b, okPair b (.thinking c) = true := by
  intro b; cases b <;> simp [okPair]

theorem okPair_text_congr (a : MessagePart) (s c : String) :
    okPair a (.text s) = okPair a (.text c) := by
  cases a <;> simp [okPair]

theorem okPair_text_of_not_text {x : MessagePart} (hx : ∀ s, x ≠ .text s)
    (c : String) : okPair x (.text c) = true := by
  cases x with
  | text s => exact absurd rfl (hx s)
  | thinking _ => rfl
  | toolCall _ _ _ _ _ _ => rfl
  | toolResult _ _ _ _ => rfl
  | contentPart _ _ => rfl

theorem chain_updateTextPartParts (c : String) :
    ∀ (parts : List MessagePart) (a : MessagePart), parts ≠ [] →
      okChain a parts = true →
      okChain a (updateTextPartParts parts c) = true := by
  intro parts
  induction parts with
  | nil => intro a h _; exact absurd rfl h
  | cons p tail ih =>
    intro a _ hchain
    cases tail with
    | nil =>
      simp only [okChain, Bool.and_eq_true] at hchain
      cases p with
      | text s =>
        simp only [updateTextPartParts, okChain, Bool.and_eq_true]
        exact ⟨(okPair_text_congr a s c) ▸ hchain.1, trivial⟩
      | thinking t =>
        simp only [updateTextPartParts, okChain, Bool.and_eq_true]
        exact ⟨hchain.1, rfl, trivial⟩
      | toolCall i n ar st ap o =>
        simp only [updateTextPartParts, okChain, Bool.and_eq_true]
        exact ⟨hchain.1, rfl, trivial⟩
      | toolResult i ct st e =>
        simp only [updateTextPartParts, okChain, Bool.and_eq_true]
        exact ⟨hchain.1, rfl, trivial⟩
      | contentPart tg v =>
        simp only [updateTextPartParts, okChain, Bool.and_eq_true]
        exact ⟨hchain.1, rfl, trivial⟩
    | cons q rest =>
      simp only [okChain, Bool.and_eq_true] at hchain
      simp only [updateTextPartParts, okChain, Bool.and_eq_true]
      refine ⟨hchain.1, ih p (by simp) ?_⟩
      simp only [okChain, Bool.and_eq_true]
      exact hchain.2

theorem wf_updateTextPartParts (c : String) (parts : List MessagePart)
    (h : wellFormedParts parts = true) :
    wellFormedParts (updateTextPartParts parts c) = true := by
  cases parts with
  | nil => rfl
  | cons p tail =>
    cases tail with
    | nil =>
      rw [wellFormedParts_cons] at h
      simp only [Bool.and_eq_true] at h
      cases p with
      | text s => rfl
      | thinking t =>
        simp only [updateTextPartParts, wellFormedParts_cons, okChain,
          Bool.and_eq_true]
        exact ⟨rfl, rfl, trivial⟩
      | toolCall i n ar st ap o =>
        simp only [updateTextPartParts, wellFormedParts_cons, okChain,
          Bool.and_eq_true]
        exact ⟨rfl, rfl, trivial⟩
      | toolResult i ct st e => exact absurd h.1 (by simp [headOkPart])
      | contentPart tg v => exact absurd h.1 (by simp [headOkPart])
    | cons q rest =>
      rw [wellFormedParts_cons] at h
      simp only [Bool.and_eq_true] at h
      have hc := chain_updateTextPartParts c (q :: rest) p (by simp) h.2
      simp only [updateTextPartParts, wellFormedParts_cons, Bool.and_eq_true]
      exact ⟨h.1, hc⟩

theorem forall₂_sameShape_refl (xs : List MessagePart) :
    List.Forall₂ (fun x y => sameShape x y = true) xs xs := by
  induction xs with
  | nil => exact .nil
  | cons x r ih => exact .cons (sameShape_refl x) ih

theorem replaceThinkingRev_shape (c : String) (xs : List MessagePart) :
    List.Forall₂ (fun x y => sameShape x y = true) xs
      (replaceThinkingRev xs c) := by
  induction xs with
  | nil => exact .nil
  | cons x r ih =>
    cases x with
    | thinking s =>
      exact .cons (by simp [sameShape]) (forall₂_sameShape_refl r)
    | text s => exact .cons (sameShape_refl _) ih
    | toolCall i n a st ap o => exact .cons (sameShape_refl _) ih
    | toolResult i ct st e => exact .cons (sameShape_refl _) ih
    | contentPart tg v => exact .cons (sameShape_refl _) ih

theorem wf_updateThinkingParts (c : String) {parts : List MessagePart}
    (h : wellFormedParts parts = true) :
    wellFormedParts (updateThinkingParts parts c) = true := by
  unfold updateThinkingParts
  by_cases hc : parts.any MessagePart.isThinking = true
  · rw [if_pos hc]
    refine wellFormed_of_shape ?_ h
    have h1 := replaceThinkingRev_shape c parts.reverse
    have h2 := List.forall₂_reverse_iff.mpr h1
    rw [List.reverse_reverse] at h2
    exact h2
  · rw [if_neg hc]
    exact wellFormed_append_any _ (okPair_any_thinking c) rfl h

theorem wf_upsertToolCallParts (u : ToolCallUpdate) {parts : List MessagePart}
    (h : wellFormedParts parts = true) :
    wellFormedParts (upsertToolCallParts parts u) = true := by
  unfold upsertToolCallParts
  by_cases hc : parts.any (MessagePart.isToolCallWithId u.id) = true
  · rw [if_pos hc]
    refine wellFormed_of_shape (forall₂_map_self ?_ parts) h
    intro x
    cases x with
    | toolCall i n a st ap o =>
      by_cases hi : i = u.id
      · subst hi
        simp [sameShape]
      · simp [hi, sameShape]
    | text s => simp [sameShape]
    | thinking s => simp [sameShape]
    | toolResult i ct st e => simp [sameShape]
    | contentPart tg v => simp [sameShape]
  · rw [if_neg hc]
    exact wellFormed_append_any _ (okPair_any_toolCall _ _ _ _ _ _) rfl h

theorem okPair_toolResult_nonspecial {z : MessagePart} (tcid c : String)
    (s : ToolResultState) (e : Option String)
    (hz1 : ∀ t ct st er, z ≠ .toolResult t ct st er)
    (hz2 : ∀ tg v, z ≠ .contentPart tg v) :
    okPair (.toolResult tcid c s e) z = true := by
  cases z with
  | text s2 => rfl
  | thinking s2 => rfl
  | toolCall i n a st ap o => rfl
  | toolResult t ct st er => exact absurd rfl (hz1 t ct st er)
  | contentPart tg v => exact absurd rfl (hz2 tg v)

theorem okChain_insertAfterToolCall (tcid c : String) (s : ToolResultState)
    (e : Option String) :
    ∀ (parts : List MessagePart) (a : MessagePart),
      okChain a parts = true →
      parts.any (MessagePart.isToolResultFor tcid) = false →
      okChain a (insertAfterToolCall parts tcid (.toolResult tcid c s e)) =
        true := by
  intro parts
  induction parts with
  | nil => intro a _ _; rfl
  | cons p rest ih =>
    intro a hchain hnores
    simp only [okChain, Bool.and_eq_true] at hchain
    simp only [List.any_cons, Bool.or_eq_false_iff] at hnores
    by_cases hp : p.isToolCallWithId tcid = true
    · simp only [insertAfterToolCall, if_pos hp]
      cases p with
      | text s2 => simp [MessagePart.isToolCallWithId] at hp
      | thinking s2 => simp [MessagePart.isToolCallWithId] at hp
      | toolResult t ct st er => simp [MessagePart.isToolCallWithId] at hp
      | contentPart tg v => simp [MessagePart.isToolCallWithId] at hp
      | toolCall i n ar st ap o =>
        have hi : i = tcid := by
          simpa [MessagePart.isToolCallWithId] using hp
        subst hi
        simp only [okChain, Bool.and_eq_true]
        refine ⟨hchain.1, by simp [okPair], ?_⟩
        cases rest with
        | nil => rfl
        | cons z r2 =>
          have hz := hchain.2
          simp only [okChain, Bool.and_eq_true] at hz ⊢
          refine ⟨?_, hz.2⟩
          refine okPair_toolResult_nonspecial i c s e ?_ ?_
          · intro t ct st2 er hzz
            subst hzz
            have ht : i = t := by
              simpa [okPair] using hz.1
            subst ht
            have hres := hnores.2
            simp [List.any_cons, MessagePart.isToolResultFor] at hres
          · intro tg v hzz
            subst hzz
            exact Bool.noConfusion hz.1
    · simp only [insertAfterToolCall, if_neg hp]
      simp only [okChain, Bool.and_eq_true]
      refine ⟨hchain.1, ?_⟩
      exact ih p hchain.2 hnores.2

theorem wf_insertAfterToolCall {tcid c : String} {s : ToolResultState}
    {e : Option String} {parts : List MessagePart}
    (hwf : wellFormedParts parts = true)
    (hnores : parts.any (MessagePart.isToolResultFor tcid) = false) :
    wellFormedParts (insertAfterToolCall parts tcid
      (.toolResult tcid c s e)) = true := by
  cases parts with
  | nil => rfl
  | cons p rest =>
    rw [wellFormedParts_cons] at hwf
    simp only [Bool.and_eq_true] at hwf
    by_cases hp : p.isToolCallWithId tcid = true
    · have hpp : okPair p p = true := by
        cases p with
        | toolCall i n a st ap o => simp [okPair]
        | text s2 => simp [MessagePart.isToolCallWithId] at hp
        | thinking s2 => simp [MessagePart.isToolCallWithId] at hp
        | toolResult t ct st er => simp [MessagePart.isToolCallWithId] at hp
        | contentPart tg v => simp [MessagePart.isToolCallWithId] at hp
      have h2 := okChain_insertAfterToolCall tcid c s e (p :: rest) p
        (by simp only [okChain, Bool.and_eq_true]; exact ⟨hpp, hwf.2⟩) hnores
      simp only [insertAfterToolCall, if_pos hp] at h2 ⊢
      rw [wellFormedParts_cons]
      simp only [okChain, Bool.and_eq_true] at h2 ⊢
      exact ⟨hwf.1, h2.2⟩
    · simp only [insertAfterToolCall, if_neg hp]
      rw [wellFormedParts_cons]
      simp only [Bool.and_eq_true]
      simp only [List.any_cons, Bool.or_eq_false_iff] at hnores
      exact ⟨hwf.1, okChain_insertAfterToolCall tcid c s e rest p hwf.2 hnores.2⟩

theorem wf_upsertToolResultParts {tcid c : String} {s : ToolResultState}
    {e : Option String} {parts : List MessagePart}
    (h : wellFormedParts parts = true) :
    wellFormedParts (upsertToolResultParts parts tcid c s e) = true := by
  unfold upsertToolResultParts
  by_cases h1 : parts.any (MessagePart.isToolResultFor tcid) = true
  · rw [if_pos h1]
    refine wellFormed_of_shape (forall₂_map_self ?_ parts) h
    intro x
    cases x with
    | toolResult t ct st er =>
      by_cases ht : t = tcid
      · subst ht
        simp [sameShape]
      · simp [ht, sameShape]
    | text s2 => simp [sameShape]
    | thinking s2 => simp [sameShape]
    | toolCall i n a st ap o => simp [sameShape]
    | contentPart tg v => simp [sameShape]
  · rw [if_neg h1]
    by_cases h2 : parts.any (MessagePart.isToolCallWithId tcid) = true
    · rw [if_pos h2]
      exact wf_insertAfterToolCall h (by simpa using h1)
    · rw [if_neg h2]
      exact h

/-- Every message of a list has well-formed parts. -/
def wfMsgs (msgs : List UIMessage) : Prop :=
  ∀ m ∈ msgs, wellFormedParts m.parts = true

theorem wfMsgs_map {msgs : List UIMessage} {F : UIMessage → UIMessage}
    (hF : ∀ m, wellFormedParts m.parts = true →
      wellFormedParts (F m).parts = true)
    (h : wfMsgs msgs) : wfMsgs (msgs.map F) := by
  intro m' hm'
  obtain ⟨m, hm, heq⟩ := List.mem_map.mp hm'
  subst heq
  exact hF m (h m hm)

theorem wfMsgs_filter {msgs : List UIMessage} (f : UIMessage → Bool)
    (h : wfMsgs msgs) : wfMsgs (msgs.filter f) := by
  intro m hm
  exact h m (List.mem_filter.mp hm).1

theorem wfMsgs_append_empty {msgs : List UIMessage} (i : String) (ro : Role)
    (h : wfMsgs msgs) : wfMsgs (msgs ++ [{ id := i, role := ro, parts := [] }]) := by
  intro m hm
  rcases List.mem_append.mp hm with hm | hm
  · exact h m hm
  · rw [List.mem_singleton.mp hm]
    rfl

theorem wfMsgs_updateTextPart {msgs : List UIMessage} (mid c : String)
    (h : wfMsgs msgs) : wfMsgs (updateTextPart msgs mid c) := by
  refine wfMsgs_map ?_ h
  intro m hm
  by_cases hid : m.id = mid
  · rw [if_pos hid]
    exact wf_updateTextPartParts c m.parts hm
  · rw [if_neg hid]
    exact hm

theorem wfMsgs_updateThinkingPart {msgs : List UIMessage} (mid c : String)
    (h : wfMsgs msgs) : wfMsgs (updateThinkingPart msgs mid c) := by
  refine wfMsgs_map ?_ h
  intro m hm
  by_cases hid : m.id = mid
  · rw [if_pos hid]
    exact wf_updateThinkingParts c hm
  · rw [if_neg hid]
    exact hm

theorem wfMsgs_updateToolCallPart {msgs : List UIMessage} (mid : String)
    (u : ToolCallUpdate) (h : wfMsgs msgs) :
    wfMsgs (updateToolCallPart msgs mid u) := by
  refine wfMsgs_map ?_ h
  intro m hm
  by_cases hid : m.id = mid
  · rw [if_pos hid]
    exact wf_upsertToolCallParts u hm
  · rw [if_neg hid]
    exact hm

theorem wfMsgs_updateToolResultPart {msgs : List UIMessage}
    (mid tcid ct : String) (s : ToolResultState) (e : Option String)
    (h : wfMsgs msgs) : wfMsgs (updateToolResultPart msgs mid tcid ct s e) := by
  refine wfMsgs_map ?_ h
  intro m hm
  by_cases hid : m.id = mid
  · rw [if_pos hid]
    exact wf_upsertToolResultParts hm
  · rw [if_neg hid]
    exact hm

theorem wfMsgs_updateToolCallWithOutput {msgs : List UIMessage}
    (tcid out : String) (so : Option ToolCallState) (h : wfMsgs msgs) :
    wfMsgs (updateToolCallWithOutput msgs tcid out so) := by
  refine wfMsgs_map ?_ h
  intro m hm
  refine wellFormed_of_shape (forall₂_map_self ?_ m.parts) hm
  intro x
  cases x with
  | toolCall i n a st ap o =>
    by_cases hi : i = tcid
    · subst hi
      simp [sameShape]
    · simp [hi, sameShape]
  | text s2 => simp [sameShape]
  | thinking s2 => simp [sameShape]
  | toolResult t ct st er => simp [sameShape]
  | contentPart tg v => simp [sameShape]

theorem wfMsgs_updateToolCallApproval {msgs : List UIMessage}
    (mid tcid aid : String) (h : wfMsgs msgs) :
    wfMsgs (updateToolCallApproval msgs mid tcid aid) := by
  refine wfMsgs_map ?_ h
  intro m hm
  by_cases hid : m.id = mid
  · rw [if_pos hid]
    refine wellFormed_of_shape (forall₂_map_self ?_ m.parts) hm
    intro x
    cases x with
    | toolCall i n a st ap o =>
      by_cases hi : i = tcid
      · subst hi
        simp [sameShape]
      · simp [hi, sameShape]
    | text s2 => simp [sameShape]
    | thinking s2 => simp [sameShape]
    | toolResult t ct st er => simp [sameShape]
    | contentPart tg v => simp [sameShape]
  · rw [if_neg hid]
    exact hm

theorem wfMsgs_rebindId {msgs : List UIMessage} (oldId newId : String)
    (h : wfMsgs msgs) :
    wfMsgs (msgs.map (fun m =>
      if m.id = oldId then { m with id := newId } else m)) := by
  refine wfMsgs_map ?_ h
  intro m hm
  by_cases hid : m.id = oldId
  · rw [if_pos hid]
    exact hm
  · rw [if_neg hid]
    exact hm

theorem wf_createMessageState (p : Processor) (mid : String) (ro : Role)
    (h : wfMsgs p.messages) : wfMsgs (createMessageState p mid ro).messages := h

theorem wf_ensureAssistantMessage (p : Processor) (pref : Option String)
    (h : wfMsgs p.messages) :
    wfMsgs (ensureAssistantMessage p pref).1.messages := by
  unfold ensureAssistantMessage
  cases pref with
  | some pid =>
    dsimp only
    cases hps : (alookup p.messageStates pid).isSome with
    | true =>
      rw [if_pos rfl]
      exact h
    | false =>
      rw [if_neg (by simp)]
      dsimp only
      cases hga : getActiveAssistantMessageId p with
      | some aid => exact h
      | none =>
        dsimp only
        exact wfMsgs_append_empty _ _ h
  | none =>
    dsimp only
    cases hga : getActiveAssistantMessageId p with
    | some aid => exact h
    | none =>
      dsimp only
      exact wfMsgs_append_empty _ _ h

theorem wf_emitTextUpdateForMessage (p : Processor) (mid : String)
    (h : wfMsgs p.messages) :
    wfMsgs (emitTextUpdateForMessage p mid).1.messages := by
  unfold emitTextUpdateForMessage
  cases h1 : alookup p.messageStates mid with
  | none => exact h
  | some st =>
    dsimp only
    exact wfMsgs_updateTextPart mid _ h

theorem wf_completeToolCall (p : Processor) (mid tcid : String)
    (h : wfMsgs p.messages) :
    wfMsgs (completeToolCall p mid tcid).1.messages := by
  unfold completeToolCall
  cases h1 : alookup p.messageStates mid with
  | none => exact h
  | some st =>
    dsimp only
    cases h2 : alookup st.toolCalls tcid with
    | none => exact h
    | some tc =>
      dsimp only
      exact wfMsgs_updateToolCallPart mid _ h

theorem wf_completeToolCallsGo (mid : String) (ids : List String) :
    ∀ p : Processor, wfMsgs p.messages →
      wfMsgs (completeToolCallsGo mid ids p).1.messages := by
  induction ids with
  | nil => intro p h; exact h
  | cons i rest ih =>
    intro p h
    unfold completeToolCallsGo
    dsimp only
    cases h1 : alookup p.messageStates mid with
    | none => exact ih p h
    | some st =>
      dsimp only
      cases h2 : alookup st.toolCalls i with
      | none => exact ih p h
      | some tc =>
        dsimp only
        by_cases h3 : tc.state = ToolCallState.inputComplete
        · rw [if_pos h3]
          exact ih p h
        · rw [if_neg h3]
          exact ih _ (wf_completeToolCall p mid i h)

theorem wf_completeAllToolCallsForMessage (p : Processor) (mid : String)
    (h : wfMsgs p.messages) :
    wfMsgs (completeAllToolCallsForMessage p mid).1.messages := by
  unfold completeAllToolCallsForMessage
  cases h1 : alookup p.messageStates mid with
  | none => exact h
  | some st =>
    dsimp only
    exact wf_completeToolCallsGo mid _ p h

theorem wf_completeAllToolCallsGo (ids : List String) :
    ∀ p : Processor, wfMsgs p.messages →
      wfMsgs (completeAllToolCallsGo ids p).1.messages := by
  induction ids with
  | nil => intro p h; exact h
  | cons mid rest ih =>
    intro p h
    unfold completeAllToolCallsGo
    dsimp only
    exact ih _ (wf_completeAllToolCallsForMessage p mid h)

theorem wf_completeAllToolCalls (p : Processor) (h : wfMsgs p.messages) :
    wfMsgs (completeAllToolCalls p).1.messages := by
  unfold completeAllToolCalls
  exact wf_completeAllToolCallsGo _ p h

theorem wf_finalizeFlushPending (p : Processor) (mid : String)
    (h : wfMsgs p.messages) :
    wfMsgs (finalizeFlushPending p mid).1.messages := by
  unfold finalizeFlushPending
  cases h1 : alookup p.messageStates mid with
  | none => exact h
  | some st =>
    dsimp only
    by_cases h2 : st.currentSegmentText ≠ st.lastEmittedText
    · rw [if_pos h2]
      exact wf_emitTextUpdateForMessage p mid h
    · rw [if_neg h2]
      exact h

theorem wf_markComplete (p : Processor) (mid : String)
    (h : wfMsgs p.messages) : wfMsgs (markComplete p mid).messages := by
  unfold markComplete
  cases h1 : alookup p.messageStates mid with
  | none => exact h
  | some st => exact h

theorem wf_finalizePassStep (acc : Processor × List Emit × Option UIMessage)
    (mid : String) (h : wfMsgs acc.1.messages) :
    wfMsgs (finalizePassStep acc mid).1.messages := by
  unfold finalizePassStep
  cases h1 : alookup acc.1.messageStates mid with
  | none => exact h
  | some st =>
    dsimp only
    exact wf_markComplete _ mid (wf_finalizeFlushPending _ mid
      (wf_completeAllToolCallsForMessage acc.1 mid h))

theorem wf_foldl_finalizePassStep (ids : List String) :
    ∀ acc : Processor × List Emit × Option UIMessage,
      wfMsgs acc.1.messages →
      wfMsgs (ids.foldl finalizePassStep acc).1.messages := by
  induction ids with
  | nil => intro acc h; exact h
  | cons i rest ih =>
    intro acc h
    exact ih _ (wf_finalizePassStep acc i h)

theorem wf_finalizePass (p : Processor) (h : wfMsgs p.messages) :
    wfMsgs (finalizePass p).1.messages := by
  unfold finalizePass
  exact wf_foldl_finalizePassStep _ _ h

theorem wf_finalizeStream (p : Processor) (h : wfMsgs p.messages) :
    wfMsgs (finalizeStream p).1.messages := by
  unfold finalizeStream
  dsimp only
  cases h1 : (finalizePass p).2.2 with
  | none => exact wf_finalizePass p h
  | some la =>
    dsimp only
    by_cases h2 : (!{ (finalizePass p).1 with activeMessageIds := ([] : List String) }.hasError && isWhitespaceOnlyMessage la) = true
    · rw [if_pos h2]
      exact wfMsgs_filter _ (wf_finalizePass p h)
    · rw [if_neg h2]
      exact wf_finalizePass p h

theorem wf_handleTextMessageStartEvent (p : Processor) (mid : String)
    (ro : ChunkRole) (h : wfMsgs p.messages) :
    wfMsgs (handleTextMessageStartEvent p mid ro).1.messages := by
  unfold handleTextMessageStartEvent
  cases hpend : p.pendingManualMessageId with
  | some pendingId =>
    dsimp only
    by_cases hne : pendingId ≠ mid
    · rw [if_pos hne]
      dsimp only
      cases hms : alookup p.messageStates pendingId with
      | some existingState =>
        dsimp only
        cases hs2 : (alookup (aset (adel p.messageStates pendingId) mid
            { existingState with id := mid }) mid).isSome with
        | true =>
          rw [if_pos rfl]
          exact wfMsgs_rebindId pendingId mid h
        | false =>
          rw [if_neg (by simp)]
          exact wfMsgs_rebindId pendingId mid h
      | none =>
        dsimp only
        cases hs2 : (alookup p.messageStates mid).isSome with
        | true =>
          rw [if_pos rfl]
          exact wfMsgs_rebindId pendingId mid h
        | false =>
          rw [if_neg (by simp)]
          exact wfMsgs_rebindId pendingId mid h
    · rw [if_neg hne]
      dsimp only
      cases hs2 : (alookup p.messageStates mid).isSome with
      | true =>
        rw [if_pos rfl]
        exact h
      | false =>
        rw [if_neg (by simp)]
        exact h
  | none =>
    dsimp only
    cases hfind : p.messages.find? (fun m => m.id = mid) with
    | some mfound =>
      dsimp only
      cases hms : alookup p.messageStates mid with
      | none => exact h
      | some st =>
        dsimp only
        by_cases htool : st.hasToolCallsSinceTextStart = true
        · rw [if_pos htool]
          have h2 : wfMsgs
              ({ p with activeMessageIds := addActive p.activeMessageIds mid, pendingManualMessageId := none } : Processor).messages := h
          generalize ({ p with activeMessageIds := addActive p.activeMessageIds mid, pendingManualMessageId := none } : Processor) = q at h2 ⊢
          have h3 : wfMsgs (if st.currentSegmentText ≠ st.lastEmittedText then
              emitTextUpdateForMessage q mid else (q, [])).1.messages := by
            by_cases hf : st.currentSegmentText ≠ st.lastEmittedText
            · rw [if_pos hf]
              exact wf_emitTextUpdateForMessage q mid h2
            · rw [if_neg hf]
              exact h2
          generalize (if st.currentSegmentText ≠ st.lastEmittedText then
              emitTextUpdateForMessage q mid else (q, [])) = s1 at h3 ⊢
          cases halo : alookup s1.1.messageStates mid with
          | some st2 => exact h3
          | none => exact h3
        · rw [if_neg htool]
          exact h
    | none =>
      dsimp only
      exact wfMsgs_append_empty _ _ h

theorem wf_flushIfProp (q : Processor) (mid : String) (c : Prop)
    [Decidable c] (h : wfMsgs q.messages) :
    wfMsgs (if c then emitTextUpdateForMessage q mid else (q, [])).1.messages := by
  by_cases hc : c
  · rw [if_pos hc]
    exact wf_emitTextUpdateForMessage q mid h
  · rw [if_neg hc]
    exact h

theorem wf_handleTextMessageEndEvent (p : Processor) (mid : String)
    (h : wfMsgs p.messages) :
    wfMsgs (handleTextMessageEndEvent p mid).1.messages := by
  unfold handleTextMessageEndEvent
  cases h1 : alookup p.messageStates mid with
  | none => exact h
  | some st =>
    dsimp only
    by_cases hic : st.isComplete = true
    · rw [if_pos hic]
      exact h
    · rw [if_neg hic]
      dsimp only
      exact wf_completeAllToolCallsForMessage _ mid (wf_flushIfProp p mid _ h)

theorem wf_handleTextMessageContentEvent (p : Processor) (mid0 : String)
    (delta content : Option String) (h : wfMsgs p.messages) :
    wfMsgs (handleTextMessageContentEvent p mid0 delta content).1.messages := by
  unfold handleTextMessageContentEvent
  dsimp only
  have he : wfMsgs (ensureAssistantMessage p (some mid0)).1.messages :=
    wf_ensureAssistantMessage p _ h
  generalize hge : ensureAssistantMessage p (some mid0) = e0 at he ⊢
  have hs1 : wfMsgs (completeAllToolCallsForMessage e0.1 e0.2.2).1.messages :=
    wf_completeAllToolCallsForMessage _ _ he
  generalize hgs : completeAllToolCallsForMessage e0.1 e0.2.2 = s1 at hs1 ⊢
  cases halo : alookup s1.1.messageStates e0.2.2 with
  | none => exact hs1
  | some st =>
    dsimp only
    by_cases hnew : (st.hasToolCallsSinceTextStart &&
        decide (st.currentSegmentText.length > 0) &&
        isNewTextSegment content st.currentSegmentText) = true
    · rw [if_pos hnew]
      have hf : wfMsgs (if st.currentSegmentText ≠ st.lastEmittedText then
          emitTextUpdateForMessage s1.1 e0.2.2 else (s1.1, [])).1.messages :=
        wf_flushIfProp s1.1 e0.2.2 _ hs1
      generalize hgf : (if st.currentSegmentText ≠ st.lastEmittedText then
          emitTextUpdateForMessage s1.1 e0.2.2 else (s1.1, [])) = f at hf ⊢
      cases halo2 : alookup f.1.messageStates e0.2.2 with
      | some st2 =>
        dsimp only
        exact wf_flushIfProp _ _ _ hf
      | none =>
        dsimp only
        exact wf_flushIfProp _ _ _ hf
    · rw [if_neg hnew]
      dsimp only
      exact wf_flushIfProp _ _ _ hs1

theorem wf_handleToolCallStartEvent (p : Processor) (tcid tname : String)
    (parent : Option String) (index : Option Nat) (h : wfMsgs p.messages) :
    wfMsgs (handleToolCallStartEvent p tcid tname parent index).1.messages := by
  unfold handleToolCallStartEvent
  cases parent with
  | some x =>
    dsimp only
    have he : wfMsgs (ensureAssistantMessage p (some x)).1.messages :=
      wf_ensureAssistantMessage p _ h
    generalize hge : ensureAssistantMessage p (some x) = e0 at he ⊢
    cases halo : alookup e0.1.messageStates e0.2.2 with
    | none => exact he
    | some st =>
      dsimp only
      cases halo2 : alookup st.toolCalls tcid with
      | some tc => exact he
      | none =>
        dsimp only
        exact wfMsgs_updateToolCallPart _ _ he
  | none =>
    dsimp only
    have he : wfMsgs (ensureAssistantMessage p
        (getActiveAssistantMessageId p)).1.messages :=
      wf_ensureAssistantMessage p _ h
    generalize hge : ensureAssistantMessage p (getActiveAssistantMessageId p) = e0 at he ⊢
    cases halo : alookup e0.1.messageStates e0.2.2 with
    | none => exact he
    | some st =>
      dsimp only
      cases halo2 : alookup st.toolCalls tcid with
      | some tc => exact he
      | none =>
        dsimp only
        exact wfMsgs_updateToolCallPart _ _ he

theorem wf_handleToolCallArgsEvent (p : Processor) (tcid d : String)
    (h : wfMsgs p.messages) :
    wfMsgs (handleToolCallArgsEvent p tcid d).1.messages := by
  unfold handleToolCallArgsEvent
  cases h1 : alookup p.toolCallToMessage tcid with
  | none => exact h
  | some mid =>
    dsimp only
    cases h2 : alookup p.messageStates mid with
    | none => exact h
    | some st =>
      dsimp only
      cases h3 : alookup st.toolCalls tcid with
      | none => exact h
      | some tc =>
        dsimp only
        exact wfMsgs_updateToolCallPart _ _ h

theorem wf_handleToolCallEndEvent (p : Processor) (tcid : String)
    (input result : Option String) (h : wfMsgs p.messages) :
    wfMsgs (handleToolCallEndEvent p tcid input result).1.messages := by
  unfold handleToolCallEndEvent
  cases h1 : alookup p.toolCallToMessage tcid with
  | none => exact h
  | some mid =>
    dsimp only
    cases h2 : alookup p.messageStates mid with
    | none => exact h
    | some st =>
      dsimp only
      cases h3 : alookup st.toolCalls tcid with
      | none =>
        dsimp only
        cases result with
        | none => exact h
        | some r =>
          dsimp only
          by_cases hr : r ≠ ""
          · rw [if_pos hr]
            exact wfMsgs_updateToolResultPart _ _ _ _ _
              (wfMsgs_updateToolCallWithOutput _ _ _ h)
          · rw [if_neg hr]
            exact h
      | some tc =>
        dsimp only
        by_cases hstate : tc.state ≠ ToolCallState.inputComplete
        · rw [if_pos hstate]
          dsimp only
          cases input with
          | none =>
            dsimp only
            have hs1 : wfMsgs (completeToolCall p mid tcid).1.messages :=
              wf_completeToolCall p mid tcid h
            cases result with
            | none => exact hs1
            | some r =>
              dsimp only
              by_cases hr : r ≠ ""
              · rw [if_pos hr]
                exact wfMsgs_updateToolResultPart _ _ _ _ _
                  (wfMsgs_updateToolCallWithOutput _ _ _ hs1)
              · rw [if_neg hr]
                exact hs1
          | some v =>
            dsimp only
            have hs1 : wfMsgs (setParsedArguments (completeToolCall p mid tcid).1
                mid tcid (.given v)).messages := by
              rw [setParsedArguments_messages]
              exact wf_completeToolCall p mid tcid h
            cases result with
            | none => exact hs1
            | some r =>
              dsimp only
              by_cases hr : r ≠ ""
              · rw [if_pos hr]
                exact wfMsgs_updateToolResultPart _ _ _ _ _
                  (wfMsgs_updateToolCallWithOutput _ _ _ hs1)
              · rw [if_neg hr]
                exact hs1
        · rw [if_neg hstate]
          dsimp only
          cases result with
          | none => exact h
          | some r =>
            dsimp only
            by_cases hr : r ≠ ""
            · rw [if_pos hr]
              exact wfMsgs_updateToolResultPart _ _ _ _ _
                (wfMsgs_updateToolCallWithOutput _ _ _ h)
            · rw [if_neg hr]
              exact h

theorem wf_handleRunFinishedEvent (p : Processor) (fr : String)
    (h : wfMsgs p.messages) :
    wfMsgs (handleRunFinishedEvent p fr).1.messages := by
  unfold handleRunFinishedEvent
  exact wf_finalizeStream _ (wf_completeAllToolCalls _ h)

theorem wf_handleRunErrorEvent (p : Processor) (msg : String)
    (h : wfMsgs p.messages) :
    wfMsgs (handleRunErrorEvent p msg).1.messages := by
  unfold handleRunErrorEvent
  exact wf_ensureAssistantMessage _ _ h

theorem wf_handleStepFinishedEvent (p : Processor)
    (delta content : Option String) (h : wfMsgs p.messages) :
    wfMsgs (handleStepFinishedEvent p delta content).1.messages := by
  unfold handleStepFinishedEvent
  dsimp only
  have he : wfMsgs (ensureAssistantMessage p
      (getActiveAssistantMessageId p)).1.messages :=
    wf_ensureAssistantMessage p _ h
  generalize hge : ensureAssistantMessage p (getActiveAssistantMessageId p) = e0 at he ⊢
  cases halo : alookup e0.1.messageStates e0.2.2 with
  | none => exact he
  | some st =>
    dsimp only
    exact wfMsgs_updateThinkingPart _ _ he

theorem wf_handleCustomEvent (p : Processor) (name : String)
    (data : Option CustomData) (h : wfMsgs p.messages) :
    wfMsgs (handleCustomEvent p name data).1.messages := by
  unfold handleCustomEvent
  by_cases hn : name = "approval-requested"
  · subst hn
    rw [if_pos rfl]
    cases data with
    | none => exact h
    | some d =>
      dsimp only
      cases hap : d.approval with
      | none => exact h
      | some ap =>
        dsimp only
        cases hmid : getActiveAssistantMessageId p with
        | none => exact h
        | some mid =>
          dsimp only
          exact wfMsgs_updateToolCallApproval _ _ _ h
  · rw [if_neg hn]
    exact h

theorem wf_processChunk (p : Processor) (ch : StreamChunk)
    (hs : ch.isSnapshot = false) (h : wfMsgs p.messages) :
    wfMsgs (processChunk p ch).1.messages := by
  cases ch with
  | textMessageStart mid ro => exact wf_handleTextMessageStartEvent p mid ro h
  | textMessageContent mid d c => exact wf_handleTextMessageContentEvent p mid d c h
  | textMessageEnd mid => exact wf_handleTextMessageEndEvent p mid h
  | toolCallStart tcid tname parent index =>
    exact wf_handleToolCallStartEvent p tcid tname parent index h
  | toolCallArgs tcid d => exact wf_handleToolCallArgsEvent p tcid d h
  | toolCallEnd tcid input result =>
    exact wf_handleToolCallEndEvent p tcid input result h
  | runFinished fr => exact wf_handleRunFinishedEvent p fr h
  | runError msg => exact wf_handleRunErrorEvent p msg h
  | stepFinished d c => exact wf_handleStepFinishedEvent p d c h
  | messagesSnapshot msgs => exact absurd hs (by simp [StreamChunk.isSnapshot])
  | custom name data => exact wf_handleCustomEvent p name data h
  | other tag => exact h

theorem wf_runChunks (cs : List StreamChunk) :
    ∀ p : Processor, (∀ c ∈ cs, c.isSnapshot = false) →
      wfMsgs p.messages → wfMsgs (runChunks p cs).1.messages := by
  induction cs with
  | nil => intro p _ h; exact h
  | cons c rest ih =>
    intro p hs h
    unfold runChunks
    dsimp only
    exact ih _ (fun c2 hc2 => hs c2 (List.mem_cons_of_mem c hc2))
      (wf_processChunk p c (hs c (List.mem_cons_self c rest)) h)

theorem okChain_noAdjacent :
    ∀ (xs : List MessagePart) (a : MessagePart),
      okChain a xs = true → noAdjacentTexts (a :: xs) = true := by
  intro xs
  induction xs with
  | nil => intro a _; cases a <;> rfl
  | cons y ys ih =>
    intro a hchain
    simp only [okChain, Bool.and_eq_true] at hchain
    have hrec := ih y hchain.2
    cases a with
    | text s =>
      cases y with
      | text s2 => exact absurd hchain.1 (by simp [okPair])
      | thinking s2 => exact hrec
      | toolCall i n ar st ap o => exact hrec
      | toolResult t ct sr er => exact hrec
      | contentPart tg v => exact hrec
    | thinking s => exact hrec
    | toolCall i n ar st ap o => exact hrec
    | toolResult t ct sr er => exact hrec
    | contentPart tg v => exact hrec

theorem wellFormed_noAdjacentTexts (parts : List MessagePart)
    (h : wellFormedParts parts = true) : noAdjacentTexts parts = true := by
  cases parts with
  | nil => rfl
  | cons x xs =>
    rw [wellFormedParts_cons] at h
    simp only [Bool.and_eq_true] at h
    exact okChain_noAdjacent xs x h.2

theorem wf_of_okChain_head {y : MessagePart} {ys : List MessagePart}
    (hhead : headOkPart y = true) (hchain : okChain y ys = true) :
    wellFormedParts (y :: ys) = true := by
  rw [wellFormedParts_cons]
  simp only [Bool.and_eq_true]
  exact ⟨hhead, hchain⟩

theorem headOk_of_okPair_nonCall {a y : MessagePart}
    (ha : ∀ i n ar st ap o, a ≠ .toolCall i n ar st ap o)
    (h : okPair a y = true) : headOkPart y = true := by
  cases a with
  | toolCall i n ar st ap o => exact absurd rfl (ha i n ar st ap o)
  | text s => cases y <;> simp_all [okPair, headOkPart]
  | thinking s => cases y <;> simp_all [okPair, headOkPart]
  | toolResult t ct sr er => cases y <;> simp_all [okPair, headOkPart]
  | contentPart tg v => cases y <;> simp_all [okPair, headOkPart]

theorem wellFormed_regex_aux :
    ∀ (n : Nat) (parts : List MessagePart), parts.length ≤ n →
      wellFormedParts parts = true → matchesPartRegex parts = true := by
  intro n
  induction n with
  | zero =>
    intro parts hlen _
    cases parts with
    | nil => rfl
    | cons x xs => simp at hlen
  | succ k ih =>
    intro parts hlen h
    cases parts with
    | nil => rfl
    | cons x xs =>
      rw [wellFormedParts_cons] at h
      simp only [Bool.and_eq_true] at h
      have hlen1 : xs.length ≤ k := by
        simp only [List.length_cons] at hlen
        omega
      cases x with
      | text s =>
        have hxs : wellFormedParts xs = true := by
          cases xs with
          | nil => rfl
          | cons y ys =>
            have hc := h.2
            simp only [okChain, Bool.and_eq_true] at hc
            exact wf_of_okChain_head
              (headOk_of_okPair_nonCall (by intro _ _ _ _ _ _ hx; cases hx) hc.1)
              hc.2
        simp only [matchesPartRegex]
        exact ih xs hlen1 hxs
      | thinking s =>
        have hxs : wellFormedParts xs = true := by
          cases xs with
          | nil => rfl
          | cons y ys =>
            have hc := h.2
            simp only [okChain, Bool.and_eq_true] at hc
            exact wf_of_okChain_head
              (headOk_of_okPair_nonCall (by intro _ _ _ _ _ _ hx; cases hx) hc.1)
              hc.2
        simp only [matchesPartRegex]
        exact ih xs hlen1 hxs
      | toolResult t ct sr er => exact absurd h.1 (by simp [headOkPart])
      | contentPart tg v => exact absurd h.1 (by simp [headOkPart])
      | toolCall i n ar st ap o =>
        cases xs with
        | nil => rfl
        | cons y ys =>
          have hc := h.2
          simp only [okChain, Bool.and_eq_true] at hc
          have hlen2 : ys.length ≤ k := by
            simp only [List.length_cons] at hlen
            omega
          cases y with
          | toolResult t2 ct2 sr2 er2 =>
            have hys : wellFormedParts ys = true := by
              cases ys with
              | nil => rfl
              | cons z zs =>
                have hc2 := hc.2
                simp only [okChain, Bool.and_eq_true] at hc2
                exact wf_of_okChain_head
                  (headOk_of_okPair_nonCall (by intro _ _ _ _ _ _ hx; cases hx)
                    hc2.1)
                  hc2.2
            simp only [matchesPartRegex]
            exact ih ys hlen2 hys
          | text s2 =>
            have hys : wellFormedParts (MessagePart.text s2 :: ys) = true :=
              wf_of_okChain_head rfl hc.2
            simp only [matchesPartRegex]
            exact ih (MessagePart.text s2 :: ys) hlen1 hys
          | thinking s2 =>
            have hys : wellFormedParts (MessagePart.thinking s2 :: ys) = true :=
              wf_of_okChain_head rfl hc.2
            simp only [matchesPartRegex]
            exact ih (MessagePart.thinking s2 :: ys) hlen1 hys
          | toolCall i2 n2 ar2 st2 ap2 o2 =>
            have hys : wellFormedParts
                (MessagePart.toolCall i2 n2 ar2 st2 ap2 o2 :: ys) = true :=
              wf_of_okChain_head rfl hc.2
            simp only [matchesPartRegex]
            exact ih (MessagePart.toolCall i2 n2 ar2 st2 ap2 o2 :: ys) hlen1 hys
          | contentPart tg2 v2 => exact absurd hc.1 (by simp [okPair])

theorem wellFormed_regex (parts : List MessagePart)
    (h : wellFormedParts parts = true) : matchesPartRegex parts = true :=
  wellFormed_regex_aux parts.length parts (Nat.le_refl _) h

theorem updateTextPartParts_extend (parts : List MessagePart) (s c : String) :
    updateTextPartParts (parts ++ [.text s]) c = parts ++ [.text c] := by
  induction parts with
  | nil => rfl
  | cons p tail ih =>
    cases htl : tail ++ [MessagePart.text s] with
    | nil => exact absurd htl (by simp)
    | cons q rest =>
      show updateTextPartParts (p :: (tail ++ [MessagePart.text s])) c = _
      rw [htl]
      simp only [updateTextPartParts]
      rw [← htl, ih]
      rfl

theorem updateTextPartParts_push (parts : List MessagePart) (q : MessagePart)
    (c : String) (hq : ∀ s, q ≠ .text s) :
    updateTextPartParts (parts ++ [q]) c = parts ++ [q, .text c] := by
  induction parts with
  | nil =>
    cases q with
    | text s => exact absurd rfl (hq s)
    | thinking s => rfl
    | toolCall i n ar st ap o => rfl
    | toolResult t ct sr er => rfl
    | contentPart tg v => rfl
  | cons p tail ih =>
    cases htl : tail ++ [q] with
    | nil => exact absurd htl (by simp)
    | cons q2 rest =>
      show updateTextPartParts (p :: (tail ++ [q])) c = _
      rw [htl]
      simp only [updateTextPartParts]
      rw [← htl, ih]
      rfl

/-- C1 (amended): over any snapshot-free chunk stream processed from a fresh
processor and finalized, every message's parts list matches
`(Text | Thinking | (ToolCall ToolResult?))*` and has no two adjacent
TextParts (in particular every assistant message does); and the text updater
extends a trailing TextPart in place, while after a trailing non-text part a
new TextPart is pushed. -/
theorem claim_C1_amended_part_ordering (strategy : String → String → Bool)
    (cs : List StreamChunk) (hs : ∀ c ∈ cs, c.isSnapshot = false) :
    (∀ m ∈ (finalizeStream (runChunks (initProcessor strategy) cs).1).1.messages,
      matchesPartRegex m.parts = true ∧ noAdjacentTexts m.parts = true) ∧
    (∀ (parts : List MessagePart) (s c : String),
      updateTextPartParts (parts ++ [.text s]) c = parts ++ [.text c]) ∧
    (∀ (parts : List MessagePart) (q : MessagePart) (c : String),
      (∀ s, q ≠ .text s) →
      updateTextPartParts (parts ++ [q]) c = parts ++ [q, .text c]) := by
  refine ⟨?_, updateTextPartParts_extend, updateTextPartParts_push⟩
  intro m hm
  have hwf : wfMsgs (finalizeStream
      (runChunks (initProcessor strategy) cs).1).1.messages :=
    wf_finalizeStream _ (wf_runChunks cs _ hs (by intro m2 hm2; cases hm2))
  exact ⟨wellFormed_regex m.parts (hwf m hm),
    wellFormed_noAdjacentTexts m.parts (hwf m hm)⟩

theorem claim_C1_witness :
    (∀ m ∈ (finalizeStream (runChunks (initProcessor immediateStrategy)
        [.textMessageStart "m1" .assistant,
         .textMessageContent "m1" (some "hi") none,
         .toolCallStart "t1" "f" (some "m1") none,
         .toolCallEnd "t1" none (some "ok"),
         .textMessageContent "m1" (some "bye") (some "bye"),
         .runFinished "stop"]).1).1.messages,
      matchesPartRegex m.parts = true ∧ noAdjacentTexts m.parts = true) ∧
    (∀ (parts : List MessagePart) (s c : String),
      updateTextPartParts (parts ++ [.text s]) c = parts ++ [.text c]) ∧
    (∀ (parts : List MessagePart) (q : MessagePart) (c : String),
      (∀ s, q ≠ .text s) →
      updateTextPartParts (parts ++ [q]) c = parts ++ [q, .text c]) :=
  claim_C1_amended_part_ordering immediateStrategy
    [.textMessageStart "m1" .assistant,
     .textMessageContent "m1" (some "hi") none,
     .toolCallStart "t1" "f" (some "m1") none,
     .toolCallEnd "t1" none (some "ok"),
     .textMessageContent "m1" (some "bye") (some "bye"),
     .runFinished "stop"]
    (by decide)

/-- Operations of the C2 counterexample, part (i): a duplicate
TOOL_CALL_START routed to a second message re-creates the tracked call. -/
def c2ops1 : List Op :=
  [.chunk (.textMessageStart "m1" .assistant),
   .chunk (.toolCallStart "t1" "f" (some "m1") none),
   .chunk (.toolCallArgs "t1" "x"),
   .chunk (.textMessageStart "m2" .assistant),
   .chunk (.toolCallStart "t1" "f" (some "m2") none)]

/-- An `approval-requested` CUSTOM event with the given approval id, for the
C2 counterexample, part (ii). -/
def c2approval (aid : String) : Op :=
  .chunk (.custom "approval-requested"
    (some { toolCallId := "t1", toolName := "f", input := "",
            approval := some { id := aid, needsApproval := true, approved := none } }))

/-- C2 counterexample, part (ii) prefix: request, then respond. -/
def c2ops2a : List Op :=
  [.chunk (.textMessageStart "m1" .assistant),
   .chunk (.toolCallStart "t1" "f" (some "m1") none),
   c2approval "a1",
   .approvalResponse "a1" true]

/-- C2 counterexample, part (ii): a second approval request. -/
def c2ops2b : List Op := c2ops2a ++ [c2approval "a2"]

/-- C2 as stated is false in two ways.  (i) A second TOOL_CALL_START for an
id already streaming on another message re-creates the tracked call, so
`onToolCallStateChange` reports awaiting-input after input-streaming.
(ii) The state stored on the ToolCallPart regresses from approval-responded
back to approval-requested when a second approval round begins, even with no
duplicate TOOL_CALL_START. -/
theorem claim_C2_counterexample :
    (tEmits (runOps (initProcessor immediateStrategy) c2ops1).2 "t1" =
      [.awaitingInput, .inputStreaming, .awaitingInput] ∧
     noRegression .inputStreaming .awaitingInput = false) ∧
    ((startIds c2ops2b).Nodup ∧
     getToolCallPartState (runOps (initProcessor immediateStrategy)
        c2ops2a).1.messages "t1" = some .approvalResponded ∧
     getToolCallPartState (runOps (initProcessor immediateStrategy)
        c2ops2b).1.messages "t1" = some .approvalRequested ∧
     noRegression .approvalResponded .approvalRequested = false) := by
  refine ⟨⟨by decide, by decide⟩, by decide, by decide, by decide, by decide⟩

/-- A reported-state trace is admissible after a last-reported rank `r`:
every state is in the input chain and ranks never decrease. -/
def chainFrom (r : Nat) : List ToolCallState → Prop
  | [] => True
  | s :: rest => inChain3 s = true ∧ r ≤ rank3 s ∧ chainFrom (rank3 s) rest

/-- The last reported rank after a trace. -/
def lastRankAfter (r : Nat) : List ToolCallState → Nat
  | [] => r
  | s :: rest => lastRankAfter (rank3 s) rest

/-- Invariant tying the tracked tool-call entries for `t` to the last
reported rank: entries are chain states at or above the last report, and a
single message owns the id. -/
def TInvL (t : String) (l : List (String × MessageStreamState)) (r : Nat) :
    Prop :=
  r ≤ 2 ∧
  (∀ mid st tc, alookup l mid = some st → alookup st.toolCalls t = some tc →
    inChain3 tc.state = true ∧ r ≤ rank3 tc.state) ∧
  (∀ mid1 st1 tc1 mid2 st2 tc2,
    alookup l mid1 = some st1 → alookup st1.toolCalls t = some tc1 →
    alookup l mid2 = some st2 → alookup st2.toolCalls t = some tc2 →
    mid1 = mid2)

/-- `t` has not started yet: no tracked entry anywhere, no owner binding. -/
def NSL (t : String) (l : List (String × MessageStreamState))
    (tctm : List (String × String)) : Prop :=
  (∀ mid st, alookup l mid = some st → alookup st.toolCalls t = none) ∧
  alookup tctm t = none

/-- Every tracked entry's `id` field equals its key. -/
def IdsOKL (l : List (String × MessageStreamState)) : Prop :=
  ∀ mid st k tc, alookup l mid = some st →
    alookup st.toolCalls k = some tc → tc.id = k

/-- One processor step is sound for the tool call `t`: its reported states
for `t` extend any admissible trace, the invariant is carried to the new
last rank, and a not-yet-started `t` stays silent and not started. -/
def TStep (t : String) (p : Processor) (out : Processor × List Emit) : Prop :=
  ∀ r, IdsOKL p.messageStates → TInvL t p.messageStates r →
    chainFrom r (tEmits out.2 t) ∧
    TInvL t out.1.messageStates (lastRankAfter r (tEmits out.2 t)) ∧
    IdsOKL out.1.messageStates ∧
    (NSL t p.messageStates p.toolCallToMessage →
      NSL t out.1.messageStates out.1.toolCallToMessage ∧
      tEmits out.2 t = [])

theorem tEmits_append (es1 es2 : List Emit) (t : String) :
    tEmits (es1 ++ es2) t = tEmits es1 t ++ tEmits es2 t :=
  List.filterMap_append es1 es2 _

theorem lastRankAfter_append (r : Nat) (L1 L2 : List ToolCallState) :
    lastRankAfter r (L1 ++ L2) = lastRankAfter (lastRankAfter r L1) L2 := by
  induction L1 generalizing r with
  | nil => rfl
  | cons s rest ih => exact ih (rank3 s)

theorem chainFrom_append {r : Nat} {L1 L2 : List ToolCallState}
    (h1 : chainFrom r L1) (h2 : chainFrom (lastRankAfter r L1) L2) :
    chainFrom r (L1 ++ L2) := by
  induction L1 generalizing r with
  | nil => exact h2
  | cons s rest ih =>
    obtain ⟨ha, hb, hc⟩ := h1
    exact ⟨ha, hb, ih hc h2⟩

theorem noRegression_of_rank {a b : ToolCallState}
    (ha : inChain3 a = true) (hb : inChain3 b = true)
    (hr : rank3 a ≤ rank3 b) : noRegression a b = true := by
  cases a <;> cases b <;> simp_all [inChain3, rank3, noRegression]

theorem chainFrom_all {L : List ToolCallState} :
    ∀ {r : Nat}, chainFrom r L → ∀ s ∈ L, inChain3 s = true := by
  induction L with
  | nil => intro r _ s hs; cases hs
  | cons x rest ih =>
    intro r h s hs
    rcases List.mem_cons.mp hs with hs | hs
    · subst hs
      exact h.1
    · exact ih h.2.2 s hs

theorem chainFrom_chain' {L : List ToolCallState} :
    ∀ {r : Nat}, chainFrom r L →
      List.Chain' (fun a b => noRegression a b = true) L := by
  induction L with
  | nil => intro r _; exact List.chain'_nil
  | cons x rest ih =>
    intro r h
    cases rest with
    | nil => exact List.chain'_singleton x
    | cons y rest2 =>
      refine List.chain'_cons.mpr ⟨?_, ih h.2.2⟩
      exact noRegression_of_rank h.1 h.2.2.1 h.2.2.2.1

theorem TStep_comp {t : String} {p : Processor} {q : Processor}
    {es1 : List Emit} {out2 : Processor × List Emit}
    (h1 : TStep t p (q, es1)) (h2 : TStep t q out2) :
    TStep t p (out2.1, es1 ++ out2.2) := by
  intro r hid hinv
  obtain ⟨hc1, hinv1, hid1, hns1⟩ := h1 r hid hinv
  obtain ⟨hc2, hinv2, hid2, hns2⟩ := h2 _ hid1 hinv1
  refine ⟨?_, ?_, hid2, ?_⟩
  · rw [tEmits_append]
    exact chainFrom_append hc1 hc2
  · rw [tEmits_append, lastRankAfter_append]
    exact hinv2
  · intro hns
    obtain ⟨hnsq, he1⟩ := hns1 hns
    obtain ⟨hnso, he2⟩ := hns2 hnsq
    refine ⟨hnso, ?_⟩
    rw [tEmits_append, he1, he2]
    rfl

theorem TStep_silent {t : String} {p : Processor}
    {out : Processor × List Emit}
    (hm : out.1.messageStates = p.messageStates)
    (ht : out.1.toolCallToMessage = p.toolCallToMessage)
    (he : tEmits out.2 t = []) : TStep t p out := by
  intro r hid hinv
  rw [he, hm, ht]
  exact ⟨trivial, hinv, hid, fun hns => ⟨hns, rfl⟩⟩

theorem alookup_adel_self {α : Type} (l : List (String × α)) (k : String) :
    alookup (adel l k) k = none := by
  induction l with
  | nil => rfl
  | cons kv rest ih =>
    obtain ⟨ka, va⟩ := kv
    unfold adel
    rw [List.filter_cons]
    by_cases hk : ka = k
    · rw [if_neg (by simp [hk])]
      show alookup (adel rest k) k = none
      exact ih
    · rw [if_pos (by simpa using hk)]
      show alookup ((ka, va) :: adel rest k) k = none
      simp only [alookup]
      rw [if_neg hk]
      exact ih

theorem alookup_adel_ne {α : Type} (l : List (String × α)) {k k' : String}
    (h : k' ≠ k) : alookup (adel l k) k' = alookup l k' := by
  induction l with
  | nil => rfl
  | cons kv rest ih =>
    obtain ⟨ka, va⟩ := kv
    unfold adel
    rw [List.filter_cons]
    by_cases hk : ka = k
    · rw [if_neg (by simp [hk])]
      show alookup (adel rest k) k' = _
      rw [ih]
      simp only [alookup]
      rw [if_neg (by rw [hk]; exact fun hc => h hc.symm)]
    · rw [if_pos (by simpa using hk)]
      show alookup ((ka, va) :: adel rest k) k' = _
      simp only [alookup]
      by_cases hkk : ka = k'
      · rw [if_pos hkk, if_pos hkk]
      · rw [if_neg hkk, if_neg hkk]
        exact ih

theorem TInvL_aset {t : String} {l : List (String × MessageStreamState)}
    {r : Nat} {mid : String} {st' : MessageStreamState}
    (hcase : alookup st'.toolCalls t = none ∨
      ∃ st, alookup l mid = some st ∧
        alookup st'.toolCalls t = alookup st.toolCalls t)
    (h : TInvL t l r) : TInvL t (aset l mid st') r := by
  obtain ⟨hr, hB, hC⟩ := h
  refine ⟨hr, ?_, ?_⟩
  · intro mid1 st1 tc1 h1 h2
    by_cases hm : mid1 = mid
    · subst hm
      rw [alookup_aset_self] at h1
      cases h1
      rcases hcase with hnone | ⟨st, hst, heq⟩
      · rw [hnone] at h2
        cases h2
      · rw [heq] at h2
        exact hB mid1 st tc1 hst h2
    · rw [alookup_aset_ne _ _ hm] at h1
      exact hB mid1 st1 tc1 h1 h2
  · intro mid1 st1 tc1 mid2 st2 tc2 h1 h2 h3 h4
    have tr : ∀ mid0 st0 tc0, alookup (aset l mid st') mid0 = some st0 →
        alookup st0.toolCalls t = some tc0 →
        ∃ stx tcx, alookup l mid0 = some stx ∧
          alookup stx.toolCalls t = some tcx := by
      intro mid0 st0 tc0 ha hb
      by_cases hm : mid0 = mid
      · subst hm
        rw [alookup_aset_self] at ha
        cases ha
        rcases hcase with hnone | ⟨st, hst, heq⟩
        · rw [hnone] at hb
          cases hb
        · rw [heq] at hb
          exact ⟨st, tc0, hst, hb⟩
      · rw [alookup_aset_ne _ _ hm] at ha
        exact ⟨st0, tc0, ha, hb⟩
    obtain ⟨stx1, tcx1, ha1, hb1⟩ := tr mid1 st1 tc1 h1 h2
    obtain ⟨stx2, tcx2, ha2, hb2⟩ := tr mid2 st2 tc2 h3 h4
    exact hC mid1 stx1 tcx1 mid2 stx2 tcx2 ha1 hb1 ha2 hb2

theorem TInvL_adel {t : String} {l : List (String × MessageStreamState)}
    {r : Nat} (mid : String) (h : TInvL t l r) : TInvL t (adel l mid) r := by
  obtain ⟨hr, hB, hC⟩ := h
  have tr : ∀ mid0 st0, alookup (adel l mid) mid0 = some st0 →
      alookup l mid0 = some st0 := by
    intro mid0 st0 ha
    by_cases hm : mid0 = mid
    · subst hm
      rw [alookup_adel_self] at ha
      cases ha
    · rw [alookup_adel_ne _ hm] at ha
      exact ha
  refine ⟨hr, ?_, ?_⟩
  · intro mid1 st1 tc1 h1 h2
    exact hB mid1 st1 tc1 (tr mid1 st1 h1) h2
  · intro mid1 st1 tc1 mid2 st2 tc2 h1 h2 h3 h4
    exact hC mid1 st1 tc1 mid2 st2 tc2 (tr mid1 st1 h1) h2 (tr mid2 st2 h3) h4

theorem TInvL_nil {t : String} {r : Nat} (hr : r ≤ 2) : TInvL t [] r := by
  refine ⟨hr, ?_, ?_⟩
  · intro mid st tc h1 _
    cases h1
  · intro mid1 st1 tc1 mid2 st2 tc2 h1 _ _ _
    cases h1

theorem NSL_aset {t : String} {l : List (String × MessageStreamState)}
    {tctm : List (String × String)} {mid : String} {st' : MessageStreamState}
    (hst : alookup st'.toolCalls t = none) (h : NSL t l tctm) :
    NSL t (aset l mid st') tctm := by
  refine ⟨?_, h.2⟩
  intro mid0 st0 ha
  by_cases hm : mid0 = mid
  · subst hm
    rw [alookup_aset_self] at ha
    cases ha
    exact hst
  · rw [alookup_aset_ne _ _ hm] at ha
    exact h.1 mid0 st0 ha

theorem NSL_adel {t : String} {l : List (String × MessageStreamState)}
    {tctm : List (String × String)} (mid : String) (h : NSL t l tctm) :
    NSL t (adel l mid) tctm := by
  refine ⟨?_, h.2⟩
  intro mid0 st0 ha
  by_cases hm : mid0 = mid
  · subst hm
    rw [alookup_adel_self] at ha
    cases ha
  · rw [alookup_adel_ne _ hm] at ha
    exact h.1 mid0 st0 ha

theorem IdsOKL_aset {l : List (String × MessageStreamState)} {mid : String}
    {st' : MessageStreamState}
    (hst : ∀ k tc, alookup st'.toolCalls k = some tc → tc.id = k)
    (h : IdsOKL l) : IdsOKL (aset l mid st') := by
  intro mid0 st0 k tc ha hb
  by_cases hm : mid0 = mid
  · subst hm
    rw [alookup_aset_self] at ha
    cases ha
    exact hst k tc hb
  · rw [alookup_aset_ne _ _ hm] at ha
    exact h mid0 st0 k tc ha hb

theorem IdsOKL_adel {l : List (String × MessageStreamState)} (mid : String)
    (h : IdsOKL l) : IdsOKL (adel l mid) := by
  intro mid0 st0 k tc ha hb
  by_cases hm : mid0 = mid
  · subst hm
    rw [alookup_adel_self] at ha
    cases ha
  · rw [alookup_adel_ne _ hm] at ha
    exact h mid0 st0 k tc ha hb

theorem IdsOKL_nil : IdsOKL [] := by
  intro mid st k tc h1 _
  cases h1

theorem idsAset {st : MessageStreamState} {k : String}
    {tc' : InternalToolCallState}
    (h : ∀ k0 tc0, alookup st.toolCalls k0 = some tc0 → tc0.id = k0)
    (hid : tc'.id = k) :
    ∀ k0 tc0, alookup (aset st.toolCalls k tc') k0 = some tc0 → tc0.id = k0 := by
  intro k0 tc0 ha
  by_cases hk : k0 = k
  · subst hk
    rw [alookup_aset_self] at ha
    cases ha
    exact hid
  · rw [alookup_aset_ne _ _ hk] at ha
    exact h k0 tc0 ha

theorem tEmits_pair_tc (mid i : String) (s : ToolCallState) (a t : String) :
    tEmits [Emit.messagesChange, Emit.toolCallStateChange mid i s a] t =
      if i = t then [s] else [] := by
  by_cases h : i = t <;> simp [tEmits, h]

theorem TStep_ensure (t : String) (p : Processor) (pref : Option String) :
    TStep t p ((ensureAssistantMessage p pref).1,
      (ensureAssistantMessage p pref).2.1) := by
  unfold ensureAssistantMessage
  cases pref with
  | some pid =>
    dsimp only
    cases hps : (alookup p.messageStates pid).isSome with
    | true =>
      rw [if_pos rfl]
      exact TStep_silent rfl rfl rfl
    | false =>
      rw [if_neg (by simp)]
      dsimp only
      cases hga : getActiveAssistantMessageId p with
      | some aid => exact TStep_silent rfl rfl rfl
      | none =>
        dsimp only
        intro r hid hinv
        refine ⟨trivial, ?_, ?_, ?_⟩
        · exact TInvL_aset (Or.inl rfl) hinv
        · refine IdsOKL_aset ?_ hid
          intro k tc h1
          cases h1
        · intro hns
          exact ⟨NSL_aset rfl hns, rfl⟩
  | none =>
    dsimp only
    cases hga : getActiveAssistantMessageId p with
    | some aid => exact TStep_silent rfl rfl rfl
    | none =>
      dsimp only
      intro r hid hinv
      refine ⟨trivial, ?_, ?_, ?_⟩
      · exact TInvL_aset (Or.inl rfl) hinv
      · refine IdsOKL_aset ?_ hid
        intro k tc h1
        cases h1
      · intro hns
        exact ⟨NSL_aset rfl hns, rfl⟩

theorem TStep_emitTextUpdateForMessage (t : String) (p : Processor)
    (mid : String) : TStep t p (emitTextUpdateForMessage p mid) := by
  unfold emitTextUpdateForMessage
  cases h1 : alookup p.messageStates mid with
  | none => exact TStep_silent rfl rfl rfl
  | some st =>
    dsimp only
    intro r hid hinv
    refine ⟨trivial, ?_, ?_, ?_⟩
    · exact TInvL_aset (Or.inr ⟨st, h1, rfl⟩) hinv
    · exact IdsOKL_aset (fun k tc hb => hid mid st k tc h1 hb) hid
    · intro hns
      exact ⟨NSL_aset (hns.1 mid st h1) hns, rfl⟩

theorem TStep_flushIf (t : String) (p : Processor) (mid : String) (c : Prop)
    [Decidable c] :
    TStep t p (if c then emitTextUpdateForMessage p mid else (p, [])) := by
  by_cases hc : c
  · rw [if_pos hc]
    exact TStep_emitTextUpdateForMessage t p mid
  · rw [if_neg hc]
    exact TStep_silent rfl rfl rfl

theorem TStep_completeToolCall (t : String) (p : Processor)
    (mid tcid : String) : TStep t p (completeToolCall p mid tcid) := by
  unfold completeToolCall
  cases h1 : alookup p.messageStates mid with
  | none => exact TStep_silent rfl rfl rfl
  | some st =>
    dsimp only
    cases h2 : alookup st.toolCalls tcid with
    | none => exact TStep_silent rfl rfl rfl
    | some tc =>
      dsimp only
      intro r hid hinv
      have hidtc : tc.id = tcid := hid mid st tcid tc h1 h2
      rw [tEmits_pair_tc, hidtc]
      by_cases ht : tcid = t
      · subst ht
        rw [if_pos rfl]
        obtain ⟨hr2, hB, hC⟩ := hinv
        refine ⟨⟨rfl, ?_, trivial⟩, ?_, ?_, ?_⟩
        · show r ≤ 2
          exact hr2
        · show TInvL tcid (aset p.messageStates mid _) 2
          refine ⟨Nat.le_refl 2, ?_, ?_⟩
          · intro mid1 st1 tc1 ha hb
            by_cases hm : mid1 = mid
            · subst hm
              rw [alookup_aset_self] at ha
              cases ha
              rw [alookup_aset_self] at hb
              cases hb
              exact ⟨rfl, Nat.le_refl 2⟩
            · rw [alookup_aset_ne _ _ hm] at ha
              exact absurd (hC mid1 st1 tc1 mid st tc ha hb h1 h2) hm
          · intro mid1 st1 tc1 mid2 st2 tc2 ha hb hc2 hd
            by_cases hm1 : mid1 = mid
            · by_cases hm2 : mid2 = mid
              · rw [hm1, hm2]
              · rw [alookup_aset_ne _ _ hm2] at hc2
                exact absurd (hC mid2 st2 tc2 mid st tc hc2 hd h1 h2) hm2
            · rw [alookup_aset_ne _ _ hm1] at ha
              exact absurd (hC mid1 st1 tc1 mid st tc ha hb h1 h2) hm1
        · refine IdsOKL_aset ?_ hid
          exact idsAset (fun k0 tc0 hb => hid mid st k0 tc0 h1 hb) rfl
        · intro hns
          exact Option.noConfusion ((hns.1 mid st h1).symm.trans h2)
      · rw [if_neg ht]
        refine ⟨trivial, ?_, ?_, ?_⟩
        · refine TInvL_aset (Or.inr ⟨st, h1, ?_⟩) hinv
          exact alookup_aset_ne _ _ (fun hc => ht hc.symm)
        · refine IdsOKL_aset ?_ hid
          exact idsAset (fun k0 tc0 hb => hid mid st k0 tc0 h1 hb) rfl
        · intro hns
          refine ⟨NSL_aset ?_ hns, rfl⟩
          rw [alookup_aset_ne _ _ (fun hc => ht hc.symm)]
          exact hns.1 mid st h1

theorem TStep_completeToolCallsGo (t mid : String) (ids : List String) :
    ∀ p : Processor, TStep t p (completeToolCallsGo mid ids p) := by
  induction ids with
  | nil => intro p; exact TStep_silent rfl rfl rfl
  | cons i rest ih =>
    intro p
    unfold completeToolCallsGo
    dsimp only
    have hstep : TStep t p (match alookup p.messageStates mid with
        | none => (p, [])
        | some st =>
          match alookup st.toolCalls i with
          | none => (p, [])
          | some tc =>
            if tc.state = ToolCallState.inputComplete then (p, [])
            else completeToolCall p mid i) := by
      cases h1 : alookup p.messageStates mid with
      | none => exact TStep_silent rfl rfl rfl
      | some st =>
        dsimp only
        cases h2 : alookup st.toolCalls i with
        | none => exact TStep_silent rfl rfl rfl
        | some tc =>
          dsimp only
          by_cases h3 : tc.state = ToolCallState.inputComplete
          · rw [if_pos h3]
            exact TStep_silent rfl rfl rfl
          · rw [if_neg h3]
            exact TStep_completeToolCall t p mid i
    exact TStep_comp hstep (ih _)

theorem TStep_completeAllToolCallsForMessage (t : String) (p : Processor)
    (mid : String) : TStep t p (completeAllToolCallsForMessage p mid) := by
  unfold completeAllToolCallsForMessage
  cases h1 : alookup p.messageStates mid with
  | none => exact TStep_silent rfl rfl rfl
  | some st =>
    dsimp only
    exact TStep_completeToolCallsGo t mid _ p

theorem TStep_completeAllToolCallsGo (t : String) (ids : List String) :
    ∀ p : Processor, TStep t p (completeAllToolCallsGo ids p) := by
  induction ids with
  | nil => intro p; exact TStep_silent rfl rfl rfl
  | cons mid rest ih =>
    intro p
    unfold completeAllToolCallsGo
    dsimp only
    exact TStep_comp (TStep_completeAllToolCallsForMessage t p mid) (ih _)

theorem TStep_completeAllToolCalls (t : String) (p : Processor) :
    TStep t p (completeAllToolCalls p) := by
  unfold completeAllToolCalls
  exact TStep_completeAllToolCallsGo t _ p

theorem TStep_finalizeFlushPending (t : String) (p : Processor)
    (mid : String) : TStep t p (finalizeFlushPending p mid) := by
  unfold finalizeFlushPending
  cases h1 : alookup p.messageStates mid with
  | none => exact TStep_silent rfl rfl rfl
  | some st =>
    dsimp only
    exact TStep_flushIf t p mid _

theorem markComplete_states (p : Processor) (mid : String) :
    (markComplete p mid).messageStates = p.messageStates ∨
    ∃ st, alookup p.messageStates mid = some st ∧
      (markComplete p mid).messageStates =
        aset p.messageStates mid { st with isComplete := true } := by
  unfold markComplete
  cases h1 : alookup p.messageStates mid with
  | none => exact Or.inl rfl
  | some st => exact Or.inr ⟨st, rfl, rfl⟩

theorem markComplete_tctm (p : Processor) (mid : String) :
    (markComplete p mid).toolCallToMessage = p.toolCallToMessage := by
  unfold markComplete
  cases h1 : alookup p.messageStates mid with
  | none => rfl
  | some st => rfl

theorem TStep_markComplete (t : String) (p : Processor) (mid : String) :
    TStep t p (markComplete p mid, []) := by
  intro r hid hinv
  rcases markComplete_states p mid with heq | ⟨st, hst, heq⟩
  · rw [heq, markComplete_tctm]
    exact ⟨trivial, hinv, hid, fun hns => ⟨hns, rfl⟩⟩
  · rw [heq, markComplete_tctm]
    refine ⟨trivial, TInvL_aset (Or.inr ⟨st, hst, rfl⟩) hinv,
      IdsOKL_aset (fun k tc hb => hid mid st k tc hst hb) hid, ?_⟩
    intro hns
    exact ⟨NSL_aset (hns.1 mid st hst) hns, rfl⟩

theorem finalizePassStep_step (t : String)
    (acc : Processor × List Emit × Option UIMessage) (mid : String) :
    ∃ es0, (finalizePassStep acc mid).2.1 = acc.2.1 ++ es0 ∧
      TStep t acc.1 ((finalizePassStep acc mid).1, es0) := by
  unfold finalizePassStep
  cases h1 : alookup acc.1.messageStates mid with
  | none => exact ⟨[], (List.append_nil _).symm, TStep_silent rfl rfl rfl⟩
  | some st =>
    dsimp only
    refine ⟨(completeAllToolCallsForMessage acc.1 mid).2 ++
      (finalizeFlushPending (completeAllToolCallsForMessage acc.1 mid).1 mid).2,
      by rw [List.append_assoc], ?_⟩
    have hinner : TStep t (completeAllToolCallsForMessage acc.1 mid).1
        ((markComplete (finalizeFlushPending
            (completeAllToolCallsForMessage acc.1 mid).1 mid).1 mid),
          (finalizeFlushPending
            (completeAllToolCallsForMessage acc.1 mid).1 mid).2 ++ []) :=
      TStep_comp (TStep_finalizeFlushPending t _ mid) (TStep_markComplete t _ mid)
    rw [List.append_nil] at hinner
    exact TStep_comp (TStep_completeAllToolCallsForMessage t acc.1 mid) hinner

theorem TStep_foldl_pass (t : String) (ids : List String) :
    ∀ acc : Processor × List Emit × Option UIMessage,
      ∃ es', (ids.foldl finalizePassStep acc).2.1 = acc.2.1 ++ es' ∧
        TStep t acc.1 ((ids.foldl finalizePassStep acc).1, es') := by
  induction ids with
  | nil =>
    intro acc
    exact ⟨[], (List.append_nil _).symm, TStep_silent rfl rfl rfl⟩
  | cons i rest ih =>
    intro acc
    obtain ⟨es0, heq0, hstep0⟩ := finalizePassStep_step t acc i
    obtain ⟨es1, heq1, hstep1⟩ := ih (finalizePassStep acc i)
    refine ⟨es0 ++ es1, ?_, ?_⟩
    · show (rest.foldl finalizePassStep (finalizePassStep acc i)).2.1 = _
      rw [heq1, heq0, List.append_assoc]
    · have := TStep_comp hstep0 hstep1
      exact this

theorem TStep_finalizePass (t : String) (p : Processor) :
    TStep t p ((finalizePass p).1, (finalizePass p).2.1) := by
  unfold finalizePass
  obtain ⟨es', heq, hstep⟩ := TStep_foldl_pass t p.activeMessageIds (p, [], none)
  have h2 : es' = (p.activeMessageIds.foldl finalizePassStep (p, [], none)).2.1 := by
    rw [heq]
    rfl
  rw [← h2]
  exact hstep

theorem TStep_finalizeStream (t : String) (p : Processor) :
    TStep t p (finalizeStream p) := by
  unfold finalizeStream
  dsimp only
  cases h1 : (finalizePass p).2.2 with
  | none =>
    have h0 := TStep_finalizePass t p
    intro r hid hinv
    exact h0 r hid hinv
  | some la =>
    dsimp only
    by_cases h2 : (!{ (finalizePass p).1 with
        activeMessageIds := ([] : List String) }.hasError &&
        isWhitespaceOnlyMessage la) = true
    · rw [if_pos h2]
      have hsil : TStep t (finalizePass p).1
          ({ (finalizePass p).1 with
              messages := (finalizePass p).1.messages.filter
                (fun m => m.id ≠ la.id)
              activeMessageIds := ([] : List String) },
            [Emit.messagesChange]) :=
        TStep_silent rfl rfl rfl
      exact TStep_comp (TStep_finalizePass t p) hsil
    · rw [if_neg h2]
      have hsil : TStep t (finalizePass p).1
          (({ (finalizePass p).1 with
              activeMessageIds := ([] : List String) } : Processor),
            [Emit.streamEnd la.id]) :=
        TStep_silent rfl rfl rfl
      exact TStep_comp (TStep_finalizePass t p) hsil

theorem TInvL_move {t : String} {l : List (String × MessageStreamState)}
    {r : Nat} {pendingId messageId : String} {mv ex : MessageStreamState}
    (hne : pendingId ≠ messageId)
    (hex : alookup l pendingId = some ex)
    (hmv : alookup mv.toolCalls t = alookup ex.toolCalls t)
    (h : TInvL t l r) :
    TInvL t (aset (adel l pendingId) messageId mv) r := by
  obtain ⟨hr, hB, hC⟩ := h
  have tr : ∀ mid0 st0 tc0,
      alookup (aset (adel l pendingId) messageId mv) mid0 = some st0 →
      alookup st0.toolCalls t = some tc0 →
      ∃ mid1 st1, alookup l mid1 = some st1 ∧
        alookup st1.toolCalls t = some tc0 ∧
        (mid0 = messageId → mid1 = pendingId) ∧
        (mid0 ≠ messageId → mid1 = mid0) := by
    intro mid0 st0 tc0 ha hb
    by_cases hm : mid0 = messageId
    · subst hm
      rw [alookup_aset_self] at ha
      cases ha
      rw [hmv] at hb
      exact ⟨pendingId, ex, hex, hb, fun _ => rfl, fun hc => absurd rfl hc⟩
    · rw [alookup_aset_ne _ _ hm] at ha
      have hmp : mid0 ≠ pendingId := by
        intro hc
        subst hc
        rw [alookup_adel_self] at ha
        cases ha
      rw [alookup_adel_ne _ hmp] at ha
      exact ⟨mid0, st0, ha, hb, fun hc => absurd hc hm, fun _ => rfl⟩
  refine ⟨hr, ?_, ?_⟩
  · intro mid0 st0 tc0 ha hb
    obtain ⟨mid1, st1, h1, h2, _, _⟩ := tr mid0 st0 tc0 ha hb
    exact hB mid1 st1 tc0 h1 h2
  · intro mid1 st1 tc1 mid2 st2 tc2 ha hb hc2 hd
    obtain ⟨n1, s1, e1a, e1b, f1, g1⟩ := tr mid1 st1 tc1 ha hb
    obtain ⟨n2, s2, e2a, e2b, f2, g2⟩ := tr mid2 st2 tc2 hc2 hd
    have hn := hC n1 s1 tc1 n2 s2 tc2 e1a e1b e2a e2b
    by_cases k1 : mid1 = messageId
    · by_cases k2 : mid2 = messageId
      · rw [k1, k2]
      · exfalso
        have hm2 : mid2 = pendingId := by
          rw [← g2 k2, ← hn, f1 k1]
        subst hm2
        rw [alookup_aset_ne _ _ hne] at hc2
        rw [alookup_adel_self] at hc2
        cases hc2
    · by_cases k2 : mid2 = messageId
      · exfalso
        have hm1 : mid1 = pendingId := by
          rw [← g1 k1, hn, f2 k2]
        subst hm1
        rw [alookup_aset_ne _ _ hne] at ha
        rw [alookup_adel_self] at ha
        cases ha
      · rw [g1 k1, g2 k2] at hn
        exact hn

theorem TStep_handleTextMessageStartEvent (t : String) (p : Processor)
    (mid : String) (ro : ChunkRole) :
    TStep t p (handleTextMessageStartEvent p mid ro) := by
  unfold handleTextMessageStartEvent
  cases hpend : p.pendingManualMessageId with
  | some pendingId =>
    dsimp only
    by_cases hne : pendingId ≠ mid
    · rw [if_pos hne]
      dsimp only
      cases hms : alookup p.messageStates pendingId with
      | some existingState =>
        dsimp only
        cases hs2 : (alookup (aset (adel p.messageStates pendingId) mid
            { existingState with id := mid }) mid).isSome with
        | true =>
          rw [if_pos rfl]
          intro r hid hinv
          refine ⟨trivial, ?_, ?_, ?_⟩
          · exact TInvL_move hne hms rfl hinv
          · refine IdsOKL_aset ?_ (IdsOKL_adel pendingId hid)
            intro k tc hb
            exact hid pendingId existingState k tc hms hb
          · intro hns
            refine ⟨?_, rfl⟩
            refine NSL_aset ?_ (NSL_adel pendingId hns)
            exact hns.1 pendingId existingState hms
        | false =>
          rw [if_neg (by simp)]
          intro r hid hinv
          refine ⟨trivial, ?_, ?_, ?_⟩
          · exact TInvL_aset (Or.inl rfl)
              (TInvL_move hne hms rfl hinv)
          · refine IdsOKL_aset (fun k tc hb => by cases hb) ?_
            refine IdsOKL_aset ?_ (IdsOKL_adel pendingId hid)
            intro k tc hb
            exact hid pendingId existingState k tc hms hb
          · intro hns
            refine ⟨NSL_aset rfl ?_, rfl⟩
            refine NSL_aset ?_ (NSL_adel pendingId hns)
            exact hns.1 pendingId existingState hms
      | none =>
        dsimp only
        cases hs2 : (alookup p.messageStates mid).isSome with
        | true =>
          rw [if_pos rfl]
          exact TStep_silent rfl rfl rfl
        | false =>
          rw [if_neg (by simp)]
          intro r hid hinv
          refine ⟨trivial, ?_, ?_, ?_⟩
          · exact TInvL_aset (Or.inl rfl) hinv
          · exact IdsOKL_aset (fun k tc hb => by cases hb) hid
          · intro hns
            exact ⟨NSL_aset rfl hns, rfl⟩
    · rw [if_neg hne]
      dsimp only
      cases hs2 : (alookup p.messageStates mid).isSome with
      | true =>
        rw [if_pos rfl]
        exact TStep_silent rfl rfl rfl
      | false =>
        rw [if_neg (by simp)]
        intro r hid hinv
        refine ⟨trivial, ?_, ?_, ?_⟩
        · exact TInvL_aset (Or.inl rfl) hinv
        · exact IdsOKL_aset (fun k tc hb => by cases hb) hid
        · intro hns
          exact ⟨NSL_aset rfl hns, rfl⟩
  | none =>
    dsimp only
    cases hfind : p.messages.find? (fun m => m.id = mid) with
    | some mfound =>
      dsimp only
      cases hms : alookup p.messageStates mid with
      | none =>
        intro r hid hinv
        refine ⟨trivial, ?_, ?_, ?_⟩
        · exact TInvL_aset (Or.inl rfl) hinv
        · exact IdsOKL_aset (fun k tc hb => by cases hb) hid
        · intro hns
          exact ⟨NSL_aset rfl hns, rfl⟩
      | some st =>
        dsimp only
        by_cases htool : st.hasToolCallsSinceTextStart = true
        · rw [if_pos htool]
          generalize hg : ({ p with activeMessageIds := addActive p.activeMessageIds mid, pendingManualMessageId := none } : Processor) = q
          have hqs : alookup q.messageStates mid = some st := by
            rw [← hg]
            exact hms
          have hq : TStep t p (q, ([] : List Emit)) :=
            TStep_silent (by rw [← hg]) (by rw [← hg]) rfl
          have hflush : TStep t q (if st.currentSegmentText ≠ st.lastEmittedText
              then emitTextUpdateForMessage q mid else (q, [])) :=
            TStep_flushIf t q mid _
          generalize hg2 : (if st.currentSegmentText ≠ st.lastEmittedText then
              emitTextUpdateForMessage q mid else (q, [])) = s1 at hflush ⊢
          cases halo : alookup s1.1.messageStates mid with
          | some st2 =>
            dsimp only
            generalize hg3 : ({ st2 with currentSegmentText := "", lastEmittedText := "", hasToolCallsSinceTextStart := false } : MessageStreamState) = st3
            have hfin : TStep t s1.1
                ({ s1.1 with messageStates := aset s1.1.messageStates mid st3 },
                  ([] : List Emit)) := by
              intro r2 hid2 hinv2
              refine ⟨trivial, ?_, ?_, ?_⟩
              · refine TInvL_aset (Or.inr ⟨st2, halo, ?_⟩) hinv2
                rw [← hg3]
              · refine IdsOKL_aset ?_ hid2
                intro k tc hb
                rw [← hg3] at hb
                exact hid2 mid st2 k tc halo hb
              · intro hns2
                refine ⟨NSL_aset ?_ hns2, rfl⟩
                rw [← hg3]
                exact hns2.1 mid st2 halo
            have hcomb := TStep_comp hq (TStep_comp hflush hfin)
            simpa using hcomb
          | none =>
            have hcomb := TStep_comp hq hflush
            simpa using hcomb
        · rw [if_neg htool]
          exact TStep_silent rfl rfl rfl
    | none =>
      dsimp only
      intro r hid hinv
      refine ⟨trivial, ?_, ?_, ?_⟩
      · exact TInvL_aset (Or.inl rfl) hinv
      · exact IdsOKL_aset (fun k tc hb => by cases hb) hid
      · intro hns
        exact ⟨NSL_aset rfl hns, rfl⟩

theorem flushIf_lookup_isSome (q : Processor) (mid mid' : String) (c : Prop)
    [Decidable c]
    (h : (alookup q.messageStates mid').isSome = true) :
    (alookup (if c then emitTextUpdateForMessage q mid
        else (q, [])).1.messageStates mid').isSome = true := by
  by_cases hc : c
  · rw [if_pos hc]
    unfold emitTextUpdateForMessage
    cases h1 : alookup q.messageStates mid with
    | none => exact h
    | some st =>
      dsimp only
      by_cases hm : mid' = mid
      · subst hm
        rw [alookup_aset_self]
        rfl
      · rw [alookup_aset_ne _ _ hm]
        exact h
  · rw [if_neg hc]
    exact h

theorem TStep_contentFinish (t : String) (q : Processor) (mid : String)
    (st : MessageStreamState) (nt tt cp : String)
    (halo : alookup q.messageStates mid = some st) :
    TStep t q
      (let st4 : MessageStreamState :=
        { st with currentSegmentText := nt, totalTextContent := tt };
      let p4 : Processor :=
        { q with messageStates := aset q.messageStates mid st4 };
      if p4.shouldEmit cp st4.currentSegmentText &&
          st4.currentSegmentText ≠ st4.lastEmittedText then
        emitTextUpdateForMessage p4 mid
      else (p4, [])) := by
  dsimp only
  have hstep : TStep t q ({ q with messageStates := aset q.messageStates mid { st with currentSegmentText := nt, totalTextContent := tt } }, ([] : List Emit)) := by
    intro r hid hinv
    refine ⟨trivial, TInvL_aset (Or.inr ⟨st, halo, rfl⟩) hinv,
      IdsOKL_aset (fun k tc hb => hid mid st k tc halo hb) hid, ?_⟩
    intro hns
    exact ⟨NSL_aset (hns.1 mid st halo) hns, rfl⟩
  refine TStep_comp hstep ?_
  exact TStep_flushIf t _ mid _

theorem TStep_handleTextMessageContentEvent (t : String) (p : Processor)
    (mid0 : String) (delta content : Option String) :
    TStep t p (handleTextMessageContentEvent p mid0 delta content) := by
  unfold handleTextMessageContentEvent
  dsimp only
  have he := TStep_ensure t p (some mid0)
  generalize hge : ensureAssistantMessage p (some mid0) = e0 at he ⊢
  have hs1 := TStep_completeAllToolCallsForMessage t e0.1 e0.2.2
  generalize hgs : completeAllToolCallsForMessage e0.1 e0.2.2 = s1 at hs1 ⊢
  cases halo : alookup s1.1.messageStates e0.2.2 with
  | none => exact TStep_comp he hs1
  | some st =>
    dsimp only
    by_cases hnew : (st.hasToolCallsSinceTextStart &&
        decide (st.currentSegmentText.length > 0) &&
        isNewTextSegment content st.currentSegmentText) = true
    · rw [if_pos hnew]
      have hflush := TStep_flushIf t s1.1 e0.2.2
        (st.currentSegmentText ≠ st.lastEmittedText)
      generalize hgf : (if st.currentSegmentText ≠ st.lastEmittedText then
          emitTextUpdateForMessage s1.1 e0.2.2 else (s1.1, [])) = f at hflush ⊢
      cases halo2 : alookup f.1.messageStates e0.2.2 with
      | none =>
        exfalso
        have hx := flushIf_lookup_isSome s1.1 e0.2.2 e0.2.2
          (st.currentSegmentText ≠ st.lastEmittedText) (by rw [halo]; rfl)
        rw [hgf, halo2] at hx
        cases hx
      | some st2 =>
        dsimp only
        clear hnew
        have hfin : TStep t f.1
            ({ f.1 with messageStates := aset f.1.messageStates e0.2.2 { st2 with currentSegmentText := "", lastEmittedText := "", hasToolCallsSinceTextStart := false } },
              ([] : List Emit)) := by
          intro r2 hid2 hinv2
          refine ⟨trivial, ?_, ?_, ?_⟩
          · exact TInvL_aset (Or.inr ⟨st2, halo2, rfl⟩) hinv2
          · refine IdsOKL_aset ?_ hid2
            intro k tc hb
            exact hid2 e0.2.2 st2 k tc halo2 hb
          · intro hns2
            exact ⟨NSL_aset (hns2.1 e0.2.2 st2 halo2) hns2, rfl⟩
        have htail := TStep_contentFinish t
          ({ f.1 with messageStates := aset f.1.messageStates e0.2.2 { st2 with currentSegmentText := "", lastEmittedText := "", hasToolCallsSinceTextStart := false } } : Processor)
          e0.2.2
          ({ st2 with currentSegmentText := "", lastEmittedText := "", hasToolCallsSinceTextStart := false } : MessageStreamState)
          ((if (delta.getD "") ≠ "" then "" ++ delta.getD "" else match content with | some c => if c ≠ "" then (if strStartsWith c "" = true then c else if strStartsWith "" c = true then "" else "" ++ c) else "" | none => "") : String)
          (st2.totalTextContent ++ ((if (delta.getD "") ≠ "" then "" ++ delta.getD "" else match content with | some c => if c ≠ "" then (if strStartsWith c "" = true then c else if strStartsWith "" c = true then "" else "" ++ c) else "" | none => "") : String).drop ("" : String).length)
          (match delta with
            | some dd => if dd ≠ "" then dd else content.getD ""
            | none => content.getD "")
          (alookup_aset_self _ _ _)
        have hcomb := TStep_comp he (TStep_comp hs1 (TStep_comp hflush
          (TStep_comp hfin htail)))
        simpa using hcomb
    · rw [if_neg hnew]
      dsimp only
      clear hnew
      have htail := TStep_contentFinish t s1.1 e0.2.2 st
        ((if (delta.getD "") ≠ "" then st.currentSegmentText ++ delta.getD "" else match content with | some c => if c ≠ "" then (if strStartsWith c st.currentSegmentText = true then c else if strStartsWith st.currentSegmentText c = true then st.currentSegmentText else st.currentSegmentText ++ c) else st.currentSegmentText | none => st.currentSegmentText) : String)
        (st.totalTextContent ++ ((if (delta.getD "") ≠ "" then st.currentSegmentText ++ delta.getD "" else match content with | some c => if c ≠ "" then (if strStartsWith c st.currentSegmentText = true then c else if strStartsWith st.currentSegmentText c = true then st.currentSegmentText else st.currentSegmentText ++ c) else st.currentSegmentText | none => st.currentSegmentText) : String).drop st.currentSegmentText.length)
        (match delta with
          | some dd => if dd ≠ "" then dd else content.getD ""
          | none => content.getD "")
        halo
      have hcomb := TStep_comp he (TStep_comp hs1 htail)
      simpa using hcomb

theorem TStep_handleTextMessageEndEvent (t : String) (p : Processor)
    (mid : String) : TStep t p (handleTextMessageEndEvent p mid) := by
  unfold handleTextMessageEndEvent
  cases h1 : alookup p.messageStates mid with
  | none => exact TStep_silent rfl rfl rfl
  | some st =>
    dsimp only
    by_cases hic : st.isComplete = true
    · rw [if_pos hic]
      exact TStep_silent rfl rfl rfl
    · rw [if_neg hic]
      have hflush := TStep_flushIf t p mid
        (st.currentSegmentText ≠ st.lastEmittedText)
      generalize hgf : (if st.currentSegmentText ≠ st.lastEmittedText then
          emitTextUpdateForMessage p mid else (p, [])) = f at hflush ⊢
      exact TStep_comp hflush (TStep_completeAllToolCallsForMessage t f.1 mid)

theorem TStep_thinkFinish (t : String) (q : Processor) (mid : String)
    (st : MessageStreamState) (ntk : String)
    (halo : alookup q.messageStates mid = some st) :
    TStep t q
      ({ q with messageStates := aset q.messageStates mid { st with thinkingContent := ntk }, messages := updateThinkingPart q.messages mid ntk },
        [Emit.messagesChange, Emit.thinkingUpdate mid ntk]) := by
  intro r hid hinv
  refine ⟨trivial, TInvL_aset (Or.inr ⟨st, halo, rfl⟩) hinv,
    IdsOKL_aset (fun k tc hb => hid mid st k tc halo hb) hid, ?_⟩
  intro hns
  exact ⟨NSL_aset (hns.1 mid st halo) hns, rfl⟩

theorem TStep_handleStepFinishedEvent (t : String) (p : Processor)
    (delta content : Option String) :
    TStep t p (handleStepFinishedEvent p delta content) := by
  unfold handleStepFinishedEvent
  dsimp only
  have he := TStep_ensure t p (getActiveAssistantMessageId p)
  generalize hge : ensureAssistantMessage p (getActiveAssistantMessageId p) = e0 at he ⊢
  cases halo : alookup e0.1.messageStates e0.2.2 with
  | none => exact he
  | some st =>
    dsimp only
    have htail := TStep_thinkFinish t e0.1 e0.2.2 st
      (match delta with
        | some d =>
          if d ≠ "" then st.thinkingContent ++ d
          else
            match content with
            | some c =>
              if c ≠ "" then
                (if strStartsWith c st.thinkingContent = true then c
                 else if strStartsWith st.thinkingContent c = true then
                   st.thinkingContent
                 else st.thinkingContent ++ c)
              else st.thinkingContent
            | none => st.thinkingContent
        | none =>
          match content with
          | some c =>
            if c ≠ "" then
              (if strStartsWith c st.thinkingContent = true then c
               else if strStartsWith st.thinkingContent c = true then
                 st.thinkingContent
               else st.thinkingContent ++ c)
            else st.thinkingContent
          | none => st.thinkingContent)
      halo
    have hcomb := TStep_comp he htail
    simpa using hcomb

theorem TInvL_aset_statePres {t : String}
    {l : List (String × MessageStreamState)} {r : Nat} {mid : String}
    {st' st : MessageStreamState}
    (hst : alookup l mid = some st)
    (hpres : ∀ tc', alookup st'.toolCalls t = some tc' →
      ∃ tc, alookup st.toolCalls t = some tc ∧ tc'.state = tc.state)
    (h : TInvL t l r) : TInvL t (aset l mid st') r := by
  obtain ⟨hr, hB, hC⟩ := h
  refine ⟨hr, ?_, ?_⟩
  · intro mid1 st1 tc1 ha hb
    by_cases hm : mid1 = mid
    · subst hm
      rw [alookup_aset_self] at ha
      cases ha
      obtain ⟨tc, htc, hstate⟩ := hpres tc1 hb
      rw [hstate]
      exact hB mid1 st tc hst htc
    · rw [alookup_aset_ne _ _ hm] at ha
      exact hB mid1 st1 tc1 ha hb
  · intro mid1 st1 tc1 mid2 st2 tc2 ha hb hc2 hd
    have tr : ∀ mid0 st0 tc0, alookup (aset l mid st') mid0 = some st0 →
        alookup st0.toolCalls t = some tc0 →
        ∃ stx tcx, alookup l mid0 = some stx ∧
          alookup stx.toolCalls t = some tcx := by
      intro mid0 st0 tc0 ha0 hb0
      by_cases hm : mid0 = mid
      · subst hm
        rw [alookup_aset_self] at ha0
        cases ha0
        obtain ⟨tc, htc, _⟩ := hpres tc0 hb0
        exact ⟨st, tc, hst, htc⟩
      · rw [alookup_aset_ne _ _ hm] at ha0
        exact ⟨st0, tc0, ha0, hb0⟩
    obtain ⟨sx1, tx1, e1a, e1b⟩ := tr mid1 st1 tc1 ha hb
    obtain ⟨sx2, tx2, e2a, e2b⟩ := tr mid2 st2 tc2 hc2 hd
    exact hC mid1 sx1 tx1 mid2 sx2 tx2 e1a e1b e2a e2b

theorem TStep_setParsedArguments (t : String) (p : Processor)
    (mid tcid : String) (v : PJson) :
    TStep t p (setParsedArguments p mid tcid v, []) := by
  unfold setParsedArguments
  cases h1 : alookup p.messageStates mid with
  | none => exact TStep_silent rfl rfl rfl
  | some st =>
    dsimp only
    cases h2 : alookup st.toolCalls tcid with
    | none => exact TStep_silent rfl rfl rfl
    | some tc =>
      dsimp only
      intro r hid hinv
      refine ⟨trivial, ?_, ?_, ?_⟩
      · refine TInvL_aset_statePres h1 ?_ hinv
        intro tc' hb
        by_cases ht : t = tcid
        · subst ht
          rw [alookup_aset_self] at hb
          cases hb
          exact ⟨tc, h2, rfl⟩
        · rw [alookup_aset_ne _ _ ht] at hb
          exact ⟨tc', hb, rfl⟩
      · refine IdsOKL_aset ?_ hid
        exact idsAset (fun k0 tc0 hb => hid mid st k0 tc0 h1 hb)
          (hid mid st tcid tc h1 h2)
      · intro hns
        refine ⟨NSL_aset ?_ hns, rfl⟩
        by_cases ht : t = tcid
        · subst ht
          exact absurd h2 (by rw [hns.1 mid st h1]; exact fun h => Option.noConfusion h)
        · rw [alookup_aset_ne _ _ ht]
          exact hns.1 mid st h1

theorem TStep_comp_silent {t : String} {p : Processor}
    {out1 : Processor × List Emit} (h1 : TStep t p out1)
    (out : Processor × List Emit)
    (hm : out.1.messageStates = out1.1.messageStates)
    (ht : out.1.toolCallToMessage = out1.1.toolCallToMessage)
    (he : tEmits out.2 t = tEmits out1.2 t) : TStep t p out := by
  intro r hid hinv
  obtain ⟨hc, hinv1, hid1, hns1⟩ := h1 r hid hinv
  rw [hm, ht, he]
  refine ⟨hc, hinv1, hid1, ?_⟩
  intro hns
  exact hns1 hns

theorem TStep_handleToolCallEndEvent (t : String) (p : Processor)
    (tcid : String) (input result : Option String) :
    TStep t p (handleToolCallEndEvent p tcid input result) := by
  unfold handleToolCallEndEvent
  cases h1 : alookup p.toolCallToMessage tcid with
  | none => exact TStep_silent rfl rfl rfl
  | some mid =>
    dsimp only
    cases h2 : alookup p.messageStates mid with
    | none => exact TStep_silent rfl rfl rfl
    | some st =>
      dsimp only
      have hs1 : TStep t p (match alookup st.toolCalls tcid with
          | some tc =>
            if tc.state ≠ ToolCallState.inputComplete then
              let c := completeToolCall p mid tcid
              let p2 :=
                match input with
                | some v => setParsedArguments c.1 mid tcid (.given v)
                | none => c.1
              (p2, c.2)
            else (p, [])
          | none => (p, [])) := by
        cases h3 : alookup st.toolCalls tcid with
        | none => exact TStep_silent rfl rfl rfl
        | some tc =>
          dsimp only
          by_cases h4 : tc.state ≠ ToolCallState.inputComplete
          · rw [if_pos h4]
            cases input with
            | none => exact TStep_completeToolCall t p mid tcid
            | some v =>
              have hcomb := TStep_comp (TStep_completeToolCall t p mid tcid)
                (TStep_setParsedArguments t (completeToolCall p mid tcid).1
                  mid tcid (.given v))
              simpa using hcomb
          · rw [if_neg h4]
            exact TStep_silent rfl rfl rfl
      cases result with
      | none => exact hs1
      | some res =>
        dsimp only
        by_cases hres : res ≠ ""
        · rw [if_pos hres]
          refine TStep_comp_silent hs1 _ rfl rfl ?_
          rw [tEmits_append]
          simp [tEmits]
        · rw [if_neg hres]
          exact hs1

theorem TStep_handleToolCallArgsEvent (t : String) (p : Processor)
    (tcid d : String) : TStep t p (handleToolCallArgsEvent p tcid d) := by
  unfold handleToolCallArgsEvent
  cases h1 : alookup p.toolCallToMessage tcid with
  | none => exact TStep_silent rfl rfl rfl
  | some mid =>
    dsimp only
    cases h2 : alookup p.messageStates mid with
    | none => exact TStep_silent rfl rfl rfl
    | some st =>
      dsimp only
      cases h3 : alookup st.toolCalls tcid with
      | none => exact TStep_silent rfl rfl rfl
      | some tc =>
        dsimp only
        intro r hid hinv
        have hidtc : tc.id = tcid := hid mid st tcid tc h2 h3
        rw [tEmits_pair_tc, hidtc]
        by_cases ht : tcid = t
        · subst ht
          rw [if_pos rfl]
          have hchain3 : inChain3 tc.state = true ∧ r ≤ rank3 tc.state :=
            hinv.2.1 mid st tc h2 h3
          have hnewChain : inChain3 (if tc.state = ToolCallState.awaitingInput ∧
              d ≠ "" then ToolCallState.inputStreaming else tc.state) = true := by
            by_cases hw : tc.state = ToolCallState.awaitingInput ∧ d ≠ ""
            · rw [if_pos hw]
              rfl
            · rw [if_neg hw]
              exact hchain3.1
          have hnewRank : rank3 tc.state ≤ rank3
              (if tc.state = ToolCallState.awaitingInput ∧ d ≠ "" then
                ToolCallState.inputStreaming else tc.state) := by
            by_cases hw : tc.state = ToolCallState.awaitingInput ∧ d ≠ ""
            · rw [if_pos hw, hw.1]
              decide
            · rw [if_neg hw]
          obtain ⟨hr2, hB, hC⟩ := hinv
          refine ⟨⟨hnewChain, Nat.le_trans hchain3.2 hnewRank, trivial⟩,
            ?_, ?_, ?_⟩
          · refine ⟨?_, ?_, ?_⟩
            · cases hx : (if tc.state = ToolCallState.awaitingInput ∧ d ≠ ""
                  then ToolCallState.inputStreaming else tc.state) <;>
                simp [lastRankAfter, rank3]
            · intro mid1 st1 tc1 ha hb
              by_cases hm : mid1 = mid
              · subst hm
                rw [alookup_aset_self] at ha
                cases ha
                rw [alookup_aset_self] at hb
                cases hb
                exact ⟨hnewChain, Nat.le_refl _⟩
              · rw [alookup_aset_ne _ _ hm] at ha
                exact absurd (hC mid1 st1 tc1 mid st tc ha hb h2 h3) hm
            · intro mid1 st1 tc1 mid2 st2 tc2 ha hb hc2 hd
              by_cases hm1 : mid1 = mid
              · by_cases hm2 : mid2 = mid
                · rw [hm1, hm2]
                · rw [alookup_aset_ne _ _ hm2] at hc2
                  exact absurd (hC mid2 st2 tc2 mid st tc hc2 hd h2 h3) hm2
              · rw [alookup_aset_ne _ _ hm1] at ha
                exact absurd (hC mid1 st1 tc1 mid st tc ha hb h2 h3) hm1
          · refine IdsOKL_aset ?_ hid
            exact idsAset (fun k0 tc0 hb => hid mid st k0 tc0 h2 hb) rfl
          · intro hns
            exact Option.noConfusion ((hns.1 mid st h2).symm.trans h3)
        · rw [if_neg ht]
          refine ⟨trivial, ?_, ?_, ?_⟩
          · refine TInvL_aset (Or.inr ⟨st, h2, ?_⟩) hinv
            exact alookup_aset_ne _ _ (fun hc => ht hc.symm)
          · refine IdsOKL_aset ?_ hid
            exact idsAset (fun k0 tc0 hb => hid mid st k0 tc0 h2 hb) rfl
          · intro hns
            refine ⟨NSL_aset ?_ hns, rfl⟩
            rw [alookup_aset_ne _ _ (fun hc => ht hc.symm)]
            exact hns.1 mid st h2

theorem TStep_handleRunFinishedEvent (t : String) (p : Processor)
    (fr : String) : TStep t p (handleRunFinishedEvent p fr) := by
  unfold handleRunFinishedEvent
  dsimp only
  have hA : TStep t p
      (({ p with finishReason := some fr, isDone := true } : Processor),
        ([] : List Emit)) :=
    TStep_silent rfl rfl rfl
  have hcomb := TStep_comp hA (TStep_comp
    (TStep_completeAllToolCalls t
      ({ p with finishReason := some fr, isDone := true } : Processor))
    (TStep_finalizeStream t
      (completeAllToolCalls
        ({ p with finishReason := some fr, isDone := true } : Processor)).1))
  simpa using hcomb

theorem TStep_handleRunErrorEvent (t : String) (p : Processor)
    (msg : String) : TStep t p (handleRunErrorEvent p msg) := by
  unfold handleRunErrorEvent
  dsimp only
  have hA : TStep t p (({ p with hasError := true } : Processor),
      ([] : List Emit)) :=
    TStep_silent rfl rfl rfl
  have he := TStep_ensure t ({ p with hasError := true } : Processor) none
  have hsil : TStep t (ensureAssistantMessage
      ({ p with hasError := true } : Processor) none).1
      ((ensureAssistantMessage ({ p with hasError := true } : Processor)
          none).1,
        [Emit.errorEvent (if msg = "" then "An error occurred" else msg)]) :=
    TStep_silent rfl rfl rfl
  have hcomb := TStep_comp hA (TStep_comp he hsil)
  simpa using hcomb

theorem TStep_handleMessagesSnapshotEvent (t : String) (p : Processor)
    (msgs : List UIMessage) :
    TStep t p (handleMessagesSnapshotEvent p msgs) := by
  unfold handleMessagesSnapshotEvent resetStreamState
  dsimp only
  intro r hid hinv
  refine ⟨trivial, TInvL_nil hinv.1, IdsOKL_nil, ?_⟩
  intro _
  refine ⟨⟨?_, rfl⟩, rfl⟩
  intro mid st h1
  cases h1

theorem TStep_handleCustomEvent (t : String) (p : Processor) (name : String)
    (data : Option CustomData) :
    TStep t p (handleCustomEvent p name data) := by
  unfold handleCustomEvent
  dsimp only
  by_cases hn : name = "approval-requested"
  · subst hn
    rw [if_pos rfl]
    cases data with
    | none => exact TStep_silent rfl rfl rfl
    | some dd =>
      dsimp only
      cases hap : dd.approval with
      | none => exact TStep_silent rfl rfl rfl
      | some ap =>
        dsimp only
        cases hmid : getActiveAssistantMessageId p with
        | none => exact TStep_silent rfl rfl rfl
        | some mid =>
          dsimp only
          exact TStep_silent rfl rfl rfl
  · rw [if_neg hn]
    cases data with
    | none => exact TStep_silent rfl rfl rfl
    | some dd =>
      dsimp only
      by_cases hn2 : name = "tool-input-available"
      · rw [if_pos hn2]
        exact TStep_silent rfl rfl rfl
      · rw [if_neg hn2]
        exact TStep_silent rfl rfl rfl

theorem TStep_addToolApprovalResponse (t : String) (p : Processor)
    (aid : String) (approved : Bool) :
    TStep t p (addToolApprovalResponse p aid approved) :=
  TStep_silent rfl rfl rfl

/-- The message state with the segment-boundary flag set. -/
def flaggedState (st : MessageStreamState) : MessageStreamState :=
  { st with hasToolCallsSinceTextStart := true }

/-- The fresh tracked tool call created by a TOOL_CALL_START. -/
def newToolCall (t0 tname : String) (idx : Nat) : InternalToolCallState :=
  { id := t0, name := tname, arguments := "", state := .awaitingInput,
    parsedArguments := none, index := idx }

/-- The message state after a TOOL_CALL_START registers a fresh call. -/
def startedState (st : MessageStreamState) (t0 tname : String)
    (index : Option Nat) : MessageStreamState :=
  { st with
    hasToolCallsSinceTextStart := true
    toolCalls := aset st.toolCalls t0 (newToolCall t0 tname (index.getD st.toolCalls.length))
    toolCallOrder := st.toolCallOrder ++ [t0] }

/-- The preferred-message resolution of a TOOL_CALL_START: the parent id if
given, else the active assistant message. -/
def startTarget (p : Processor) (parent : Option String) : Option String :=
  match parent with
  | some x => some x
  | none => getActiveAssistantMessageId p

/-- The tail of `handleToolCallStartEvent` after the target message has been
resolved, as a standalone term. -/
def startTail (p0 : Processor) (es0 : List Emit) (mid t0 tname : String)
    (index : Option Nat) : Processor × List Emit :=
  match alookup p0.messageStates mid with
  | none => (p0, es0)
  | some st =>
    match alookup st.toolCalls t0 with
    | some _ =>
      ({ p0 with messageStates := aset p0.messageStates mid (flaggedState st) },
        es0)
    | none =>
      ({ p0 with
          messageStates := aset (aset p0.messageStates mid (flaggedState st)) mid (startedState st t0 tname index)
          toolCallToMessage := aset p0.toolCallToMessage t0 mid
          messages := updateToolCallPart p0.messages mid
            { id := t0, name := tname, arguments := "",
              state := .awaitingInput } },
        es0 ++ [Emit.messagesChange,
          Emit.toolCallStateChange mid t0 .awaitingInput ""])

theorem handleToolCallStartEvent_eq_startTail (p : Processor)
    (t0 tname : String) (parent : Option String) (index : Option Nat) :
    handleToolCallStartEvent p t0 tname parent index =
      startTail
        (ensureAssistantMessage p (startTarget p parent)).1
        (ensureAssistantMessage p (startTarget p parent)).2.1
        (ensureAssistantMessage p (startTarget p parent)).2.2
        t0 tname index := by
  unfold handleToolCallStartEvent startTail startTarget flaggedState startedState newToolCall
  dsimp only

theorem startTail_split (p0 : Processor) (es0 : List Emit)
    (mid t0 tname : String) (index : Option Nat) :
    startTail p0 es0 mid t0 tname index =
      ((startTail p0 [] mid t0 tname index).1,
        es0 ++ (startTail p0 [] mid t0 tname index).2) := by
  unfold startTail
  cases h1 : alookup p0.messageStates mid with
  | none => simp
  | some st =>
    dsimp only
    cases h2 : alookup st.toolCalls t0 with
    | some tc => simp
    | none => simp

theorem TStep_startTail_ne {t t0 : String} (hne : t0 ≠ t) (p0 : Processor)
    (mid tname : String) (index : Option Nat) :
    TStep t p0 (startTail p0 [] mid t0 tname index) := by
  unfold startTail
  cases h1 : alookup p0.messageStates mid with
  | none => exact TStep_silent rfl rfl rfl
  | some st =>
    dsimp only
    cases h2 : alookup st.toolCalls t0 with
    | some tc =>
      intro r hid hinv
      refine ⟨trivial, ?_, ?_, ?_⟩
      · exact TInvL_aset (Or.inr ⟨st, h1, rfl⟩) hinv
      · exact IdsOKL_aset (fun k tc0 hb => hid mid st k tc0 h1 hb) hid
      · intro hns
        exact ⟨NSL_aset (hns.1 mid st h1) hns, rfl⟩
    | none =>
      dsimp only
      intro r hid hinv
      have hemits : tEmits ([] ++ [Emit.messagesChange,
          Emit.toolCallStateChange mid t0 ToolCallState.awaitingInput ""]) t
          = [] := by
        rw [List.nil_append, tEmits_pair_tc, if_neg hne]
      have hmv : alookup (startedState st t0 tname index).toolCalls t =
          alookup (flaggedState st).toolCalls t := by
        show alookup (aset st.toolCalls t0
          (newToolCall t0 tname (index.getD st.toolCalls.length))) t =
          alookup st.toolCalls t
        exact alookup_aset_ne _ _ (Ne.symm hne)
      refine ⟨?_, ?_, ?_, ?_⟩
      · rw [hemits]
        exact trivial
      · rw [hemits]
        refine TInvL_aset (Or.inr ⟨flaggedState st, alookup_aset_self _ _ _, hmv⟩) ?_
        exact TInvL_aset (Or.inr ⟨st, h1, rfl⟩) hinv
      · refine IdsOKL_aset ?_ (IdsOKL_aset (fun k tc0 hb => hid mid st k tc0 h1 hb) hid)
        intro k tc0 hb
        have hb2 : alookup (aset st.toolCalls t0
            (newToolCall t0 tname (index.getD st.toolCalls.length))) k =
            some tc0 := hb
        have hidnew : (newToolCall t0 tname (index.getD st.toolCalls.length)).id = t0 := rfl
        exact idsAset (fun k1 tc1 hb1 => hid mid st k1 tc1 h1 hb1) hidnew k tc0 hb2
      · intro hns
        have hst0 : alookup (startedState st t0 tname index).toolCalls t = none := by
          rw [hmv]
          exact hns.1 mid st h1
        refine ⟨⟨?_, ?_⟩, hemits⟩
        · show ∀ mid1 st1,
            alookup (aset (aset p0.messageStates mid (flaggedState st)) mid
              (startedState st t0 tname index)) mid1 = some st1 →
            alookup st1.toolCalls t = none
          have hflag : alookup (flaggedState st).toolCalls t = none :=
            hns.1 mid st h1
          exact (NSL_aset hst0 (NSL_aset hflag hns)).1
        · show alookup (aset p0.toolCallToMessage t0 mid) t = none
          rw [alookup_aset_ne _ _ (Ne.symm hne)]
          exact hns.2

theorem TStep_toolCallStart_ne {t t0 : String} (hne : t0 ≠ t)
    (p : Processor) (tname : String) (parent : Option String)
    (index : Option Nat) :
    TStep t p (handleToolCallStartEvent p t0 tname parent index) := by
  rw [handleToolCallStartEvent_eq_startTail, startTail_split]
  exact TStep_comp (TStep_ensure t p (startTarget p parent))
    (TStep_startTail_ne hne _ _ _ _)

theorem TStart_self_tail (t tname : String) (index : Option Nat)
    (p0 : Processor) (mid : String)
    (hid : IdsOKL p0.messageStates) (hinv : TInvL t p0.messageStates 0)
    (hns : NSL t p0.messageStates p0.toolCallToMessage) :
    chainFrom 0 (tEmits (startTail p0 [] mid t tname index).2 t) ∧
    TInvL t (startTail p0 [] mid t tname index).1.messageStates
      (lastRankAfter 0 (tEmits (startTail p0 [] mid t tname index).2 t)) ∧
    IdsOKL (startTail p0 [] mid t tname index).1.messageStates := by
  unfold startTail
  cases h1 : alookup p0.messageStates mid with
  | none =>
    dsimp only
    exact ⟨trivial, hinv, hid⟩
  | some st =>
    dsimp only
    cases h2 : alookup st.toolCalls t with
    | some tc =>
      rw [hns.1 mid st h1] at h2
      cases h2
    | none =>
      dsimp only
      have hemits : tEmits ([] ++ [Emit.messagesChange,
          Emit.toolCallStateChange mid t ToolCallState.awaitingInput ""]) t
          = [ToolCallState.awaitingInput] := by
        rw [List.nil_append, tEmits_pair_tc, if_pos rfl]
      have hstarted : alookup (startedState st t tname index).toolCalls t =
          some (newToolCall t tname (index.getD st.toolCalls.length)) := by
        show alookup (aset st.toolCalls t
          (newToolCall t tname (index.getD st.toolCalls.length))) t = _
        exact alookup_aset_self _ _ _
      have hT : TInvL t (aset (aset p0.messageStates mid (flaggedState st))
          mid (startedState st t tname index)) 0 := by
        refine ⟨by decide, ?_, ?_⟩
        · intro mid0 st0 tc0 ha hb
          by_cases hm : mid0 = mid
          · subst hm
            rw [alookup_aset_self] at ha
            cases ha
            rw [hstarted] at hb
            cases hb
            exact ⟨rfl, Nat.le_refl 0⟩
          · rw [alookup_aset_ne _ _ hm, alookup_aset_ne _ _ hm] at ha
            rw [hns.1 mid0 st0 ha] at hb
            cases hb
        · intro mid1 st1 tc1 mid2 st2 tc2 ha1 hb1 ha2 hb2
          by_cases hm1 : mid1 = mid
          · by_cases hm2 : mid2 = mid
            · rw [hm1, hm2]
            · rw [alookup_aset_ne _ _ hm2, alookup_aset_ne _ _ hm2] at ha2
              rw [hns.1 mid2 st2 ha2] at hb2
              cases hb2
          · rw [alookup_aset_ne _ _ hm1, alookup_aset_ne _ _ hm1] at ha1
            rw [hns.1 mid1 st1 ha1] at hb1
            cases hb1
      refine ⟨?_, ?_, ?_⟩
      · rw [hemits]
        exact ⟨rfl, Nat.le_refl 0, trivial⟩
      · rw [hemits]
        exact hT
      · refine IdsOKL_aset ?_ (IdsOKL_aset (fun k tc0 hb => hid mid st k tc0 h1 hb) hid)
        intro k tc0 hb
        have hb2 : alookup (aset st.toolCalls t
            (newToolCall t tname (index.getD st.toolCalls.length))) k =
            some tc0 := hb
        have hidnew : (newToolCall t tname (index.getD st.toolCalls.length)).id = t := rfl
        exact idsAset (fun k1 tc1 hb1 => hid mid st k1 tc1 h1 hb1) hidnew k tc0 hb2

theorem TStart_self (t tname : String) (parent : Option String)
    (index : Option Nat) (p : Processor)
    (hid : IdsOKL p.messageStates) (hinv : TInvL t p.messageStates 0)
    (hns : NSL t p.messageStates p.toolCallToMessage) :
    chainFrom 0 (tEmits (handleToolCallStartEvent p t tname parent index).2 t) ∧
    TInvL t (handleToolCallStartEvent p t tname parent index).1.messageStates
      (lastRankAfter 0
        (tEmits (handleToolCallStartEvent p t tname parent index).2 t)) ∧
    IdsOKL (handleToolCallStartEvent p t tname parent index).1.messageStates := by
  rw [handleToolCallStartEvent_eq_startTail, startTail_split]
  obtain ⟨hc1, hinv1, hid1, hns1⟩ :=
    TStep_ensure t p (startTarget p parent) 0 hid hinv
  obtain ⟨hns1q, hemp⟩ := hns1 hns
  rw [hemp] at hinv1
  obtain ⟨hc2, hinv2, hid2⟩ := TStart_self_tail t tname index
    (ensureAssistantMessage p (startTarget p parent)).1
    (ensureAssistantMessage p (startTarget p parent)).2.2 hid1 hinv1 hns1q
  refine ⟨?_, ?_, ?_⟩
  · show chainFrom 0 (tEmits
      ((ensureAssistantMessage p (startTarget p parent)).2.1 ++
        (startTail (ensureAssistantMessage p (startTarget p parent)).1 []
          (ensureAssistantMessage p (startTarget p parent)).2.2 t tname index).2) t)
    rw [tEmits_append, hemp, List.nil_append]
    exact hc2
  · show TInvL t (startTail (ensureAssistantMessage p (startTarget p parent)).1 []
        (ensureAssistantMessage p (startTarget p parent)).2.2 t tname
        index).1.messageStates
      (lastRankAfter 0 (tEmits
        ((ensureAssistantMessage p (startTarget p parent)).2.1 ++
          (startTail (ensureAssistantMessage p (startTarget p parent)).1 []
            (ensureAssistantMessage p (startTarget p parent)).2.2 t tname
            index).2) t))
    rw [tEmits_append, hemp, List.nil_append]
    exact hinv2
  · exact hid2

theorem runOps_cons_snd (p : Processor) (op : Op) (rest : List Op) :
    (runOps p (op :: rest)).2 =
      (applyOp p op).2 ++ (runOps (applyOp p op).1 rest).2 := rfl

theorem runOps_chainFrom_step (t : String) (p : Processor) (op : Op)
    (rest : List Op) (r : Nat) (started : Bool)
    (ts : TStep t p (applyOp p op))
    (ih : ∀ (p : Processor) (r : Nat) (started : Bool),
      (startIds rest).Nodup → (started = true → t ∉ startIds rest) →
      IdsOKL p.messageStates → TInvL t p.messageStates r →
      (started = false → NSL t p.messageStates p.toolCallToMessage ∧ r = 0) →
      chainFrom r (tEmits (runOps p rest).2 t))
    (hnodup : (startIds rest).Nodup)
    (hnotin : started = true → t ∉ startIds rest)
    (hid : IdsOKL p.messageStates) (hinv : TInvL t p.messageStates r)
    (hns0 : started = false → NSL t p.messageStates p.toolCallToMessage ∧ r = 0) :
    chainFrom r (tEmits (runOps p (op :: rest)).2 t) := by
  obtain ⟨hc1, hinv1, hid1, hns1⟩ := ts r hid hinv
  rw [runOps_cons_snd, tEmits_append]
  refine chainFrom_append hc1 ?_
  refine ih _ _ started hnodup hnotin hid1 hinv1 ?_
  intro hs
  obtain ⟨hnsp, hr0⟩ := hns0 hs
  obtain ⟨hnsq, hemp⟩ := hns1 hnsp
  refine ⟨hnsq, ?_⟩
  rw [hemp]
  exact hr0

theorem runOps_chainFrom (t : String) :
    ∀ (ops : List Op) (p : Processor) (r : Nat) (started : Bool),
      (startIds ops).Nodup →
      (started = true → t ∉ startIds ops) →
      IdsOKL p.messageStates →
      TInvL t p.messageStates r →
      (started = false → NSL t p.messageStates p.toolCallToMessage ∧ r = 0) →
      chainFrom r (tEmits (runOps p ops).2 t) := by
  intro ops
  induction ops with
  | nil =>
    intro p r started _ _ _ _ _
    exact trivial
  | cons op rest ih =>
    intro p r started hnodup hnotin hid hinv hns0
    cases op with
    | approvalResponse aid approved =>
      exact runOps_chainFrom_step t p _ rest r started
        (TStep_addToolApprovalResponse t p aid approved) ih hnodup hnotin
        hid hinv hns0
    | chunk c =>
      cases c with
      | textMessageStart mid ro =>
        exact runOps_chainFrom_step t p _ rest r started
          (TStep_handleTextMessageStartEvent t p mid ro) ih hnodup hnotin
          hid hinv hns0
      | textMessageContent mid delta content =>
        exact runOps_chainFrom_step t p _ rest r started
          (TStep_handleTextMessageContentEvent t p mid delta content) ih
          hnodup hnotin hid hinv hns0
      | textMessageEnd mid =>
        exact runOps_chainFrom_step t p _ rest r started
          (TStep_handleTextMessageEndEvent t p mid) ih hnodup hnotin
          hid hinv hns0
      | toolCallArgs tcid d =>
        exact runOps_chainFrom_step t p _ rest r started
          (TStep_handleToolCallArgsEvent t p tcid d) ih hnodup hnotin
          hid hinv hns0
      | toolCallEnd tcid input result =>
        exact runOps_chainFrom_step t p _ rest r started
          (TStep_handleToolCallEndEvent t p tcid input result) ih hnodup
          hnotin hid hinv hns0
      | runFinished fr =>
        exact runOps_chainFrom_step t p _ rest r started
          (TStep_handleRunFinishedEvent t p fr) ih hnodup hnotin
          hid hinv hns0
      | runError msg =>
        exact runOps_chainFrom_step t p _ rest r started
          (TStep_handleRunErrorEvent t p msg) ih hnodup hnotin hid hinv hns0
      | stepFinished delta content =>
        exact runOps_chainFrom_step t p _ rest r started
          (TStep_handleStepFinishedEvent t p delta content) ih hnodup
          hnotin hid hinv hns0
      | messagesSnapshot msgs =>
        exact runOps_chainFrom_step t p _ rest r started
          (TStep_handleMessagesSnapshotEvent t p msgs) ih hnodup hnotin
          hid hinv hns0
      | custom name data =>
        exact runOps_chainFrom_step t p _ rest r started
          (TStep_handleCustomEvent t p name data) ih hnodup hnotin
          hid hinv hns0
      | other s =>
        exact runOps_chainFrom_step t p _ rest r started
          (TStep_silent rfl rfl rfl) ih hnodup hnotin hid hinv hns0
      | toolCallStart t0 tname parent index =>
        by_cases ht0 : t = t0
        · rcases ht0 with rfl
          cases started with
          | true =>
            exact absurd (List.mem_cons_self t (startIds rest)) (hnotin rfl)
          | false =>
            obtain ⟨hnsp, hr0⟩ := hns0 rfl
            subst hr0
            obtain ⟨hcs, hinvs, hids⟩ :=
              TStart_self t tname parent index p hid hinv hnsp
            rw [runOps_cons_snd, tEmits_append]
            refine chainFrom_append hcs ?_
            have hnodup2 : (t :: startIds rest).Nodup := hnodup
            refine ih _ _ true (List.nodup_cons.mp hnodup2).2
              (fun _ => (List.nodup_cons.mp hnodup2).1) hids hinvs ?_
            intro hfalse
            exact Bool.noConfusion hfalse
        · have hnodup2 : (t0 :: startIds rest).Nodup := hnodup
          refine runOps_chainFrom_step t p _ rest r started
            (TStep_toolCallStart_ne (Ne.symm ht0) p tname parent index) ih
            (List.nodup_cons.mp hnodup2).2 ?_ hid hinv hns0
          intro hs hmem
          exact hnotin hs (List.mem_cons_of_mem _ hmem)

/-- **C2 (amended).** For every tool call id, over any sequence of
`processChunk` and `addToolApprovalResponse` operations from a fresh
processor in which no two TOOL_CALL_START events carry the same toolCallId,
every state reported by `onToolCallStateChange` for that id belongs to the
input lifecycle chain (awaiting-input, input-streaming, input-complete) and
the reported sequence never regresses under the ordering awaiting-input <
input-streaming < input-complete; transitions may be telescoped.  (With
duplicate TOOL_CALL_START ids the reported sequence can regress, and the
state stored on the ToolCallPart can regress from approval-responded to
approval-requested even without duplicates: `claim_C2_counterexample`.) -/
theorem claim_C2_amended_tool_call_monotonicity
    (strategy : String → String → Bool) (ops : List Op) (t : String)
    (hnodup : (startIds ops).Nodup) :
    (∀ s ∈ tEmits (runOps (initProcessor strategy) ops).2 t,
      inChain3 s = true) ∧
    List.Chain' (fun a b => noRegression a b = true)
      (tEmits (runOps (initProcessor strategy) ops).2 t) := by
  have hchain : chainFrom 0
      (tEmits (runOps (initProcessor strategy) ops).2 t) := by
    refine runOps_chainFrom t ops (initProcessor strategy) 0 false hnodup
      (fun hs => Bool.noConfusion hs) IdsOKL_nil (TInvL_nil (Nat.zero_le 2)) ?_
    intro _
    refine ⟨⟨?_, rfl⟩, rfl⟩
    intro mid st h1
    exact Option.noConfusion h1
  exact ⟨chainFrom_all hchain, chainFrom_chain' hchain⟩

/-- Operations for the C2 witness: one full tool-call round with an approval
exchange, no duplicate TOOL_CALL_START ids. -/
def wOpsC2 : List Op :=
  [.chunk (.toolCallStart "t1" "calc" none none),
   .chunk (.toolCallArgs "t1" "\x7b\x7d"),
   .chunk (.toolCallEnd "t1" none (some "4")),
   .approvalResponse "a1" true,
   .chunk (.runFinished "stop")]

theorem claim_C2_witness :
    ((startIds wOpsC2).Nodup) ∧
    ((∀ s ∈ tEmits (runOps (initProcessor immediateStrategy) wOpsC2).2 "t1",
        inChain3 s = true) ∧
      List.Chain' (fun a b => noRegression a b = true)
        (tEmits (runOps (initProcessor immediateStrategy) wOpsC2).2 "t1")) :=
  ⟨by decide,
    claim_C2_amended_tool_call_monotonicity immediateStrategy wOpsC2 "t1"
      (by decide)⟩
